import Mathlib

/-!
# Matrix transforms of `src/res/matrix.c`

A shallow embedding of the dense-matrix engine (`scale_matrix`, `select_region`,
`paste`, ... of `src/res/matrix.c`) and theorems about it.

The float arithmetic of the engine is embedded twice.

* The exact layer (namespace `MatrixRes`) takes a C `float` for a value of `Flt`: an
  exact rational number or NaN, without rounding and without infinities.  It carries
  the properties that do not depend on rounding: which cells an operation reads and
  writes (`select_region`, `paste`, `translation`, the reads of `scale_matrix` outside
  its source), the clamp, the negative case of `test_float`, and the relation between
  `average_darkness` and the two projections, which is a statement about exact means.
* The binary32 layer (namespace `MatrixRes.Binary32`) takes a C `float` for a value of
  `F32`: NaN, an infinity, or a finite number, every operation being the exact result
  rounded to IEEE-754 binary32 (`round32`: 24 significant bits, round to nearest, ties
  to even, subnormal numbers, overflow to an infinity).  It carries the properties that
  rounding or the range of `int` decides: the dimensions `scale_matrix` returns, the
  identity scale, the adjustment search, `calc_pos` and the density projections.  The
  inputs on which the exact layer shows the code to fail are run again on this layer
  (`float_layer_agrees`, `scale_matrix_clamped_float`), with the same results.

Modelling conventions.

* Exact layer: arithmetic on numbers is exact; NaN propagates through `+`, `*` and `/`
  and compares false with everything; a division by zero gives NaN.  Scale factors and
  pixel coordinates are numbers (`ℚ`); only matrix elements may be NaN.  Conversion of
  a float to `int` truncates toward zero (`to_int`).
* Binary32 layer: each operation is rounded to binary32 on its own (no extended
  precision, no fused multiply-add); the sign of a zero is not tracked.  A conversion
  of a float to `int` truncates toward zero and is undefined, as in C, for NaN, for the
  infinities and when the truncated value is no 32-bit `int`; a conversion of an `int`
  to float rounds.  A call ends in one of three ways (`outcome`): it returns, it runs
  into undefined behaviour, or its loop is still running when the fuel is used up.
* A C `int` is an `Int`; 32-bit wrap-around of index arithmetic is not modelled.
  Integer division is `Int.tdiv` and the remainder `%` is `Int.tmod`.
* `float *array` is the memory seen from the base pointer: a total function from
  offsets to floats.  Offsets `0 .. len-1` are the allocated buffer; the other offsets
  are whatever memory surrounds it, so that a read the C code performs past the
  buffer returns an arbitrary value instead of being left out of the model.
* `malloc` succeeds and returns uninitialised storage: every allocating operation takes
  the prior contents `heap` of the fresh block as an extra argument.
* The `while` loop of `adjust_scale_factor` may not terminate; it is run with fuel.
  The exact layer returns `none` when the fuel is exhausted.
-/

namespace MatrixRes

/-! ## Floats -/

/-- A C `float`: NaN or an exact rational number. -/
inductive Flt where
  | nan : Flt
  | val : ℚ → Flt
deriving DecidableEq

namespace Flt

/-- Float addition; NaN propagates. -/
def add : Flt → Flt → Flt
  | val a, val b => val (a + b)
  | _, _ => nan

/-- Float multiplication; NaN propagates (also `0 * NaN`). -/
def mul : Flt → Flt → Flt
  | val a, val b => val (a * b)
  | _, _ => nan

/-- Float division; NaN propagates.  A division by zero gives NaN or an infinity in C;
the embedding has no infinities and gives NaN. -/
def div : Flt → Flt → Flt
  | val a, val b => if b = 0 then nan else val (a / b)
  | _, _ => nan

instance : Add Flt := ⟨add⟩
instance : Mul Flt := ⟨mul⟩
instance : Div Flt := ⟨div⟩
instance : Zero Flt := ⟨val 0⟩

/-- Floats under addition, with zero `val 0`: the structure in which sums of floats
are taken. -/
instance (priority := low) : AddCommMonoid Flt where
  add := add
  zero := val 0
  nsmul := nsmulRec
  nsmul_zero := fun _ => rfl
  nsmul_succ := fun _ _ => rfl
  add_assoc := by
    intro a b c
    show add (add a b) c = add a (add b c)
    cases a <;> cases b <;> cases c <;> simp [add, add_assoc]
  zero_add := by
    intro a
    show add (val 0) a = a
    cases a <;> simp [add]
  add_zero := by
    intro a
    show add a (val 0) = a
    cases a <;> simp [add]
  add_comm := by
    intro a b
    show add a b = add b a
    cases a <;> cases b <;> simp [add, add_comm]

/-- C's `isnan`. -/
def isnan : Flt → Bool
  | nan => true
  | val _ => false

/-- Float comparison `a < b`; false as soon as one side is NaN. -/
def lt : Flt → Flt → Bool
  | val a, val b => decide (a < b)
  | _, _ => false

/-- Float comparison `a > b`. -/
def gt (a b : Flt) : Bool := lt b a

/-- Test that a float is a number of the interval `[lo, hi]`. -/
def within (lo hi : ℚ) : Flt → Bool
  | val q => decide (lo ≤ q ∧ q ≤ hi)
  | nan => false

/-- The rational value of a float that is a number (0 for NaN). -/
def number : Flt → ℚ
  | val q => q
  | nan => 0

end Flt

/-- Conversion of a float to `int` (`int i = f;`): truncation toward zero. -/
def to_int (q : ℚ) : Int := Int.tdiv q.num q.den

/-! ## Data model -/

/-- The struct `matrix` (`matrix_T`), without its method pointers.  `array` is the
memory at the base pointer, `len` the number of floats `create_matrix` allocated
for it, `x` the width and `y` the height. -/
structure matrix where
  array : Int → Flt
  len : Int
  x : Int
  y : Int

/-- The struct `pos` (`pos_T`). -/
structure pos where
  floored : Int
  decimal : ℚ
deriving DecidableEq

/-- The read `matrix_p->array[i]`. -/
def matrix.get (m : matrix) (i : Int) : Flt := m.array i

/-- The write `matrix_p->array[i] = v`. -/
def matrix.set (m : matrix) (i : Int) (v : Flt) : matrix :=
  { m with array := fun k => if k = i then v else m.array k }

/-- The element at `(row, col)` in row-major layout: `array[row * x + col]`. -/
def matrix.elem (m : matrix) (row col : Int) : Flt := m.array (row * m.x + col)

/-- The `n` first iterations `0, 1, ..., n-1` of a counting loop, in order. -/
def iterate_upto {σ : Type} : Nat → (Int → σ → σ) → σ → σ
  | 0, _, s => s
  | k + 1, body, s => body (k : Int) (iterate_upto k body s)

/-- The loop `for (int i = 0; i < n; i++) body`. -/
def for_loop {σ : Type} (n : Int) (body : Int → σ → σ) (s : σ) : σ :=
  iterate_upto n.toNat body s

/-- Function `create_matrix(height, width)`: a block of `height * width` floats with
unspecified contents `heap`, and the two dimension fields. -/
def create_matrix (height width : Int) (heap : Int → Flt) : matrix :=
  { array := heap, len := height * width, x := width, y := height }

/-- Library call `memcpy(dst, src, n * sizeof(float))`: the first `n` floats of `src` over `dst`. -/
def memcpy (dst src : Int → Flt) (n : Int) : Int → Flt :=
  fun k => if 0 ≤ k ∧ k < n then src k else dst k

/-! ## Scaling -/

/-- The local array `float known_points[4]`. -/
def known_points (a b c d : Flt) : Nat → Flt
  | 0 => a
  | 1 => b
  | 2 => c
  | _ => d

/-- Function `bilinear_approximation`: the weighted sum of the four known points. -/
def bilinear_approximation (known_points : Nat → Flt) (x y : ℚ) : Flt :=
  let output : Flt := Flt.val 0
  let output := output + Flt.val ((1 - x) * (1 - y)) * known_points 0
  let output := output + Flt.val (x * (1 - y)) * known_points 1
  let output := output + Flt.val ((1 - x) * y) * known_points 2
  let output := output + Flt.val (x * y) * known_points 3
  output

/-- Function `calc_pos`: the part of `N` before the point, by conversion to `int`, and the
rest. -/
def calc_pos (N : ℚ) : pos :=
  let floored : Int := to_int N
  { floored := floored, decimal := N - floored }

/-- Function `test_float`: false when the decimal part is positive, true otherwise. -/
def test_float (x : ℚ) : Bool :=
  let result := calc_pos x
  if result.decimal > 0 then false else true

/-- The `while (valid_factor == false)` loop of `adjust_scale_factor`, started with
the scale factor and `escape_counter` given; `some (scale_factor, escape_counter)`
at the exit of the loop, `none` when `fuel` iterations were not enough. -/
def adjust_loop (height width step : ℚ) : Nat → ℚ → Int → Option (ℚ × Int)
  | 0, _, _ => none
  | fuel + 1, scale_factor, escape_counter =>
    let scale_factor := scale_factor + step
    let escape_counter := escape_counter + 1
    let valid_height := test_float (scale_factor * height)
    let valid_width := test_float (scale_factor * width)
    let valid_factor := false
    let valid_factor := if valid_height && valid_width then true else valid_factor
    let valid_factor :=
      if valid_width && decide (escape_counter > 1000000) then true else valid_factor
    if valid_factor then some (scale_factor, escape_counter)
    else adjust_loop height width step fuel scale_factor escape_counter

/-- Function `adjust_scale_factor`: the new `(height, width, scale_factor)` it leaves behind
its three pointers. -/
def adjust_scale_factor (height width scale_factor step : ℚ) (fuel : Nat) :
    Option (ℚ × ℚ × ℚ) :=
  let scale_factor := scale_factor - step
  let escape_counter : Int := 0
  match adjust_loop height width step fuel scale_factor escape_counter with
  | none => none
  | some (scale_factor, _) => some (height * scale_factor, width * scale_factor, scale_factor)

/-- The exit condition of the search loop at its iteration `k` (counted from 1), for a
loop entered with the scale factor and `escape_counter` given: both products test
integral, or the width product does and the counter is above 1000000. -/
def exit_test (height width step scale_factor : ℚ) (escape_counter : Int) (k : Nat) : Bool :=
  let scale_factor := scale_factor + k * step
  let escape_counter := escape_counter + k
  (test_float (scale_factor * height) && test_float (scale_factor * width)) ||
    (test_float (scale_factor * width) && decide (escape_counter > 1000000))

/-- The source position of destination column `x` (`x_pos`, lines 169 and 171). -/
def src_x_pos (matrix_p : matrix) (new_width : ℚ) (x : Int) : pos :=
  let x_as_frac : ℚ := x / new_width
  calc_pos (x_as_frac * matrix_p.x)

/-- The source position of destination row `y` (`y_pos`, lines 170 and 172). -/
def src_y_pos (matrix_p : matrix) (new_height : ℚ) (y : Int) : pos :=
  let y_as_frac : ℚ := y / new_height
  calc_pos (y_as_frac * matrix_p.y)

/-- The four reads that fill `known_points` (lines 173-178). -/
def gather (matrix_p : matrix) (x_pos y_pos : pos) : Nat → Flt :=
  known_points
    (matrix_p.get (((y_pos.floored + 0) * matrix_p.x) + x_pos.floored + 0))
    (matrix_p.get (((y_pos.floored + 0) * matrix_p.x) + x_pos.floored + 1))
    (matrix_p.get (((y_pos.floored + 1) * matrix_p.x) + x_pos.floored + 0))
    (matrix_p.get (((y_pos.floored + 1) * matrix_p.x) + x_pos.floored + 1))

/-- The `(row, col)` source positions of the four reads of `gather`, in the order of
`known_points`. -/
def neighbour_cells (x_pos y_pos : pos) : Nat → Int × Int
  | 0 => (y_pos.floored + 0, x_pos.floored + 0)
  | 1 => (y_pos.floored + 0, x_pos.floored + 1)
  | 2 => (y_pos.floored + 1, x_pos.floored + 0)
  | _ => (y_pos.floored + 1, x_pos.floored + 1)

/-- The interpolated `value` of destination pixel `(x, y)` before the clamp
(lines 169-180). -/
def interpolate (matrix_p : matrix) (new_width new_height : ℚ) (x y : Int) : Flt :=
  let x_pos := src_x_pos matrix_p new_width x
  let y_pos := src_y_pos matrix_p new_height y
  bilinear_approximation (gather matrix_p x_pos y_pos) x_pos.decimal y_pos.decimal

/-- The clamp of line 182. -/
def clamp (value : Flt) : Flt :=
  if value.isnan || value.gt (Flt.val 10000) || value.lt (Flt.val 0) then Flt.val 0 else value

/-- Lines 161-188 of `scale_matrix`: allocation of the target and the resampling
loops, from the float dimensions computed before. -/
def resample (matrix_p : matrix) (new_height new_width : ℚ) (heap : Int → Flt) : matrix :=
  let int_height : Int := to_int new_height
  let int_width : Int := to_int new_width
  let scaled_matrix := create_matrix int_height int_width heap
  for_loop int_height (fun y scaled_matrix =>
    for_loop int_width (fun x scaled_matrix =>
      let value := interpolate matrix_p new_width new_height x y
      let value := clamp value
      scaled_matrix.set ((y * scaled_matrix.x) + x) value) scaled_matrix) scaled_matrix

/-- Function `scale_matrix`; `none` when the adjustment search did not stop within `fuel`
iterations. -/
def scale_matrix (matrix_p : matrix) (scale_factor : ℚ) (adjust : Bool)
    (heap : Int → Flt) (fuel : Nat) : Option matrix :=
  let new_height : ℚ := matrix_p.y
  let new_width : ℚ := matrix_p.x
  let dims : Option (ℚ × ℚ × ℚ) :=
    if adjust then
      if scale_factor > 1 then
        adjust_scale_factor new_height new_width scale_factor (1 / 10000000) fuel
      else if scale_factor < 1 then
        adjust_scale_factor new_height new_width scale_factor (-(1 / 10000000)) fuel
      else some (new_height, new_width, scale_factor)
    else some (new_height * scale_factor, new_width * scale_factor, scale_factor)
  match dims with
  | none => none
  | some (new_height, new_width, _) => some (resample matrix_p new_height new_width heap)

/-! ## Region selection and compositing -/

/-- Function `select_region`: the `w` by `h` rectangle at `(x, y)` copied to a new matrix. -/
def select_region (matrix_p : matrix) (x y w h : Int) (heap : Int → Flt) : matrix :=
  let new_matrix_p := create_matrix h w heap
  for_loop new_matrix_p.y (fun i new_matrix_p =>
    for_loop new_matrix_p.x (fun j new_matrix_p =>
      new_matrix_p.set ((i * new_matrix_p.x) + j)
        (matrix_p.get (((y + i) * matrix_p.x) + x + j))) new_matrix_p) new_matrix_p

/-- Function `paste`: `bg` copied to a new matrix, then `fg` written over its centre. -/
def paste (fg bg : matrix) (heap : Int → Flt) : matrix :=
  let new_matrix := create_matrix bg.y bg.x heap
  let new_matrix := { new_matrix with array := memcpy new_matrix.array bg.array (bg.y * bg.x) }
  let x_offset : Int := Int.tdiv (bg.x - fg.x) 2
  let y_offset : Int := Int.tdiv (bg.y - fg.y) 2
  for_loop fg.y (fun y new_matrix =>
    for_loop fg.x (fun x new_matrix =>
      new_matrix.set (((y_offset + y) * new_matrix.x) + x_offset + x)
        (fg.get ((y * fg.x) + x))) new_matrix) new_matrix

/-! ## Density projections -/

/-- Function `horiz_density`: for each row the mean of its floats over 255, in a
matrix of height `matrix_p.y` and width 1. -/
def horiz_density (matrix_p : matrix) (heap : Int → Flt) : matrix :=
  let densities := create_matrix matrix_p.y 1 heap
  for_loop matrix_p.y (fun y densities =>
    let sum : Flt := Flt.val 0
    let sum := for_loop matrix_p.x (fun x sum =>
      sum + matrix_p.get ((y * matrix_p.x) + x)) sum
    let sum := sum / Flt.val (matrix_p.x : ℚ)
    let sum := sum / Flt.val 255
    densities.set y sum) densities

/-- Function `vert_density`: for each column the mean of its floats over 255, in a
matrix of height 1 and width `matrix_p.x`. -/
def vert_density (matrix_p : matrix) (heap : Int → Flt) : matrix :=
  let densities := create_matrix 1 matrix_p.x heap
  for_loop matrix_p.x (fun x densities =>
    let sum : Flt := Flt.val 0
    let sum := for_loop matrix_p.y (fun y sum =>
      sum + matrix_p.get ((y * matrix_p.x) + x)) sum
    let sum := sum / Flt.val (matrix_p.y : ℚ)
    let sum := sum / Flt.val 255
    densities.set x sum) densities

/-- Function `average_darkness`: the mean of all the floats of the matrix. -/
def average_darkness (matrix_p : matrix) : Flt :=
  let sum : Flt := Flt.val 0
  let sum := for_loop (matrix_p.x * matrix_p.y) (fun i sum => sum + matrix_p.get i) sum
  let sum := sum / Flt.val ((matrix_p.x * matrix_p.y : Int) : ℚ)
  sum

/-! ## Translation -/

/-- The source column `x_pos` of destination column `x` (line 288); `%` is C's
remainder, of the sign of the dividend. -/
def translation_x_pos (matrix_p : matrix) (x x_offset : Int) : Int :=
  Int.tmod (matrix_p.x + x + x_offset) matrix_p.x

/-- The source row `y_pos` of destination row `y` (line 289). -/
def translation_y_pos (matrix_p : matrix) (y y_offset : Int) : Int :=
  Int.tmod (matrix_p.y + y + y_offset) matrix_p.y

/-- Function `translation`: the matrix shifted by the two offsets, with wrapping. -/
def translation (matrix_p : matrix) (x_offset y_offset : Int) (heap : Int → Flt) : matrix :=
  let new_matrix := create_matrix matrix_p.y matrix_p.x heap
  for_loop matrix_p.y (fun y new_matrix =>
    for_loop matrix_p.x (fun x new_matrix =>
      let x_pos : Int := translation_x_pos matrix_p x x_offset
      let y_pos : Int := translation_y_pos matrix_p y y_offset
      new_matrix.set ((y * new_matrix.x) + x)
        (matrix_p.get ((y_pos * matrix_p.x) + x_pos))) new_matrix) new_matrix

/-! ## Sample inputs -/

/-- Memory holding the floats of `l` from offset 0 on and `rest` everywhere else. -/
def memory_of (l : List Flt) (rest : Int → Flt) : Int → Flt :=
  fun i => if 0 ≤ i ∧ i < l.length then l.getD i.toNat Flt.nan else rest i

/-- A fresh block full of NaN. -/
def nan_heap : Int → Flt := fun _ => Flt.nan

/-- The 2 by 2 matrix `[[1, 2], [3, 4]]`, surrounded by NaN. -/
def sample_2x2 : matrix :=
  { array := memory_of [Flt.val 1, Flt.val 2, Flt.val 3, Flt.val 4] nan_heap,
    len := 4, x := 2, y := 2 }

/-- The 2 by 2 matrix `[[5, 6], [7, 8]]`, surrounded by NaN. -/
def sample_2x2_bg : matrix :=
  { array := memory_of [Flt.val 5, Flt.val 6, Flt.val 7, Flt.val 8] nan_heap,
    len := 4, x := 2, y := 2 }

/-- The 2 by 2 matrix `[[10000, 0], [0, 0]]`, surrounded by NaN. -/
def sample_10000 : matrix :=
  { array := memory_of [Flt.val 10000, Flt.val 0, Flt.val 0, Flt.val 0] nan_heap,
    len := 4, x := 2, y := 2 }

/-- The 2 by 2 matrix `[[0, 255], [255, 0]]`, followed in memory by `rest`. -/
def sample_checker (rest : Int → Flt) : matrix :=
  { array := memory_of [Flt.val 0, Flt.val 255, Flt.val 255, Flt.val 0] rest,
    len := 4, x := 2, y := 2 }

/-- The 1 by 1 matrix `[[7]]`, surrounded by NaN. -/
def sample_1x1 : matrix :=
  { array := memory_of [Flt.val 7] nan_heap, len := 1, x := 1, y := 1 }

/-- The 3 by 3 matrix `[[1, 2, 3], [4, 5, 6], [7, 8, 9]]`, surrounded by NaN. -/
def sample_3x3 : matrix :=
  { array := memory_of [Flt.val 1, Flt.val 2, Flt.val 3, Flt.val 4, Flt.val 5, Flt.val 6,
      Flt.val 7, Flt.val 8, Flt.val 9] nan_heap,
    len := 9, x := 3, y := 3 }

/-! ## Binary32 layer -/

namespace Binary32

/-- A C `float` with the IEEE-754 binary32 special values: NaN, the two infinities, or a
finite number.  The finite floats are the numbers `q` with `round32 q = fin q`
(`F32.is_float`); the sign of a zero is not tracked. -/
inductive F32 where
  | nan : F32
  | pinf : F32
  | ninf : F32
  | fin : ℚ → F32
deriving DecidableEq

/-- Rounding of a rational number to the nearest integer, a tie going to the even
one. -/
def round_half_even (t : ℚ) : Int :=
  let f : Int := ⌊t⌋
  if t - f < 1 / 2 then f else if 1 / 2 < t - f then f + 1 else if f % 2 = 0 then f else f + 1

/-- The position of the leading bit of `n`, by repeated halving. -/
def log2_fuel : Nat → Nat → Nat
  | 0, _ => 0
  | fuel + 1, n => if n < 2 then 0 else log2_fuel fuel (n / 2) + 1

/-- The position of the leading bit of `n`: `2 ^ nat_log2 n ≤ n < 2 ^ (nat_log2 n + 1)`
for `n ≥ 1`. -/
def nat_log2 (n : Nat) : Nat := log2_fuel n n

/-- The binary exponent of a non-zero rational: `2 ^ ilog2 q ≤ |q| < 2 ^ (ilog2 q + 1)`. -/
def ilog2 (q : ℚ) : Int :=
  let e0 : Int := (nat_log2 q.num.natAbs : Int) - (nat_log2 q.den : Int)
  if (2 : ℚ) ^ e0 ≤ |q| then e0 else e0 - 1

/-- The exponent of the spacing of the binary32 numbers around `q`: 24 significant
bits, and the fixed spacing `2 ^ -149` of the subnormal range below `2 ^ -126`. -/
def quantum_exp (q : ℚ) : Int := max (ilog2 q) (-126) - 23

/-- Rounding of a real result to binary32, to nearest with ties to even; a result that
rounds to `2 ^ 128` or beyond overflows to an infinity. -/
def round32 (q : ℚ) : F32 :=
  if q = 0 then F32.fin 0
  else
    let v : ℚ := (round_half_even (q / 2 ^ quantum_exp q) : ℚ) * 2 ^ quantum_exp q
    if 2 ^ 128 ≤ |v| then (if 0 < q then F32.pinf else F32.ninf) else F32.fin v

namespace F32

/-- Float negation. -/
def neg : F32 → F32
  | nan => nan
  | pinf => ninf
  | ninf => pinf
  | fin a => fin (-a)

/-- Float addition: the exact sum rounded to binary32; `inf + -inf` is NaN. -/
def add : F32 → F32 → F32
  | fin a, fin b => round32 (a + b)
  | fin _, pinf => pinf
  | fin _, ninf => ninf
  | pinf, fin _ => pinf
  | pinf, pinf => pinf
  | ninf, fin _ => ninf
  | ninf, ninf => ninf
  | _, _ => nan

/-- Float subtraction `a - b`, which is `a + (-b)`. -/
def sub (a b : F32) : F32 := add a (neg b)

/-- Float multiplication: the exact product rounded to binary32; `0 * inf` is NaN. -/
def mul : F32 → F32 → F32
  | fin a, fin b => round32 (a * b)
  | fin a, pinf => if a = 0 then nan else if 0 < a then pinf else ninf
  | fin a, ninf => if a = 0 then nan else if 0 < a then ninf else pinf
  | pinf, fin b => if b = 0 then nan else if 0 < b then pinf else ninf
  | ninf, fin b => if b = 0 then nan else if 0 < b then ninf else pinf
  | pinf, pinf => pinf
  | pinf, ninf => ninf
  | ninf, pinf => ninf
  | ninf, ninf => pinf
  | _, _ => nan

/-- Float division: the exact quotient rounded to binary32; `0 / 0` and `inf / inf` are
NaN, a non-zero number over zero is an infinity.  A zero divisor is taken as `+0`:
every divisor of the functions below that can be zero is an `int` converted to
float. -/
def div : F32 → F32 → F32
  | fin a, fin b =>
    if b = 0 then (if a = 0 then nan else if 0 < a then pinf else ninf) else round32 (a / b)
  | fin _, pinf => fin 0
  | fin _, ninf => fin 0
  | pinf, fin b => if 0 ≤ b then pinf else ninf
  | ninf, fin b => if 0 ≤ b then ninf else pinf
  | _, _ => nan

/-- C's `isnan`. -/
def isnan : F32 → Bool
  | nan => true
  | _ => false

/-- Float comparison `a < b`; false as soon as one side is NaN. -/
def lt : F32 → F32 → Bool
  | fin a, fin b => decide (a < b)
  | fin _, pinf => true
  | ninf, fin _ => true
  | ninf, pinf => true
  | _, _ => false

/-- Float comparison `a > b`. -/
def gt (a b : F32) : Bool := lt b a

/-- Test that a float is neither NaN nor an infinity. -/
def finite : F32 → Bool
  | fin _ => true
  | _ => false

/-- Test that a value of `F32` is a float: a special value, or a number that rounding
to binary32 leaves as it is. -/
def is_float : F32 → Bool
  | fin q => decide (round32 q = fin q)
  | _ => true

/-- Test that a float is a number of the interval `[lo, hi]`. -/
def within (lo hi : ℚ) : F32 → Bool
  | fin q => decide (lo ≤ q ∧ q ≤ hi)
  | _ => false

end F32

/-- Test that an integer is a value of the 32-bit type `int`. -/
def int_range (i : Int) : Bool := decide (-2147483648 ≤ i ∧ i ≤ 2147483647)

/-- Conversion of a float to `int` (`int i = f;`): truncation toward zero.  The
behaviour is undefined (`none`) when the truncated value is no `int`, and for NaN and
the infinities. -/
def to_int : F32 → Option Int
  | F32.fin q => if int_range (Int.tdiv q.num q.den) then some (Int.tdiv q.num q.den) else none
  | _ => none

/-- Conversion of an `int` to float (`float f = i;`): rounding to binary32. -/
def of_int (i : Int) : F32 := round32 (i : ℚ)

/-- The struct `matrix` (`matrix_T`) with binary32 elements; fields as in the exact
layer. -/
structure matrix where
  array : Int → F32
  len : Int
  x : Int
  y : Int

/-- The struct `pos` (`pos_T`). -/
structure pos where
  floored : Int
  decimal : F32
deriving DecidableEq

/-- The three ways a call can end: it returns a value, it runs into behaviour that C
leaves undefined (a float out of `int` range converted to `int`, an overflow of
`escape_counter`), or its loop is still running when the fuel is used up. -/
inductive outcome (α : Type) where
  | returns : α → outcome α
  | undefined : outcome α
  | running : outcome α
deriving DecidableEq

/-- The value a call returns, if it returns. -/
def outcome.value {α : Type} : outcome α → Option α
  | outcome.returns a => some a
  | _ => none

/-- Test that a call runs into undefined behaviour. -/
def outcome.is_undefined {α : Type} : outcome α → Bool
  | outcome.undefined => true
  | _ => false

/-- Test that the loop of a call is still running when the fuel is used up. -/
def outcome.is_running {α : Type} : outcome α → Bool
  | outcome.running => true
  | _ => false

/-- The read `matrix_p->array[i]`. -/
def matrix.get (m : matrix) (i : Int) : F32 := m.array i

/-- The write `matrix_p->array[i] = v`. -/
def matrix.set (m : matrix) (i : Int) (v : F32) : matrix :=
  { m with array := fun k => if k = i then v else m.array k }

/-- The element at `(row, col)` in row-major layout: `array[row * x + col]`. -/
def matrix.elem (m : matrix) (row col : Int) : F32 := m.array (row * m.x + col)

/-- Function `create_matrix(height, width)`: a block of `height * width` floats with
unspecified contents `heap`, and the two dimension fields. -/
def create_matrix (height width : Int) (heap : Int → F32) : matrix :=
  { array := heap, len := height * width, x := width, y := height }

/-- The local array `float known_points[4]`. -/
def known_points (a b c d : F32) : Nat → F32
  | 0 => a
  | 1 => b
  | 2 => c
  | _ => d

/-- Function `bilinear_approximation`: the weighted sum of the four known points, every
operation rounded to binary32. -/
def bilinear_approximation (known_points : Nat → F32) (x y : F32) : F32 :=
  let output : F32 := F32.fin 0
  let output := F32.add output
    (F32.mul (F32.mul (F32.sub (of_int 1) x) (F32.sub (of_int 1) y)) (known_points 0))
  let output := F32.add output (F32.mul (F32.mul x (F32.sub (of_int 1) y)) (known_points 1))
  let output := F32.add output (F32.mul (F32.mul (F32.sub (of_int 1) x) y) (known_points 2))
  let output := F32.add output (F32.mul (F32.mul x y) (known_points 3))
  output

/-- Function `calc_pos`: the part of `N` before the point, by conversion to `int`, and the
rest; undefined when the conversion is. -/
def calc_pos (N : F32) : Option pos :=
  match to_int N with
  | none => none
  | some floored => some { floored := floored, decimal := F32.sub N (of_int floored) }

/-- Function `test_float`: false when the decimal part is positive, true otherwise. -/
def test_float (x : F32) : Option Bool :=
  match calc_pos x with
  | none => none
  | some result => some (if F32.gt result.decimal (of_int 0) then false else true)

/-- The `while (valid_factor == false)` loop of `adjust_scale_factor`, started with
the scale factor and `escape_counter` given, with `fuel` iterations at most.  The
increment of `escape_counter` overflows, undefined in C, at 2147483647. -/
def adjust_loop (height width step : F32) : Nat → F32 → Int → outcome (F32 × Int)
  | 0, _, _ => outcome.running
  | fuel + 1, scale_factor, escape_counter =>
    let scale_factor := F32.add scale_factor step
    if escape_counter = 2147483647 then outcome.undefined
    else
      let escape_counter := escape_counter + 1
      match test_float (F32.mul scale_factor height), test_float (F32.mul scale_factor width) with
      | some valid_height, some valid_width =>
        let valid_factor := false
        let valid_factor := if valid_height && valid_width then true else valid_factor
        let valid_factor :=
          if valid_width && decide (escape_counter > 1000000) then true else valid_factor
        if valid_factor then outcome.returns (scale_factor, escape_counter)
        else adjust_loop height width step fuel scale_factor escape_counter
      | _, _ => outcome.undefined

/-- Function `adjust_scale_factor`: the new `(height, width, scale_factor)` it leaves behind
its three pointers. -/
def adjust_scale_factor (height width scale_factor step : F32) (fuel : Nat) :
    outcome (F32 × F32 × F32) :=
  let scale_factor := F32.sub scale_factor step
  let escape_counter : Int := 0
  match adjust_loop height width step fuel scale_factor escape_counter with
  | outcome.returns (scale_factor, _) =>
    outcome.returns (F32.mul height scale_factor, F32.mul width scale_factor, scale_factor)
  | outcome.undefined => outcome.undefined
  | outcome.running => outcome.running

/-- The source position of destination column `x` (`x_pos`, lines 169 and 171). -/
def src_x_pos (matrix_p : matrix) (new_width : F32) (x : Int) : Option pos :=
  let x_as_frac : F32 := F32.div (of_int x) new_width
  calc_pos (F32.mul x_as_frac (of_int matrix_p.x))

/-- The source position of destination row `y` (`y_pos`, lines 170 and 172). -/
def src_y_pos (matrix_p : matrix) (new_height : F32) (y : Int) : Option pos :=
  let y_as_frac : F32 := F32.div (of_int y) new_height
  calc_pos (F32.mul y_as_frac (of_int matrix_p.y))

/-- The four reads that fill `known_points` (lines 173-178). -/
def gather (matrix_p : matrix) (x_pos y_pos : pos) : Nat → F32 :=
  known_points
    (matrix_p.get (((y_pos.floored + 0) * matrix_p.x) + x_pos.floored + 0))
    (matrix_p.get (((y_pos.floored + 0) * matrix_p.x) + x_pos.floored + 1))
    (matrix_p.get (((y_pos.floored + 1) * matrix_p.x) + x_pos.floored + 0))
    (matrix_p.get (((y_pos.floored + 1) * matrix_p.x) + x_pos.floored + 1))

/-- The interpolated `value` of destination pixel `(x, y)` before the clamp
(lines 169-180); undefined when one of the two conversions of `calc_pos` is. -/
def interpolate (matrix_p : matrix) (new_width new_height : F32) (x y : Int) : Option F32 :=
  match src_x_pos matrix_p new_width x, src_y_pos matrix_p new_height y with
  | some x_pos, some y_pos =>
    some (bilinear_approximation (gather matrix_p x_pos y_pos) x_pos.decimal y_pos.decimal)
  | _, _ => none

/-- The clamp of line 182. -/
def clamp (value : F32) : F32 :=
  if value.isnan || value.gt (of_int 10000) || value.lt (of_int 0) then F32.fin 0 else value

/-- Lines 161-188 of `scale_matrix`: the conversion of the float dimensions, the
allocation of the target and the resampling loops; undefined (`none`) as soon as a
conversion to `int` is. -/
def resample (matrix_p : matrix) (new_height new_width : F32) (heap : Int → F32) :
    Option matrix :=
  match to_int new_height, to_int new_width with
  | some int_height, some int_width =>
    let scaled_matrix := create_matrix int_height int_width heap
    for_loop int_height (fun y scaled_matrix =>
      for_loop int_width (fun x scaled_matrix =>
        match scaled_matrix, interpolate matrix_p new_width new_height x y with
        | some scaled_matrix, some value =>
          let value := clamp value
          some (scaled_matrix.set ((y * scaled_matrix.x) + x) value)
        | _, _ => none) scaled_matrix) (some scaled_matrix)
  | _, _ => none

/-- Function `scale_matrix`.  The constants `0.0000001` and `-0.0000001` reach
`adjust_scale_factor` converted to float. -/
def scale_matrix (matrix_p : matrix) (scale_factor : F32) (adjust : Bool)
    (heap : Int → F32) (fuel : Nat) : outcome matrix :=
  let new_height : F32 := of_int matrix_p.y
  let new_width : F32 := of_int matrix_p.x
  let dims : outcome (F32 × F32 × F32) :=
    if adjust then
      if F32.gt scale_factor (of_int 1) then
        adjust_scale_factor new_height new_width scale_factor (round32 (1 / 10000000)) fuel
      else if F32.lt scale_factor (of_int 1) then
        adjust_scale_factor new_height new_width scale_factor (round32 (-(1 / 10000000))) fuel
      else outcome.returns (new_height, new_width, scale_factor)
    else outcome.returns (F32.mul new_height scale_factor, F32.mul new_width scale_factor,
      scale_factor)
  match dims with
  | outcome.returns (new_height, new_width, _) =>
    match resample matrix_p new_height new_width heap with
    | some scaled_matrix => outcome.returns scaled_matrix
    | none => outcome.undefined
  | outcome.undefined => outcome.undefined
  | outcome.running => outcome.running

/-- Function `horiz_density` on binary32 floats.  The division by the `double` constant
`255.0` is made in double precision and rounded back to float, which gives the
correctly rounded binary32 quotient. -/
def horiz_density (matrix_p : matrix) (heap : Int → F32) : matrix :=
  let densities := create_matrix matrix_p.y 1 heap
  for_loop matrix_p.y (fun y densities =>
    let sum : F32 := of_int 0
    let sum := for_loop matrix_p.x (fun x sum =>
      F32.add sum (matrix_p.get ((y * matrix_p.x) + x))) sum
    let sum := F32.div sum (of_int matrix_p.x)
    let sum := F32.div sum (F32.fin 255)
    densities.set y sum) densities

/-- Function `vert_density` on binary32 floats. -/
def vert_density (matrix_p : matrix) (heap : Int → F32) : matrix :=
  let densities := create_matrix 1 matrix_p.x heap
  for_loop matrix_p.x (fun x densities =>
    let sum : F32 := of_int 0
    let sum := for_loop matrix_p.y (fun y sum =>
      F32.add sum (matrix_p.get ((y * matrix_p.x) + x))) sum
    let sum := F32.div sum (of_int matrix_p.y)
    let sum := F32.div sum (F32.fin 255)
    densities.set x sum) densities

/-- The running float sum `sum += f(0); ...; sum += f(n-1)` from 0. -/
def float_sum (f : Nat → F32) : Nat → F32
  | 0 => F32.fin 0
  | n + 1 => F32.add (float_sum f n) (f n)

/-- Memory holding the floats of `l` from offset 0 on and `rest` everywhere else. -/
def memory_of (l : List F32) (rest : Int → F32) : Int → F32 :=
  fun i => if 0 ≤ i ∧ i < l.length then l.getD i.toNat F32.nan else rest i

/-- A fresh block full of NaN. -/
def nan_heap : Int → F32 := fun _ => F32.nan

/-- Memory full of zeros. -/
def zero_heap : Int → F32 := fun _ => F32.fin 0

/-- The float `1.4f`, the binary32 number nearest to 1.4. -/
def f_1_4 : F32 := round32 (14 / 10)

/-- The 2 by 2 matrix `[[20000, 0], [0, 0]]`, followed by zeros. -/
def square_20000 : matrix :=
  { array := memory_of [F32.fin 20000, F32.fin 0, F32.fin 0, F32.fin 0] zero_heap,
    len := 4, x := 2, y := 2 }

/-- The 2 by 2 matrix `[[1, 2], [3, 4]]`, followed by zeros. -/
def square_1234 : matrix :=
  { array := memory_of [F32.fin 1, F32.fin 2, F32.fin 3, F32.fin 4] zero_heap,
    len := 4, x := 2, y := 2 }

/-- The 2 by 2 matrix `[[10000, 0], [0, 0]]`, followed by zeros. -/
def square_10000 : matrix :=
  { array := memory_of [F32.fin 10000, F32.fin 0, F32.fin 0, F32.fin 0] zero_heap,
    len := 4, x := 2, y := 2 }

/-- The 2 by 2 matrix `[[0, 255], [255, 0]]`, followed by zeros. -/
def checker_2x2 : matrix :=
  { array := memory_of [F32.fin 0, F32.fin 255, F32.fin 255, F32.fin 0] zero_heap,
    len := 4, x := 2, y := 2 }

/-- The 1 by 13 ramp `[0, 100, 200, ..., 1200]`, followed by zeros. -/
def ramp_1x13 : matrix :=
  { array := memory_of [F32.fin 0, F32.fin 100, F32.fin 200, F32.fin 300, F32.fin 400,
      F32.fin 500, F32.fin 600, F32.fin 700, F32.fin 800, F32.fin 900, F32.fin 1000,
      F32.fin 1100, F32.fin 1200] zero_heap,
    len := 13, x := 13, y := 1 }

/-- The 1 by 1 matrix `[[5]]`, followed in memory by `+inf`. -/
def single_5_inf : matrix :=
  { array := memory_of [F32.fin 5] (fun _ => F32.pinf), len := 1, x := 1, y := 1 }

/-- A matrix of height `height` and width `width` in memory full of the float `v`. -/
def constant_matrix (height width : Int) (v : F32) : matrix :=
  { array := fun _ => v, len := height * width, x := width, y := height }

end Binary32

/-! ## Conversion to `int` -/

theorem to_int_intCast (n : Int) : to_int (n : ℚ) = n := by
  simp [to_int]

theorem to_int_of_nonneg {q : ℚ} (h : 0 ≤ q) : to_int q = ⌊q⌋ := by
  rw [Rat.floor_def, to_int]
  exact Int.tdiv_eq_ediv (Rat.num_nonneg.2 h) (Int.natCast_nonneg _)

theorem to_int_neg (q : ℚ) : to_int (-q) = -to_int q := by
  simp [to_int, Int.neg_tdiv]

theorem to_int_of_nonpos {q : ℚ} (h : q ≤ 0) : to_int q = ⌈q⌉ := by
  have h1 : to_int (-q) = ⌊-q⌋ := to_int_of_nonneg (by linarith)
  rw [to_int_neg, Int.floor_neg] at h1
  omega

/-- Conversion to `int` rounds toward zero: down for a non-negative float, up for a
negative one. -/
theorem to_int_eq (q : ℚ) : to_int q = if 0 ≤ q then ⌊q⌋ else ⌈q⌉ := by
  split
  · next h => exact to_int_of_nonneg h
  · next h => exact to_int_of_nonpos (by linarith)

theorem calc_pos_intCast (n : Int) : calc_pos (n : ℚ) = { floored := n, decimal := 0 } := by
  simp [calc_pos, to_int_intCast]

/-! ## Loops that fill a matrix -/

theorem set_x (m : matrix) (i : Int) (v : Flt) : (m.set i v).x = m.x := rfl

theorem set_y (m : matrix) (i : Int) (v : Flt) : (m.set i v).y = m.y := rfl

theorem set_len (m : matrix) (i : Int) (v : Flt) : (m.set i v).len = m.len := rfl

theorem set_array (m : matrix) (i : Int) (v : Flt) (k : Int) :
    (m.set i v).array k = if k = i then v else m.array k := rfl

/-- One row: a counting loop whose iteration `j` writes `v j` at offset
`base s.x + j` leaves the dimensions alone and changes exactly the `n` offsets from
`base s.x` on. -/
theorem row_loop (n : Nat) (body : Int → matrix → matrix) (base : Int → Int)
    (v : Int → Flt) (hbody : ∀ j s, body j s = s.set (base s.x + j) (v j)) (s : matrix) :
    (iterate_upto n body s).x = s.x ∧ (iterate_upto n body s).y = s.y ∧
    (iterate_upto n body s).len = s.len ∧
    ∀ k, (iterate_upto n body s).array k =
      if base s.x ≤ k ∧ k < base s.x + n then v (k - base s.x) else s.array k := by
  induction n with
  | zero =>
    refine ⟨rfl, rfl, rfl, fun k => ?_⟩
    have : ¬ (base s.x ≤ k ∧ k < base s.x + ((0 : Nat) : Int)) := by omega
    simp only [iterate_upto, if_neg this]
  | succ n ih =>
    obtain ⟨hx, hy, hl, ha⟩ := ih
    simp only [iterate_upto, hbody, set_x, set_y, set_len, set_array, hx]
    refine ⟨trivial, hy, hl, fun k => ?_⟩
    rw [ha k]
    by_cases h1 : k = base s.x + n
    · have h2 : base s.x ≤ k ∧ k < base s.x + ((n + 1 : Nat) : Int) := by omega
      have h3 : k - base s.x = n := by omega
      rw [if_pos h1, if_pos h2, h3]
    · rw [if_neg h1]
      by_cases h2 : base s.x ≤ k ∧ k < base s.x + (n : Int)
      · have h3 : base s.x ≤ k ∧ k < base s.x + ((n + 1 : Nat) : Int) := by omega
        rw [if_pos h2, if_pos h3]
      · have h3 : ¬ (base s.x ≤ k ∧ k < base s.x + ((n + 1 : Nat) : Int)) := by omega
        rw [if_neg h2, if_neg h3]

/-- A grid of rows never changes the dimension fields. -/
theorem grid_loop_dims (H n : Nat) (outer : Int → matrix → matrix) (base : Int → Int → Int)
    (v : Int → Int → Flt) (s : matrix)
    (houter : ∀ i t, t.x = s.x → outer i t =
      iterate_upto n (fun j u => u.set (base u.x i + j) (v i j)) t) :
    (iterate_upto H outer s).x = s.x ∧ (iterate_upto H outer s).y = s.y ∧
    (iterate_upto H outer s).len = s.len := by
  induction H with
  | zero => exact ⟨rfl, rfl, rfl⟩
  | succ H ih =>
    obtain ⟨hx, hy, hl⟩ := ih
    obtain ⟨rx, ry, rl, _⟩ := row_loop n (fun j t => t.set (base t.x (H : Int) + j) (v H j))
      (fun w => base w H) (v H) (fun _ _ => rfl) (iterate_upto H outer s)
    simp only [iterate_upto]
    rw [houter _ _ hx]
    exact ⟨rx.trans hx, ry.trans hy, rl.trans hl⟩

/-- A grid of rows leaves every offset outside the rows as it was. -/
theorem grid_loop_frame (H n : Nat) (outer : Int → matrix → matrix) (base : Int → Int → Int)
    (v : Int → Int → Flt) (s : matrix)
    (houter : ∀ i t, t.x = s.x → outer i t =
      iterate_upto n (fun j u => u.set (base u.x i + j) (v i j)) t) :
    ∀ k : Int, (∀ i j : Int, 0 ≤ i → i < H → 0 ≤ j → j < n → k ≠ base s.x i + j) →
      (iterate_upto H outer s).array k = s.array k := by
  induction H with
  | zero => exact fun k _ => rfl
  | succ H ih =>
    obtain ⟨hx, _, _⟩ := grid_loop_dims H n outer base v s houter
    obtain ⟨_, _, _, ra⟩ := row_loop n (fun j t => t.set (base t.x (H : Int) + j) (v H j))
      (fun w => base w H) (v H) (fun _ _ => rfl) (iterate_upto H outer s)
    simp only [iterate_upto]
    rw [houter _ _ hx]
    rw [hx] at ra
    intro k hk
    rw [ra]
    by_cases h4 : base s.x (H : Int) ≤ k ∧ k < base s.x (H : Int) + n
    · exfalso
      exact hk H (k - base s.x H) (by omega) (by omega) (by omega) (by omega) (by omega)
    · rw [if_neg h4]
      exact ih k (fun i j h0 h1 h2 h3 => hk i j h0 (by omega) h2 h3)

/-- A grid: `H` rows of `n` writes, row `i` starting at offset `base s.x i`, the rows
laid out one after the other without overlap.  Cell `(i, j)` holds `v i j`. -/
theorem grid_loop (H n : Nat) (outer : Int → matrix → matrix) (base : Int → Int → Int)
    (v : Int → Int → Flt) (s : matrix)
    (houter : ∀ i t, t.x = s.x → outer i t =
      iterate_upto n (fun j u => u.set (base u.x i + j) (v i j)) t)
    (hsep : ∀ i i2 : Int, 0 ≤ i → i < i2 → base s.x i + n ≤ base s.x i2) :
    ∀ i j : Int, 0 ≤ i → i < H → 0 ≤ j → j < n →
      (iterate_upto H outer s).array (base s.x i + j) = v i j := by
  induction H with
  | zero =>
    intro i j h0 h1 _ _
    omega
  | succ H ih =>
    obtain ⟨hx, _, _⟩ := grid_loop_dims H n outer base v s houter
    obtain ⟨_, _, _, ra⟩ := row_loop n (fun j t => t.set (base t.x (H : Int) + j) (v H j))
      (fun w => base w H) (v H) (fun _ _ => rfl) (iterate_upto H outer s)
    simp only [iterate_upto]
    rw [houter _ _ hx]
    rw [hx] at ra
    intro i j h0 h1 h2 h3
    rw [ra]
    by_cases hi : i = H
    · subst hi
      have h4 : base s.x (H : Int) ≤ base s.x (H : Int) + j ∧
          base s.x (H : Int) + j < base s.x (H : Int) + n := by omega
      have h5 : base s.x (H : Int) + j - base s.x (H : Int) = j := by omega
      rw [if_pos h4, h5]
    · have h6 : i < (H : Int) := by omega
      have h7 := hsep i H h0 h6
      have h4 : ¬ (base s.x (H : Int) ≤ base s.x i + j ∧
          base s.x i + j < base s.x (H : Int) + n) := by omega
      rw [if_neg h4]
      exact ih i j h0 h6 h2 h3

/-- Rows of width `W` laid one after the other from row `r0`, each written from
column `c0` on over `n ≤ W - c0` columns, do not overlap. -/
theorem rows_separate (W r0 c0 : Int) (n : Nat) (hW : (n : Int) ≤ W)
    (i i2 : Int) (_h0 : 0 ≤ i) (h : i < i2) :
    (r0 + i) * W + c0 + n ≤ (r0 + i2) * W + c0 := by
  have h1 : 0 ≤ (i2 - i - 1) * W := mul_nonneg (by omega) (by omega)
  nlinarith

/-! ## What the operations compute -/

/-- The result of `select_region`: a `w` by `h` matrix over a block of `h * w` floats
whose cell `(i, j)` is the source float at offset `(y + i) * matrix_p.x + x + j`. -/
theorem select_region_spec (matrix_p : matrix) (x y w h : Int) (heap : Int → Flt) :
    (select_region matrix_p x y w h heap).x = w ∧
    (select_region matrix_p x y w h heap).y = h ∧
    (select_region matrix_p x y w h heap).len = h * w ∧
    ∀ i j : Int, 0 ≤ i → i < h → 0 ≤ j → j < w →
      (select_region matrix_p x y w h heap).array (i * w + j) =
        matrix_p.array ((y + i) * matrix_p.x + x + j) := by
  have houter : ∀ (i : Int) (t : matrix), t.x = (create_matrix h w heap).x →
      (fun i new_matrix_p =>
        for_loop new_matrix_p.x (fun j new_matrix_p =>
          new_matrix_p.set ((i * new_matrix_p.x) + j)
            (matrix_p.get (((y + i) * matrix_p.x) + x + j))) new_matrix_p) i t =
      iterate_upto w.toNat (fun j u => u.set ((fun W i => i * W) u.x i + j)
        ((fun i j => matrix_p.array ((y + i) * matrix_p.x + x + j)) i j)) t := by
    intro i t ht
    have : t.x = w := ht
    simp only [for_loop, this]
    rfl
  obtain ⟨hx, hy, hl⟩ := grid_loop_dims h.toNat w.toNat _ (fun W i => i * W)
    (fun i j => matrix_p.array ((y + i) * matrix_p.x + x + j)) (create_matrix h w heap) houter
  refine ⟨hx, hy, hl, fun i j h0 h1 h2 h3 => ?_⟩
  have hg := grid_loop h.toNat w.toNat _ (fun W i => i * W)
    (fun i j => matrix_p.array ((y + i) * matrix_p.x + x + j)) (create_matrix h w heap) houter
    (fun i i2 h0 h1 => by
      have h2 := rows_separate w 0 0 w.toNat (by omega) i i2 h0 h1
      simpa [create_matrix] using h2) i j h0 (by omega) h2 (by omega)
  exact hg

/-- The result of `resample`: a matrix of the truncated dimensions whose cell `(y, x)`
is the clamped interpolated value of destination pixel `(x, y)`. -/
theorem resample_spec (matrix_p : matrix) (new_height new_width : ℚ) (heap : Int → Flt) :
    (resample matrix_p new_height new_width heap).x = to_int new_width ∧
    (resample matrix_p new_height new_width heap).y = to_int new_height ∧
    (resample matrix_p new_height new_width heap).len = to_int new_height * to_int new_width ∧
    ∀ y x : Int, 0 ≤ y → y < to_int new_height → 0 ≤ x → x < to_int new_width →
      (resample matrix_p new_height new_width heap).array (y * to_int new_width + x) =
        clamp (interpolate matrix_p new_width new_height x y) := by
  have houter : ∀ (y : Int) (t : matrix),
      t.x = (create_matrix (to_int new_height) (to_int new_width) heap).x →
      (fun y scaled_matrix =>
        for_loop (to_int new_width) (fun x scaled_matrix =>
          let value := interpolate matrix_p new_width new_height x y
          let value := clamp value
          scaled_matrix.set ((y * scaled_matrix.x) + x) value) scaled_matrix) y t =
      iterate_upto (to_int new_width).toNat (fun x u => u.set ((fun W y => y * W) u.x y + x)
        ((fun y x => clamp (interpolate matrix_p new_width new_height x y)) y x)) t := by
    intro y t _
    rfl
  obtain ⟨hx, hy, hl⟩ := grid_loop_dims (to_int new_height).toNat (to_int new_width).toNat _
    (fun W y => y * W) (fun y x => clamp (interpolate matrix_p new_width new_height x y))
    (create_matrix (to_int new_height) (to_int new_width) heap) houter
  refine ⟨hx, hy, hl, fun y x h0 h1 h2 h3 => ?_⟩
  have hg := grid_loop (to_int new_height).toNat (to_int new_width).toNat _
    (fun W y => y * W) (fun y x => clamp (interpolate matrix_p new_width new_height x y))
    (create_matrix (to_int new_height) (to_int new_width) heap) houter
    (fun i i2 h0 h1 => by
      have h2 := rows_separate (to_int new_width) 0 0 (to_int new_width).toNat
        (by omega) i i2 h0 h1
      simpa [create_matrix] using h2) y x h0 (by omega) h2 (by omega)
  exact hg

/-- The result of `paste` when `fg` is no wider than `bg`: a matrix of the dimensions
of `bg` whose offsets inside the centred rectangle hold `fg` and whose other offsets
hold the copy of `bg` (or, outside the block, what the fresh block held). -/
theorem paste_spec (fg bg : matrix) (heap : Int → Flt) (hw : fg.x ≤ bg.x) :
    (paste fg bg heap).x = bg.x ∧ (paste fg bg heap).y = bg.y ∧
    (paste fg bg heap).len = bg.y * bg.x ∧
    (∀ y x : Int, 0 ≤ y → y < fg.y → 0 ≤ x → x < fg.x →
      (paste fg bg heap).array
          ((Int.tdiv (bg.y - fg.y) 2 + y) * bg.x + Int.tdiv (bg.x - fg.x) 2 + x) =
        fg.array (y * fg.x + x)) ∧
    (∀ k : Int, (∀ y x : Int, 0 ≤ y → y < fg.y → 0 ≤ x → x < fg.x →
        k ≠ (Int.tdiv (bg.y - fg.y) 2 + y) * bg.x + Int.tdiv (bg.x - fg.x) 2 + x) →
      (paste fg bg heap).array k = memcpy heap bg.array (bg.y * bg.x) k) := by
  have houter : ∀ (y : Int) (t : matrix),
      t.x = ({ create_matrix bg.y bg.x heap with
        array := memcpy (create_matrix bg.y bg.x heap).array bg.array (bg.y * bg.x) } : matrix).x →
      (fun y new_matrix =>
        for_loop fg.x (fun x new_matrix =>
          new_matrix.set (((Int.tdiv (bg.y - fg.y) 2 + y) * new_matrix.x) +
            Int.tdiv (bg.x - fg.x) 2 + x) (fg.get ((y * fg.x) + x))) new_matrix) y t =
      iterate_upto fg.x.toNat (fun x u => u.set
        ((fun W y => (Int.tdiv (bg.y - fg.y) 2 + y) * W + Int.tdiv (bg.x - fg.x) 2) u.x y + x)
        ((fun y x => fg.array (y * fg.x + x)) y x)) t := by
    intro y t _
    rfl
  obtain ⟨hx, hy, hl⟩ := grid_loop_dims fg.y.toNat fg.x.toNat _
    (fun W y => (Int.tdiv (bg.y - fg.y) 2 + y) * W + Int.tdiv (bg.x - fg.x) 2)
    (fun y x => fg.array (y * fg.x + x)) _ houter
  have hf := grid_loop_frame fg.y.toNat fg.x.toNat _
    (fun W y => (Int.tdiv (bg.y - fg.y) 2 + y) * W + Int.tdiv (bg.x - fg.x) 2)
    (fun y x => fg.array (y * fg.x + x)) _ houter
  refine ⟨hx, hy, hl, fun y x h0 h1 h2 h3 => ?_, fun k hk => ?_⟩
  · exact grid_loop fg.y.toNat fg.x.toNat _
      (fun W y => (Int.tdiv (bg.y - fg.y) 2 + y) * W + Int.tdiv (bg.x - fg.x) 2)
      (fun y x => fg.array (y * fg.x + x)) _ houter
      (fun i i2 h0 h1 => by
        have h2 := rows_separate bg.x (Int.tdiv (bg.y - fg.y) 2) (Int.tdiv (bg.x - fg.x) 2)
          fg.x.toNat (by omega) i i2 h0 h1
        simp only [create_matrix]
        omega) y x h0 (by omega) h2 (by omega)
  · exact hf k (fun y x h0 h1 h2 h3 => hk y x h0 (by omega) h2 (by omega))

/-! ## Region selection -/

/-- C8: selecting the whole of `m`, `select_region(m, 0, 0, m.x, m.y)`, gives a matrix
of the same width and height with the same element at every position. -/
theorem select_region_whole (m : matrix) (heap : Int → Flt) :
    (select_region m 0 0 m.x m.y heap).x = m.x ∧
    (select_region m 0 0 m.x m.y heap).y = m.y ∧
    ∀ row col : Int, 0 ≤ row → row < m.y → 0 ≤ col → col < m.x →
      (select_region m 0 0 m.x m.y heap).elem row col = m.elem row col := by
  obtain ⟨hx, hy, _, ha⟩ := select_region_spec m 0 0 m.x m.y heap
  refine ⟨hx, hy, fun row col h0 h1 h2 h3 => ?_⟩
  have h := ha row col h0 h1 h2 h3
  simp only [matrix.elem, hx]
  rw [h]
  congr 1
  ring

/-- C8 at `[[1, 2], [3, 4]]`, position `(1, 0)`. -/
theorem select_region_whole_witness :
    (0 : Int) ≤ 1 ∧ (1 : Int) < sample_2x2.y ∧ (0 : Int) ≤ 0 ∧ (0 : Int) < sample_2x2.x ∧
    (select_region sample_2x2 0 0 sample_2x2.x sample_2x2.y nan_heap).elem 1 0 =
      sample_2x2.elem 1 0 :=
  ⟨by decide, by decide, by decide, by decide,
    (select_region_whole sample_2x2 nan_heap).2.2 1 0 (by decide) (by decide) (by decide)
      (by decide)⟩

/-- C9, as stated, fails: on the 2 by 2 matrix `[[1, 2], [3, 4]]` the rectangle
`x = 1, y = 0, w = 2, h = 1` has `x + w = 3 > 2`, and `select_region` returns a
2 by 1 matrix all the same; its second element is the first float of the next row. -/
theorem select_region_not_rejected :
    (1 : Int) + 2 > sample_2x2.x ∧
    (select_region sample_2x2 1 0 2 1 nan_heap).x = 2 ∧
    (select_region sample_2x2 1 0 2 1 nan_heap).y = 1 ∧
    (select_region sample_2x2 1 0 2 1 nan_heap).elem 0 0 = Flt.val 2 ∧
    (select_region sample_2x2 1 0 2 1 nan_heap).elem 0 1 = Flt.val 3 ∧
    sample_2x2.elem 1 0 = Flt.val 3 := by
  refine ⟨by decide, rfl, rfl, rfl, rfl, rfl⟩

/-- C9, amended: `select_region` checks nothing and has no error result.  For all
arguments it returns a `w` by `h` matrix whose element `(i, j)` is the float at offset
`(y + i) * m.x + x + j` of the source array; when the rectangle fits inside `m` this
offset is inside the source and is its position `(y + i, x + j)`. -/
theorem select_region_unchecked (m : matrix) (x y w h : Int) (heap : Int → Flt) :
    (select_region m x y w h heap).x = w ∧
    (select_region m x y w h heap).y = h ∧
    ∀ i j : Int, 0 ≤ i → i < h → 0 ≤ j → j < w →
      (select_region m x y w h heap).elem i j = m.array ((y + i) * m.x + x + j) ∧
      (0 ≤ x → 0 ≤ y → x + w ≤ m.x → y + h ≤ m.y →
        0 ≤ y + i ∧ y + i < m.y ∧ 0 ≤ x + j ∧ x + j < m.x ∧
        (select_region m x y w h heap).elem i j = m.elem (y + i) (x + j)) := by
  obtain ⟨hx, hy, _, ha⟩ := select_region_spec m x y w h heap
  refine ⟨hx, hy, fun i j h0 h1 h2 h3 => ?_⟩
  have he : (select_region m x y w h heap).elem i j = m.array ((y + i) * m.x + x + j) := by
    simp only [matrix.elem, hx]
    exact ha i j h0 h1 h2 h3
  refine ⟨he, fun hx0 hy0 hxw hyh => ⟨by omega, by omega, by omega, by omega, ?_⟩⟩
  rw [he, matrix.elem, add_assoc]

/-- C9, amended, at `[[1, 2], [3, 4]]` with the rectangle `x = 1, y = 0, w = 2, h = 1`,
position `(0, 1)`. -/
theorem select_region_unchecked_witness :
    (select_region sample_2x2 1 0 2 1 nan_heap).elem 0 1 =
      sample_2x2.array ((0 + 0) * sample_2x2.x + 1 + 1) :=
  ((select_region_unchecked sample_2x2 1 0 2 1 nan_heap).2.2 0 1 (by decide) (by decide)
    (by decide) (by decide)).1

/-! ## Compositing -/

/-- C10: when `fg` and `bg` have the same width and height, `paste(fg, bg)` has these
dimensions and the element of `fg` at every position, whatever `bg` holds. -/
theorem paste_same_size (fg bg : matrix) (heap : Int → Flt)
    (hx : fg.x = bg.x) (hy : fg.y = bg.y) :
    (paste fg bg heap).x = fg.x ∧ (paste fg bg heap).y = fg.y ∧
    ∀ row col : Int, 0 ≤ row → row < fg.y → 0 ≤ col → col < fg.x →
      (paste fg bg heap).elem row col = fg.elem row col := by
  obtain ⟨px, py, _, ha, _⟩ := paste_spec fg bg heap (le_of_eq hx)
  refine ⟨px.trans hx.symm, py.trans hy.symm, fun row col h0 h1 h2 h3 => ?_⟩
  have h := ha row col h0 h1 h2 h3
  have e1 : Int.tdiv (bg.y - fg.y) 2 = 0 := by rw [hy]; simp
  have e2 : Int.tdiv (bg.x - fg.x) 2 = 0 := by rw [hx]; simp
  rw [e1, e2] at h
  simp only [matrix.elem, px, hx]
  rw [hx] at h
  rw [← h]
  congr 1
  ring

/-- C10 at `fg = [[1, 2], [3, 4]]`, `bg = [[5, 6], [7, 8]]`, position `(1, 1)`. -/
theorem paste_same_size_witness :
    sample_2x2.x = sample_2x2_bg.x ∧ sample_2x2.y = sample_2x2_bg.y ∧
    (paste sample_2x2 sample_2x2_bg nan_heap).elem 1 1 = sample_2x2.elem 1 1 :=
  ⟨rfl, rfl, (paste_same_size sample_2x2 sample_2x2_bg nan_heap rfl rfl).2.2 1 1
    (by decide) (by decide) (by decide) (by decide)⟩

/-! ## Scaling -/

theorem val_add_val (a b : ℚ) : Flt.val a + Flt.val b = Flt.val (a + b) := rfl

theorem val_mul_val (a b : ℚ) : Flt.val a * Flt.val b = Flt.val (a * b) := rfl

theorem within_iff {v : Flt} {lo hi : ℚ} :
    v.within lo hi = true ↔ ∃ q, v = Flt.val q ∧ lo ≤ q ∧ q ≤ hi := by
  cases v with
  | nan => simp [Flt.within]
  | val q => simp [Flt.within]

/-- The clamp: 0 for NaN, for a value above 10000 and for a negative value, the value
itself otherwise; the result is always a number of `[0, 10000]`. -/
theorem clamp_cases (value : Flt) :
    (∃ q, clamp value = Flt.val q ∧ 0 ≤ q ∧ q ≤ 10000) ∧
    ((value.isnan = true ∨ value.gt (Flt.val 10000) = true ∨ value.lt (Flt.val 0) = true) →
      clamp value = Flt.val 0) ∧
    (¬ (value.isnan = true ∨ value.gt (Flt.val 10000) = true ∨ value.lt (Flt.val 0) = true) →
      clamp value = value) := by
  cases value with
  | nan =>
    refine ⟨⟨0, ?_, le_refl _, by norm_num⟩, fun _ => ?_, fun h => ?_⟩
    · simp [clamp, Flt.isnan]
    · simp [clamp, Flt.isnan]
    · exact absurd (Or.inl rfl) h
  | val v =>
    by_cases h1 : (10000 : ℚ) < v
    · refine ⟨⟨0, ?_, le_refl _, by norm_num⟩, fun _ => ?_, fun h => ?_⟩
      · simp [clamp, Flt.isnan, Flt.gt, Flt.lt, h1]
      · simp [clamp, Flt.isnan, Flt.gt, Flt.lt, h1]
      · exact absurd (Or.inr (Or.inl (by simp [Flt.gt, Flt.lt, h1]))) h
    · by_cases h2 : v < 0
      · refine ⟨⟨0, ?_, le_refl _, by norm_num⟩, fun _ => ?_, fun h => ?_⟩
        · simp [clamp, Flt.isnan, Flt.gt, Flt.lt, h2]
        · simp [clamp, Flt.isnan, Flt.gt, Flt.lt, h2]
        · exact absurd (Or.inr (Or.inr (by simp [Flt.lt, h2]))) h
      · have hc : clamp (Flt.val v) = Flt.val v := by
          simp [clamp, Flt.isnan, Flt.gt, Flt.lt, h1, h2]
        refine ⟨⟨v, hc, by linarith, by linarith⟩, fun h => ?_, fun _ => hc⟩
        rcases h with h | h | h
        · simp [Flt.isnan] at h
        · simp [Flt.gt, Flt.lt, h1] at h
        · simp [Flt.lt, h2] at h

/-- Every matrix `scale_matrix` returns comes out of the resampling loops, run on some
float dimensions. -/
theorem scale_matrix_some {m : matrix} {f : ℚ} {adjust : Bool} {heap : Int → Flt}
    {fuel : Nat} {r : matrix} (h : scale_matrix m f adjust heap fuel = some r) :
    ∃ new_height new_width : ℚ, r = resample m new_height new_width heap := by
  unfold scale_matrix at h
  simp only at h
  split at h
  · exact absurd h (by simp)
  · next nh nw _ _ =>
    exact ⟨nh, nw, (Option.some.inj h).symm⟩

/-- C6, as stated, fails: the interpolated value 10000 is stored as 10000, not as 0
(identity scale of `[[10000, 0], [0, 0]]`, position `(0, 0)`), so an element of the
result lies outside `[0, 10000)`. -/
theorem clamp_keeps_10000 :
    interpolate sample_10000 2 2 0 0 = Flt.val 10000 ∧
    (scale_matrix sample_10000 1 false nan_heap 0).map (fun r => r.elem 0 0) =
      some (Flt.val 10000) := by
  decide!

/-- C6, amended: every element of the matrix returned by `scale_matrix` is a number of
the closed interval `[0, 10000]`; it is 0 when the interpolated value is NaN, negative
or above 10000, and the interpolated value itself otherwise (10000 included). -/
theorem scale_matrix_clamped (m : matrix) (f : ℚ) (adjust : Bool) (heap : Int → Flt)
    (fuel : Nat) (r : matrix) (h : scale_matrix m f adjust heap fuel = some r) :
    ∃ new_height new_width : ℚ, r.y = to_int new_height ∧ r.x = to_int new_width ∧
      ∀ y x : Int, 0 ≤ y → y < r.y → 0 ≤ x → x < r.x →
        (∃ q, r.elem y x = Flt.val q ∧ 0 ≤ q ∧ q ≤ 10000) ∧
        ((((interpolate m new_width new_height x y).isnan = true ∨
            (interpolate m new_width new_height x y).gt (Flt.val 10000) = true ∨
            (interpolate m new_width new_height x y).lt (Flt.val 0) = true) →
          r.elem y x = Flt.val 0) ∧
        (¬ ((interpolate m new_width new_height x y).isnan = true ∨
            (interpolate m new_width new_height x y).gt (Flt.val 10000) = true ∨
            (interpolate m new_width new_height x y).lt (Flt.val 0) = true) →
          r.elem y x = interpolate m new_width new_height x y)) := by
  obtain ⟨nh, nw, rfl⟩ := scale_matrix_some h
  obtain ⟨hx, hy, _, ha⟩ := resample_spec m nh nw heap
  refine ⟨nh, nw, hy, hx, fun y x h0 h1 h2 h3 => ?_⟩
  have he : (resample m nh nw heap).elem y x = clamp (interpolate m nw nh x y) := by
    rw [matrix.elem, hx]
    exact ha y x h0 (by omega) h2 (by omega)
  rw [he]
  exact clamp_cases _

/-- C6, amended, at the identity scale of `[[10000, 0], [0, 0]]`, position `(0, 0)`. -/
theorem scale_matrix_clamped_witness :
    scale_matrix sample_10000 1 false nan_heap 0 =
      some (resample sample_10000 ((sample_10000.y : ℚ) * 1) ((sample_10000.x : ℚ) * 1)
        nan_heap) ∧
    ∃ q, (resample sample_10000 ((sample_10000.y : ℚ) * 1) ((sample_10000.x : ℚ) * 1)
      nan_heap).elem 0 0 = Flt.val q ∧ 0 ≤ q ∧ q ≤ 10000 := by
  refine ⟨rfl, ?_⟩
  obtain ⟨_, _, _, _, hpix⟩ := scale_matrix_clamped sample_10000 1 false nan_heap 0
    (resample sample_10000 ((sample_10000.y : ℚ) * 1) ((sample_10000.x : ℚ) * 1) nan_heap) rfl
  exact (hpix 0 0 (by decide) (by decide!) (by decide) (by decide!)).1

theorem src_x_pos_identity (m : matrix) (hx : 0 < m.x) (col : Int) :
    src_x_pos m ((m.x : ℚ) * 1) col = { floored := col, decimal := 0 } := by
  have h0 : (m.x : ℚ) ≠ 0 := by exact_mod_cast (ne_of_gt hx)
  have h1 : (col : ℚ) / ((m.x : ℚ) * 1) * (m.x : ℚ) = (col : ℚ) := by field_simp
  simp only [src_x_pos, h1, calc_pos_intCast]

theorem src_y_pos_identity (m : matrix) (hy : 0 < m.y) (row : Int) :
    src_y_pos m ((m.y : ℚ) * 1) row = { floored := row, decimal := 0 } := by
  have h0 : (m.y : ℚ) ≠ 0 := by exact_mod_cast (ne_of_gt hy)
  have h1 : (row : ℚ) / ((m.y : ℚ) * 1) * (m.y : ℚ) = (row : ℚ) := by field_simp
  simp only [src_y_pos, h1, calc_pos_intCast]

/-- The four reads of `gather` are the reads of the source at the four
`neighbour_cells`, in row-major layout. -/
theorem gather_reads (m : matrix) (x_pos y_pos : pos) (k : Nat) :
    gather m x_pos y_pos k =
      m.array ((neighbour_cells x_pos y_pos k).1 * m.x + (neighbour_cells x_pos y_pos k).2) := by
  match k with
  | 0 => simp only [gather, known_points, neighbour_cells, matrix.get, add_assoc]
  | 1 => simp only [gather, known_points, neighbour_cells, matrix.get, add_assoc]
  | 2 => simp only [gather, known_points, neighbour_cells, matrix.get, add_assoc]
  | k + 3 => simp only [gather, known_points, neighbour_cells, matrix.get, add_assoc]

/-- Scaling `[[0, 255], [255, 0]]` by 2: the bottom corners `(3, 0)` and `(3, 3)` of
the result are blends with the floats `rest 4`, `rest 5`, `rest 6` that follow the
source buffer in memory. -/
theorem scale_checker_depends (rest heap : Int → Flt) (fuel : Nat) :
    ∃ r : matrix, scale_matrix (sample_checker rest) 2 false heap fuel = some r ∧
      r.x = 4 ∧ r.y = 4 ∧
      r.elem 3 0 = clamp (Flt.val (255 / 2) + Flt.val (1 / 2) * rest 4 + Flt.val 0 * rest 5) ∧
      r.elem 3 3 = clamp (Flt.val 0 + Flt.val (1 / 4) * rest 4 + Flt.val (1 / 4) * rest 5 +
        Flt.val (1 / 4) * rest 6) := by
  obtain ⟨rx, ry, _, ra⟩ := resample_spec (sample_checker rest)
    (((sample_checker rest).y : ℚ) * 2) (((sample_checker rest).x : ℚ) * 2) heap
  have e4 : to_int ((((2 : Int) : ℚ)) * 2) = 4 := by decide!
  have ex : to_int (((sample_checker rest).x : ℚ) * 2) = 4 := e4
  have ey : to_int (((sample_checker rest).y : ℚ) * 2) = 4 := e4
  rw [ex] at rx
  rw [ey] at ry
  rw [ex, ey] at ra
  have p0 : src_x_pos (sample_checker rest) (((sample_checker rest).x : ℚ) * 2) 0 =
      { floored := 0, decimal := 0 } := by
    show calc_pos ((((0 : Int) : ℚ)) / ((((2 : Int) : ℚ)) * 2) * (((2 : Int) : ℚ))) = _
    decide!
  have p3x : src_x_pos (sample_checker rest) (((sample_checker rest).x : ℚ) * 2) 3 =
      { floored := 1, decimal := 1 / 2 } := by
    show calc_pos ((((3 : Int) : ℚ)) / ((((2 : Int) : ℚ)) * 2) * (((2 : Int) : ℚ))) = _
    decide!
  have p3 : src_y_pos (sample_checker rest) (((sample_checker rest).y : ℚ) * 2) 3 =
      { floored := 1, decimal := 1 / 2 } := by
    show calc_pos ((((3 : Int) : ℚ)) / ((((2 : Int) : ℚ)) * 2) * (((2 : Int) : ℚ))) = _
    decide!
  have m2 : (sample_checker rest).array 2 = Flt.val 255 := rfl
  have m3 : (sample_checker rest).array 3 = Flt.val 0 := rfl
  have m4 : (sample_checker rest).array 4 = rest 4 := rfl
  have m5 : (sample_checker rest).array 5 = rest 5 := rfl
  have m6 : (sample_checker rest).array 6 = rest 6 := rfl
  refine ⟨_, rfl, rx, ry, ?_, ?_⟩
  · rw [matrix.elem, rx, ra 3 0 (by decide) (by decide) (by decide) (by decide)]
    simp only [interpolate, p0, p3, gather, matrix.get, bilinear_approximation, known_points]
    have hx2 : (sample_checker rest).x = 2 := rfl
    simp only [hx2]
    norm_num [m2, m3, m4, m5, val_add_val, val_mul_val]
  · rw [matrix.elem, rx, ra 3 3 (by decide) (by decide) (by decide) (by decide)]
    simp only [interpolate, p3x, p3, gather, matrix.get, bilinear_approximation, known_points]
    have hx2 : (sample_checker rest).x = 2 := rfl
    simp only [hx2]
    norm_num [m3, m4, m5, m6, val_add_val, val_mul_val]

/-- C2 on the code: scaling `[[0, 255], [255, 0]]` by 2 gives a 4 by 4 matrix whose
element `(3, 0)` blends the source corner 255 with the float that follows the buffer.
With zeros after the buffer the four corners are 0, 255, 127.5 and 0. -/
theorem scale_checker_corners :
    (scale_matrix (sample_checker (fun _ => Flt.val 0)) 2 false nan_heap 0).map
        (fun r => (r.x, r.y, r.elem 0 0, r.elem 0 3, r.elem 3 0, r.elem 3 3)) =
      some (4, 4, Flt.val 0, Flt.val 255, Flt.val (255 / 2), Flt.val 0) := by
  decide!

/-- C3 on the code: in the identity scale of the 1 by 1 matrix `[[7]]` the destination
is 1 by 1 and its only pixel `(0, 0)` reads the source at `(0, 1)`, `(1, 0)` and
`(1, 1)`, all outside the source; the last flat offset read, 2, is past the buffer of
1 float. -/
theorem scale_reads_outside :
    to_int ((sample_1x1.y : ℚ) * 1) = 1 ∧ to_int ((sample_1x1.x : ℚ) * 1) = 1 ∧
    sample_1x1.y = 1 ∧ sample_1x1.x = 1 ∧ sample_1x1.len = 1 ∧
    neighbour_cells (src_x_pos sample_1x1 ((sample_1x1.x : ℚ) * 1) 0)
      (src_y_pos sample_1x1 ((sample_1x1.y : ℚ) * 1) 0) 1 = (0, 1) ∧
    neighbour_cells (src_x_pos sample_1x1 ((sample_1x1.x : ℚ) * 1) 0)
      (src_y_pos sample_1x1 ((sample_1x1.y : ℚ) * 1) 0) 2 = (1, 0) ∧
    neighbour_cells (src_x_pos sample_1x1 ((sample_1x1.x : ℚ) * 1) 0)
      (src_y_pos sample_1x1 ((sample_1x1.y : ℚ) * 1) 0) 3 = (1, 1) ∧
    (1 : Int) * sample_1x1.x + 1 = 2 := by
  decide!

/-- The identity scale of any matrix of positive dimensions reads outside it: the
last destination pixel `(m.y - 1, m.x - 1)` reads the source position `(m.y, m.x)`. -/
theorem identity_scale_reads_past (m : matrix) (hx : 0 < m.x) (hy : 0 < m.y) :
    neighbour_cells (src_x_pos m ((m.x : ℚ) * 1) (m.x - 1))
      (src_y_pos m ((m.y : ℚ) * 1) (m.y - 1)) 3 = (m.y, m.x) := by
  rw [src_x_pos_identity m hx, src_y_pos_identity m hy]
  simp [neighbour_cells]

/-! ## The adjustment search -/

/-- One iteration of the search loop: exit when the exit condition holds, go on
otherwise. -/
theorem adjust_loop_succ (height width step : ℚ) (fuel : Nat) (scale_factor : ℚ)
    (escape_counter : Int) :
    adjust_loop height width step (fuel + 1) scale_factor escape_counter =
      if exit_test height width step scale_factor escape_counter 1 then
        some (scale_factor + step, escape_counter + 1)
      else adjust_loop height width step fuel (scale_factor + step) (escape_counter + 1) := by
  simp only [adjust_loop, exit_test, Nat.cast_one, one_mul]
  cases test_float ((scale_factor + step) * height) <;>
    cases test_float ((scale_factor + step) * width) <;>
    cases decide (escape_counter + 1 > 1000000) <;> rfl

/-- At its exit the loop has seen both products test integral, or the width product
test integral with the counter above 1000000. -/
theorem adjust_loop_some (height width step : ℚ) (fuel : Nat) :
    ∀ (scale_factor : ℚ) (escape_counter : Int) (sf2 : ℚ) (c2 : Int),
      adjust_loop height width step fuel scale_factor escape_counter = some (sf2, c2) →
      ((test_float (sf2 * height) && test_float (sf2 * width)) ||
        (test_float (sf2 * width) && decide (c2 > 1000000))) = true := by
  induction fuel with
  | zero =>
    intro _ _ _ _ h
    simp [adjust_loop] at h
  | succ fuel ih =>
    intro sf c sf2 c2 h
    rw [adjust_loop_succ] at h
    by_cases he : exit_test height width step sf c 1 = true
    · rw [if_pos he] at h
      have h1 := Option.some.inj h
      have h2 : sf + step = sf2 := congrArg Prod.fst h1
      have h3 : c + 1 = c2 := congrArg Prod.snd h1
      simp only [exit_test, Nat.cast_one, one_mul] at he
      rw [h2, h3] at he
      exact he
    · rw [if_neg he] at h
      exact ih _ _ _ _ h

/-- A non-negative float that tests integral is an integer, and converts to `int`
without loss. -/
theorem test_float_nonneg (q : ℚ) (hq : 0 ≤ q) (h : test_float q = true) :
    ((to_int q : Int) : ℚ) = q := by
  have hf : to_int q = ⌊q⌋ := to_int_of_nonneg hq
  have h1 : ¬ (q - ((⌊q⌋ : Int) : ℚ) > 0) := by
    intro h2
    simp only [test_float, calc_pos, hf, if_pos h2] at h
    exact absurd h (by decide)
  have h3 : ((⌊q⌋ : Int) : ℚ) ≤ q := Int.floor_le q
  rw [hf]
  linarith

/-- An exit of the search below the fallback at a factor whose products with height and
width are non-negative leaves integer products, which the conversion to `int` keeps. -/
theorem adjust_exit_integral (height width step : ℚ) (fuel : Nat) (scale_factor sf2 : ℚ)
    (c2 : Int) (h : adjust_loop height width step fuel scale_factor 0 = some (sf2, c2))
    (hc : c2 ≤ 1000000) (hh : 0 ≤ sf2 * height) (hw : 0 ≤ sf2 * width) :
    ((to_int (height * sf2) : Int) : ℚ) = height * sf2 ∧
    ((to_int (width * sf2) : Int) : ℚ) = width * sf2 := by
  have h1 := adjust_loop_some height width step fuel scale_factor 0 sf2 c2 h
  have h2 : decide (c2 > 1000000) = false := by
    simp only [decide_eq_false_iff_not]
    omega
  rw [h2] at h1
  simp only [Bool.and_false, Bool.or_false, Bool.and_eq_true] at h1
  rw [mul_comm height, mul_comm width]
  exact ⟨test_float_nonneg _ hh h1.1, test_float_nonneg _ hw h1.2⟩

/-- C4 on the code: for the 1 by 1 matrix and the positive factor `2^-25` the search
stops at its second iteration, far below the fallback, with both tests passed; the
final factor `2^-25 - 10^-7` is negative, its products with height and width lie
strictly between -1 and 0 and are no integers, and the result is 0 by 0. -/
theorem adjust_accepts_negative :
    adjust_loop 1 1 (-(1 / 10000000)) 2 (1 / 33554432 - -(1 / 10000000)) 0 =
      some (1 / 33554432 - 1 / 10000000, 2) ∧
    test_float ((1 / 33554432 - 1 / 10000000) * 1) = true ∧
    adjust_scale_factor 1 1 (1 / 33554432) (-(1 / 10000000)) 2 =
      some (1 * (1 / 33554432 - 1 / 10000000), 1 * (1 / 33554432 - 1 / 10000000),
        1 / 33554432 - 1 / 10000000) ∧
    (-1 : ℚ) < 1 * (1 / 33554432 - 1 / 10000000) ∧
    (1 : ℚ) * (1 / 33554432 - 1 / 10000000) < 0 ∧
    (scale_matrix sample_1x1 (1 / 33554432) true nan_heap 2).map (fun r => (r.x, r.y)) =
      some (0, 0) := by
  decide!

/-! ## Centred compositing -/

/-- In row-major layout with columns `0 .. W - 1`, an offset determines its row and
column. -/
theorem row_major_inj (W r c r2 c2 : Int) (hc0 : 0 ≤ c) (hc1 : c < W) (hd0 : 0 ≤ c2)
    (hd1 : c2 < W) (h : r * W + c = r2 * W + c2) : r = r2 ∧ c = c2 := by
  have hr : r = r2 := by
    rcases lt_trichotomy r r2 with h1 | h1 | h1
    · have h2 : (r + 1) * W ≤ r2 * W := mul_le_mul_of_nonneg_right (by omega) (by omega)
      have h3 : (r + 1) * W = r * W + W := by ring
      omega
    · exact h1
    · have h2 : (r2 + 1) * W ≤ r * W := mul_le_mul_of_nonneg_right (by omega) (by omega)
      have h3 : (r2 + 1) * W = r2 * W + W := by ring
      omega
  subst hr
  exact ⟨rfl, by omega⟩

/-- In row-major layout a position inside an `H` by `W` matrix has its offset inside
the buffer of `H * W` floats. -/
theorem offset_in_buffer (H W r c : Int) (hr0 : 0 ≤ r) (hr1 : r < H) (hc0 : 0 ≤ c)
    (hc1 : c < W) : 0 ≤ r * W + c ∧ r * W + c < H * W := by
  have h1 : 0 ≤ r * W := mul_nonneg hr0 (by omega)
  have h2 : (r + 1) * W ≤ H * W := mul_le_mul_of_nonneg_right (by omega) (by omega)
  have h3 : (r + 1) * W = r * W + W := by ring
  omega

/-- C11: when `fg` is no larger than `bg`, `paste(fg, bg)` has the dimensions of `bg`;
with `xo = floor((bg.x - fg.x) / 2)` and `yo = floor((bg.y - fg.y) / 2)` its element at
`(r, c)` is `fg[r - yo][c - xo]` inside the centred rectangle and `bg[r][c]` everywhere
else. -/
theorem paste_centered (fg bg : matrix) (heap : Int → Flt) (hw : fg.x ≤ bg.x)
    (hh : fg.y ≤ bg.y) :
    (paste fg bg heap).x = bg.x ∧ (paste fg bg heap).y = bg.y ∧
    ∀ r c : Int, 0 ≤ r → r < bg.y → 0 ≤ c → c < bg.x →
      (paste fg bg heap).elem r c =
        if (bg.y - fg.y) / 2 ≤ r ∧ r < (bg.y - fg.y) / 2 + fg.y ∧
            (bg.x - fg.x) / 2 ≤ c ∧ c < (bg.x - fg.x) / 2 + fg.x then
          fg.elem (r - (bg.y - fg.y) / 2) (c - (bg.x - fg.x) / 2)
        else bg.elem r c := by
  obtain ⟨px, py, _, hin, hout⟩ := paste_spec fg bg heap hw
  have ex : Int.tdiv (bg.x - fg.x) 2 = (bg.x - fg.x) / 2 :=
    Int.tdiv_eq_ediv (by omega) (by decide)
  have ey : Int.tdiv (bg.y - fg.y) 2 = (bg.y - fg.y) / 2 :=
    Int.tdiv_eq_ediv (by omega) (by decide)
  rw [ex, ey] at hin hout
  refine ⟨px, py, fun r c hr0 hr1 hc0 hc1 => ?_⟩
  rw [matrix.elem, px]
  split
  · next hcond =>
    obtain ⟨h1, h2, h3, h4⟩ := hcond
    have h := hin (r - (bg.y - fg.y) / 2) (c - (bg.x - fg.x) / 2) (by omega) (by omega)
      (by omega) (by omega)
    rw [matrix.elem, ← h]
    congr 1
    ring
  · next hcond =>
    have hb := offset_in_buffer bg.y bg.x r c hr0 hr1 hc0 hc1
    rw [hout (r * bg.x + c) (fun y x hy0 hy1 hx0 hx1 heq => by
      have hxo : 0 ≤ (bg.x - fg.x) / 2 := by omega
      have hxo2 : (bg.x - fg.x) / 2 + fg.x ≤ bg.x := by omega
      have heq2 : r * bg.x + c = ((bg.y - fg.y) / 2 + y) * bg.x + ((bg.x - fg.x) / 2 + x) := by
        rw [heq]
        ring
      obtain ⟨e1, e2⟩ := row_major_inj bg.x r c ((bg.y - fg.y) / 2 + y)
        ((bg.x - fg.x) / 2 + x) hc0 hc1 (by omega) (by omega) heq2
      exact hcond ⟨by omega, by omega, by omega, by omega⟩)]
    have hm : memcpy heap bg.array (bg.y * bg.x) (r * bg.x + c) = bg.array (r * bg.x + c) := by
      simp only [memcpy]
      rw [if_pos hb]
    rw [hm, matrix.elem]

/-- C11 at `fg = [[7]]` pasted on the 3 by 3 matrix `[[1, 2, 3], [4, 5, 6], [7, 8, 9]]`:
the centre `(1, 1)` is inside the rectangle, the corner `(0, 2)` is not. -/
theorem paste_centered_witness :
    sample_1x1.x ≤ sample_3x3.x ∧ sample_1x1.y ≤ sample_3x3.y ∧
    (paste sample_1x1 sample_3x3 nan_heap).elem 1 1 =
      (if (sample_3x3.y - sample_1x1.y) / 2 ≤ 1 ∧
          (1 : Int) < (sample_3x3.y - sample_1x1.y) / 2 + sample_1x1.y ∧
          (sample_3x3.x - sample_1x1.x) / 2 ≤ 1 ∧
          (1 : Int) < (sample_3x3.x - sample_1x1.x) / 2 + sample_1x1.x then
        sample_1x1.elem (1 - (sample_3x3.y - sample_1x1.y) / 2)
          (1 - (sample_3x3.x - sample_1x1.x) / 2)
      else sample_3x3.elem 1 1) ∧
    (paste sample_1x1 sample_3x3 nan_heap).elem 1 1 = Flt.val 7 ∧
    (paste sample_1x1 sample_3x3 nan_heap).elem 0 2 = Flt.val 3 :=
  ⟨by decide, by decide,
    (paste_centered sample_1x1 sample_3x3 nan_heap (by decide) (by decide)).2.2 1 1
      (by decide) (by decide) (by decide) (by decide),
    by decide!, by decide!⟩

/-- C19: when `fg` is no larger than `bg`, selecting the centred rectangle of
`paste(fg, bg)` gives back `fg`: the same width and height and the same element at
every position. -/
theorem select_region_of_paste (fg bg : matrix) (heap heap2 : Int → Flt)
    (hw : fg.x ≤ bg.x) (hh : fg.y ≤ bg.y) :
    (select_region (paste fg bg heap) ((bg.x - fg.x) / 2) ((bg.y - fg.y) / 2) fg.x fg.y
      heap2).x = fg.x ∧
    (select_region (paste fg bg heap) ((bg.x - fg.x) / 2) ((bg.y - fg.y) / 2) fg.x fg.y
      heap2).y = fg.y ∧
    ∀ i j : Int, 0 ≤ i → i < fg.y → 0 ≤ j → j < fg.x →
      (select_region (paste fg bg heap) ((bg.x - fg.x) / 2) ((bg.y - fg.y) / 2) fg.x fg.y
        heap2).elem i j = fg.elem i j := by
  obtain ⟨px, _, _, hin, _⟩ := paste_spec fg bg heap hw
  have ex : Int.tdiv (bg.x - fg.x) 2 = (bg.x - fg.x) / 2 :=
    Int.tdiv_eq_ediv (by omega) (by decide)
  have ey : Int.tdiv (bg.y - fg.y) 2 = (bg.y - fg.y) / 2 :=
    Int.tdiv_eq_ediv (by omega) (by decide)
  rw [ex, ey] at hin
  obtain ⟨sx, sy, _, sa⟩ := select_region_spec (paste fg bg heap) ((bg.x - fg.x) / 2)
    ((bg.y - fg.y) / 2) fg.x fg.y heap2
  refine ⟨sx, sy, fun i j hi0 hi1 hj0 hj1 => ?_⟩
  rw [matrix.elem, sx, sa i j hi0 hi1 hj0 hj1, px, hin i j hi0 hi1 hj0 hj1, matrix.elem]

/-- C19 at `fg = [[1, 2], [3, 4]]` pasted on the 3 by 3 matrix, position `(1, 0)`. -/
theorem select_region_of_paste_witness :
    sample_2x2.x ≤ sample_3x3.x ∧ sample_2x2.y ≤ sample_3x3.y ∧
    (select_region (paste sample_2x2 sample_3x3 nan_heap)
      ((sample_3x3.x - sample_2x2.x) / 2) ((sample_3x3.y - sample_2x2.y) / 2)
      sample_2x2.x sample_2x2.y nan_heap).elem 1 0 = sample_2x2.elem 1 0 :=
  ⟨by decide, by decide,
    (select_region_of_paste sample_2x2 sample_3x3 nan_heap nan_heap (by decide)
      (by decide)).2.2 1 0 (by decide) (by decide) (by decide) (by decide)⟩

/-! ## Translation -/

/-- The result of `translation`: a matrix of the dimensions of the source whose cell
`(y, x)` is the source float at offset `y_pos * matrix_p.x + x_pos`. -/
theorem translation_spec (matrix_p : matrix) (x_offset y_offset : Int) (heap : Int → Flt) :
    (translation matrix_p x_offset y_offset heap).x = matrix_p.x ∧
    (translation matrix_p x_offset y_offset heap).y = matrix_p.y ∧
    (translation matrix_p x_offset y_offset heap).len = matrix_p.y * matrix_p.x ∧
    ∀ y x : Int, 0 ≤ y → y < matrix_p.y → 0 ≤ x → x < matrix_p.x →
      (translation matrix_p x_offset y_offset heap).elem y x =
        matrix_p.array (translation_y_pos matrix_p y y_offset * matrix_p.x +
          translation_x_pos matrix_p x x_offset) := by
  have houter : ∀ (y : Int) (t : matrix),
      t.x = (create_matrix matrix_p.y matrix_p.x heap).x →
      (fun y new_matrix =>
        for_loop matrix_p.x (fun x new_matrix =>
          let x_pos : Int := translation_x_pos matrix_p x x_offset
          let y_pos : Int := translation_y_pos matrix_p y y_offset
          new_matrix.set ((y * new_matrix.x) + x)
            (matrix_p.get ((y_pos * matrix_p.x) + x_pos))) new_matrix) y t =
      iterate_upto matrix_p.x.toNat (fun x u => u.set ((fun W y => y * W) u.x y + x)
        ((fun y x => matrix_p.array (translation_y_pos matrix_p y y_offset * matrix_p.x +
          translation_x_pos matrix_p x x_offset)) y x)) t := by
    intro y t _
    rfl
  obtain ⟨hx, hy, hl⟩ := grid_loop_dims matrix_p.y.toNat matrix_p.x.toNat _
    (fun W y => y * W)
    (fun y x => matrix_p.array (translation_y_pos matrix_p y y_offset * matrix_p.x +
      translation_x_pos matrix_p x x_offset))
    (create_matrix matrix_p.y matrix_p.x heap) houter
  refine ⟨hx, hy, hl, fun y x h0 h1 h2 h3 => ?_⟩
  have hg := grid_loop matrix_p.y.toNat matrix_p.x.toNat _ (fun W y => y * W)
    (fun y x => matrix_p.array (translation_y_pos matrix_p y y_offset * matrix_p.x +
      translation_x_pos matrix_p x x_offset))
    (create_matrix matrix_p.y matrix_p.x heap) houter
    (fun i i2 h0 h1 => by
      have h2 := rows_separate matrix_p.x 0 0 matrix_p.x.toNat (by omega) i i2 h0 h1
      simpa [create_matrix] using h2) y x h0 (by omega) h2 (by omega)
  have hx2 : (translation matrix_p x_offset y_offset heap).x = matrix_p.x := hx
  rw [matrix.elem, hx2]
  exact hg

/-- For an offset of at least minus the width the source column is the mathematical
wrap of `x + x_offset` and lies inside the source. -/
theorem translation_x_pos_wraps (m : matrix) (x x_offset : Int) (hx0 : 0 ≤ x) (hx1 : x < m.x)
    (ho : -m.x ≤ x_offset) :
    translation_x_pos m x x_offset = (x + x_offset) % m.x ∧
    0 ≤ translation_x_pos m x x_offset ∧ translation_x_pos m x x_offset < m.x := by
  have h1 : translation_x_pos m x x_offset = (m.x + x + x_offset) % m.x :=
    Int.tmod_eq_emod (by omega) (by omega)
  have h2 : (m.x + x + x_offset) % m.x = (x + x_offset) % m.x := by
    rw [add_assoc, Int.add_emod_self_left]
  rw [h1, h2]
  exact ⟨rfl, Int.emod_nonneg _ (by omega), Int.emod_lt_of_pos _ (by omega)⟩

/-- For an offset of at least minus the height the source row is the mathematical
wrap of `y + y_offset` and lies inside the source. -/
theorem translation_y_pos_wraps (m : matrix) (y y_offset : Int) (hy0 : 0 ≤ y) (hy1 : y < m.y)
    (ho : -m.y ≤ y_offset) :
    translation_y_pos m y y_offset = (y + y_offset) % m.y ∧
    0 ≤ translation_y_pos m y y_offset ∧ translation_y_pos m y y_offset < m.y := by
  have h1 : translation_y_pos m y y_offset = (m.y + y + y_offset) % m.y :=
    Int.tmod_eq_emod (by omega) (by omega)
  have h2 : (m.y + y + y_offset) % m.y = (y + y_offset) % m.y := by
    rw [add_assoc, Int.add_emod_self_left]
  rw [h1, h2]
  exact ⟨rfl, Int.emod_nonneg _ (by omega), Int.emod_lt_of_pos _ (by omega)⟩

/-- C12: `translation(m, 0, 0)` has the dimensions of `m` and the element of `m` at
every position. -/
theorem translation_zero (m : matrix) (heap : Int → Flt) :
    (translation m 0 0 heap).x = m.x ∧ (translation m 0 0 heap).y = m.y ∧
    ∀ row col : Int, 0 ≤ row → row < m.y → 0 ≤ col → col < m.x →
      (translation m 0 0 heap).elem row col = m.elem row col := by
  obtain ⟨hx, hy, _, ha⟩ := translation_spec m 0 0 heap
  refine ⟨hx, hy, fun row col h0 h1 h2 h3 => ?_⟩
  have ex := (translation_x_pos_wraps m col 0 h2 h3 (by omega)).1
  have ey := (translation_y_pos_wraps m row 0 h0 h1 (by omega)).1
  rw [add_zero, Int.emod_eq_of_lt h2 h3] at ex
  rw [add_zero, Int.emod_eq_of_lt h0 h1] at ey
  rw [ha row col h0 h1 h2 h3, ex, ey, matrix.elem]

/-- C12 at `[[1, 2], [3, 4]]`, position `(1, 0)`. -/
theorem translation_zero_witness :
    (0 : Int) ≤ 1 ∧ (1 : Int) < sample_2x2.y ∧ (0 : Int) ≤ 0 ∧ (0 : Int) < sample_2x2.x ∧
    (translation sample_2x2 0 0 nan_heap).elem 1 0 = sample_2x2.elem 1 0 :=
  ⟨by decide, by decide, by decide, by decide,
    (translation_zero sample_2x2 nan_heap).2.2 1 0 (by decide) (by decide) (by decide)
      (by decide)⟩

/-- C13: `translation(m, m.x, 0)` equals `translation(m, 0, 0)`: the same dimensions and
the same element at every position. -/
theorem translation_full_width (m : matrix) (heap heap2 : Int → Flt) :
    (translation m m.x 0 heap).x = (translation m 0 0 heap2).x ∧
    (translation m m.x 0 heap).y = (translation m 0 0 heap2).y ∧
    ∀ row col : Int, 0 ≤ row → row < m.y → 0 ≤ col → col < m.x →
      (translation m m.x 0 heap).elem row col = (translation m 0 0 heap2).elem row col := by
  obtain ⟨hx, hy, _, ha⟩ := translation_spec m m.x 0 heap
  obtain ⟨zx, zy, _, za⟩ := translation_spec m 0 0 heap2
  refine ⟨hx.trans zx.symm, hy.trans zy.symm, fun row col h0 h1 h2 h3 => ?_⟩
  have ex := (translation_x_pos_wraps m col m.x h2 h3 (by omega)).1
  have ex0 := (translation_x_pos_wraps m col 0 h2 h3 (by omega)).1
  rw [Int.add_emod_self] at ex
  rw [add_zero] at ex0
  rw [ha row col h0 h1 h2 h3, za row col h0 h1 h2 h3, ex, ex0]

/-- C13 at `[[1, 2], [3, 4]]`, position `(0, 1)`. -/
theorem translation_full_width_witness :
    (0 : Int) ≤ 0 ∧ (0 : Int) < sample_2x2.y ∧ (0 : Int) ≤ 1 ∧ (1 : Int) < sample_2x2.x ∧
    (translation sample_2x2 sample_2x2.x 0 nan_heap).elem 0 1 =
      (translation sample_2x2 0 0 nan_heap).elem 0 1 :=
  ⟨by decide, by decide, by decide, by decide,
    (translation_full_width sample_2x2 nan_heap nan_heap).2.2 0 1 (by decide) (by decide)
      (by decide) (by decide)⟩

/-- Translating there and back is the identity as long as neither offset exceeds one
full dimension in magnitude. -/
theorem translation_round_trip_small (m : matrix) (dx dy : Int) (heap heap2 : Int → Flt)
    (hdx0 : -m.x ≤ dx) (hdx1 : dx ≤ m.x) (hdy0 : -m.y ≤ dy) (hdy1 : dy ≤ m.y) :
    (translation (translation m dx dy heap) (-dx) (-dy) heap2).x = m.x ∧
    (translation (translation m dx dy heap) (-dx) (-dy) heap2).y = m.y ∧
    ∀ row col : Int, 0 ≤ row → row < m.y → 0 ≤ col → col < m.x →
      (translation (translation m dx dy heap) (-dx) (-dy) heap2).elem row col =
        m.elem row col := by
  obtain ⟨ax, ay, _, aa⟩ := translation_spec m dx dy heap
  obtain ⟨bx, by2, _, ba⟩ := translation_spec (translation m dx dy heap) (-dx) (-dy) heap2
  rw [ax] at bx
  rw [ay] at by2
  refine ⟨bx, by2, fun row col h0 h1 h2 h3 => ?_⟩
  obtain ⟨ex, ex0, ex1⟩ := translation_x_pos_wraps (translation m dx dy heap) col (-dx)
    h2 (by rw [ax]; exact h3) (by rw [ax]; omega)
  obtain ⟨ey, ey0, ey1⟩ := translation_y_pos_wraps (translation m dx dy heap) row (-dy)
    h0 (by rw [ay]; exact h1) (by rw [ay]; omega)
  rw [ax] at ex ex1
  rw [ay] at ey ey1
  have hb := ba row col h0 (by rw [ay]; exact h1) h2 (by rw [ax]; exact h3)
  rw [ax] at hb
  have hc := aa (translation_y_pos (translation m dx dy heap) row (-dy))
    (translation_x_pos (translation m dx dy heap) col (-dx)) ey0 ey1 ex0 ex1
  rw [matrix.elem, ax] at hc
  rw [hb, hc]
  have fx := (translation_x_pos_wraps m
    (translation_x_pos (translation m dx dy heap) col (-dx)) dx ex0 ex1 hdx0).1
  have fy := (translation_y_pos_wraps m
    (translation_y_pos (translation m dx dy heap) row (-dy)) dy ey0 ey1 hdy0).1
  rw [ex, Int.emod_add_emod] at fx
  rw [ey, Int.emod_add_emod] at fy
  have gx : col + -dx + dx = col := by ring
  have gy : row + -dy + dy = row := by ring
  rw [gx, Int.emod_eq_of_lt h2 h3] at fx
  rw [gy, Int.emod_eq_of_lt h0 h1] at fy
  rw [ex, ey, fx, fy, matrix.elem]

/-- C14 on the code: translating `[[1, 2], [3, 4]]` by `(3, 0)` and then by `(-3, 0)`
gives 1 at position `(1, 0)`, where the source holds 3. -/
theorem translation_round_trip_fails :
    (translation (translation sample_2x2 3 0 nan_heap) (-3) 0 nan_heap).elem 1 0 = Flt.val 1 ∧
    sample_2x2.elem 1 0 = Flt.val 3 := by
  decide!

/-- C15 on the code: in the 2 by 2 matrix `[[1, 2], [3, 4]]` with `x_offset = -3` the
source column computed for destination column 0 is -1, outside the matrix, where the
mathematical wrap of `0 + -3` is 1.  Destination `(1, 0)` takes the float at offset
`1 * 2 - 1`, the 2 of position `(0, 1)`, instead of the 4 of position `(1, 1)`, and
destination `(0, 0)` takes the float before the buffer. -/
theorem translation_position_negative :
    translation_x_pos sample_2x2 0 (-3) = -1 ∧
    (0 + -3) % sample_2x2.x = 1 ∧
    (translation sample_2x2 (-3) 0 nan_heap).elem 1 0 = Flt.val 2 ∧
    sample_2x2.elem 1 1 = Flt.val 4 ∧
    (translation sample_2x2 (-3) 0 nan_heap).elem 0 0 = sample_2x2.array (-1) := by
  decide!

/-! ## Density projections -/

theorem flt_add_def (a b : Flt) : a + b = Flt.add a b := rfl

theorem flt_div_def (a b : Flt) : a / b = Flt.div a b := rfl

theorem flt_mul_def (a b : Flt) : a * b = Flt.mul a b := rfl

/-- The accumulation loop `sum += f(i)` from 0 computes the sum of the `f(i)`. -/
theorem sum_loop (n : Nat) (f : Int → Flt) :
    iterate_upto n (fun i sum => sum + f i) (Flt.val 0) = ∑ i ∈ Finset.range n, f (i : Int) := by
  induction n with
  | zero => rfl
  | succ n ih =>
    rw [Finset.sum_range_succ, ← ih]
    rfl

theorem val_div_val (a b : ℚ) (hb : b ≠ 0) : Flt.val a / Flt.val b = Flt.val (a / b) := by
  simp [flt_div_def, Flt.div, hb]

theorem div_val_eq_mul (a : Flt) (c : ℚ) (hc : c ≠ 0) : a / Flt.val c = Flt.val c⁻¹ * a := by
  cases a with
  | nan => rfl
  | val q =>
    rw [val_div_val q c hc, val_mul_val, div_eq_inv_mul]

theorem scale_add (q : ℚ) (a b : Flt) :
    Flt.val q * (a + b) = Flt.val q * a + Flt.val q * b := by
  cases a <;> cases b <;> simp [flt_add_def, flt_mul_def, Flt.add, Flt.mul, mul_add]

theorem scale_sum (q : ℚ) (n : Nat) (f : Nat → Flt) :
    Flt.val q * ∑ i ∈ Finset.range n, f i = ∑ i ∈ Finset.range n, Flt.val q * f i := by
  induction n with
  | zero =>
    show Flt.val q * Flt.val 0 = Flt.val 0
    rw [val_mul_val, mul_zero]
  | succ n ih =>
    rw [Finset.sum_range_succ, Finset.sum_range_succ, ← ih]
    exact scale_add q _ _

theorem scale_scale (p q : ℚ) (a : Flt) : Flt.val p * (Flt.val q * a) = Flt.val (p * q) * a := by
  cases a <;> simp [flt_mul_def, Flt.mul, mul_assoc]

/-- The result of `horiz_density`: a matrix of width 1 and of the height of the source
whose float at offset `row` is the sum of the source row over the width over 255. -/
theorem horiz_density_spec (m : matrix) (heap : Int → Flt) :
    (horiz_density m heap).x = 1 ∧ (horiz_density m heap).y = m.y ∧
    ∀ row : Int, 0 ≤ row → row < m.y →
      (horiz_density m heap).array row =
        (∑ c ∈ Finset.range m.x.toNat, m.array (row * m.x + (c : Int))) / Flt.val (m.x : ℚ) /
          Flt.val 255 := by
  obtain ⟨hx, hy, _, ha⟩ := row_loop m.y.toNat
    (fun y densities =>
      let sum : Flt := Flt.val 0
      let sum := for_loop m.x (fun x sum => sum + m.get ((y * m.x) + x)) sum
      let sum := sum / Flt.val (m.x : ℚ)
      let sum := sum / Flt.val 255
      densities.set y sum)
    (fun _ => 0)
    (fun y => (∑ c ∈ Finset.range m.x.toNat, m.array (y * m.x + (c : Int))) / Flt.val (m.x : ℚ) /
      Flt.val 255)
    (fun j s => by
      simp only [zero_add, for_loop, matrix.get]
      rw [sum_loop m.x.toNat (fun x => m.array (j * m.x + x))])
    (create_matrix m.y 1 heap)
  refine ⟨hx, hy, fun row h0 h1 => ?_⟩
  have h := ha row
  rw [if_pos (by omega), sub_zero] at h
  exact h

/-- The result of `vert_density`: a matrix of height 1 and of the width of the source
whose float at offset `col` is the sum of the source column over the height over 255. -/
theorem vert_density_spec (m : matrix) (heap : Int → Flt) :
    (vert_density m heap).x = m.x ∧ (vert_density m heap).y = 1 ∧
    ∀ col : Int, 0 ≤ col → col < m.x →
      (vert_density m heap).array col =
        (∑ r ∈ Finset.range m.y.toNat, m.array ((r : Int) * m.x + col)) / Flt.val (m.y : ℚ) /
          Flt.val 255 := by
  obtain ⟨hx, hy, _, ha⟩ := row_loop m.x.toNat
    (fun x densities =>
      let sum : Flt := Flt.val 0
      let sum := for_loop m.y (fun y sum => sum + m.get ((y * m.x) + x)) sum
      let sum := sum / Flt.val (m.y : ℚ)
      let sum := sum / Flt.val 255
      densities.set x sum)
    (fun _ => 0)
    (fun x => (∑ r ∈ Finset.range m.y.toNat, m.array ((r : Int) * m.x + x)) / Flt.val (m.y : ℚ) /
      Flt.val 255)
    (fun j s => by
      simp only [zero_add, for_loop, matrix.get]
      rw [sum_loop m.y.toNat (fun y => m.array (y * m.x + j))])
    (create_matrix 1 m.x heap)
  refine ⟨hx, hy, fun col h0 h1 => ?_⟩
  have h := ha col
  rw [if_pos (by omega), sub_zero] at h
  exact h

/-- A sum over the offsets of an `H` by `W` buffer is the sum over its rows of the sums
over each row. -/
theorem sum_range_rows (H W : Nat) (g : Nat → Flt) :
    ∑ i ∈ Finset.range (H * W), g i = ∑ r ∈ Finset.range H, ∑ c ∈ Finset.range W, g (r * W + c) := by
  induction H with
  | zero => simp
  | succ H ih =>
    rw [Nat.succ_mul, Finset.sum_range_add, ih, Finset.sum_range_succ]

/-- The result of `average_darkness`: the sum of all the elements over the number of
elements. -/
theorem average_darkness_spec (m : matrix) (hx : 0 ≤ m.x) (hy : 0 ≤ m.y) :
    average_darkness m =
      (∑ r ∈ Finset.range m.y.toNat, ∑ c ∈ Finset.range m.x.toNat, m.elem (r : Int) (c : Int)) /
        Flt.val ((m.x : ℚ) * (m.y : ℚ)) := by
  have hn : (m.x * m.y).toNat = m.y.toNat * m.x.toNat := by
    have h1 : ((m.y.toNat * m.x.toNat : Nat) : Int) = m.x * m.y := by
      push_cast
      rw [Int.toNat_of_nonneg hx, Int.toNat_of_nonneg hy]
      ring
    omega
  have hs : average_darkness m =
      (∑ i ∈ Finset.range (m.x * m.y).toNat, m.array (i : Int)) /
        Flt.val ((m.x * m.y : Int) : ℚ) := by
    simp only [average_darkness, for_loop, matrix.get]
    rw [sum_loop (m.x * m.y).toNat (fun i => m.array i)]
  rw [hs, hn, sum_range_rows m.y.toNat m.x.toNat (fun i => m.array (i : Int))]
  push_cast
  simp only [matrix.elem, Int.toNat_of_nonneg hx]

/-- C20: for every matrix of positive width and height, in exact arithmetic,
`average_darkness(m)` is 255 times the mean of the entries of `horiz_density(m)`, and
also 255 times the mean of the entries of `vert_density(m)`. -/
theorem average_darkness_projections (m : matrix) (heap : Int → Flt) (hx : 0 < m.x)
    (hy : 0 < m.y) :
    average_darkness m =
      Flt.val 255 * ((∑ r ∈ Finset.range m.y.toNat, (horiz_density m heap).elem (r : Int) 0) /
        Flt.val (m.y : ℚ)) ∧
    average_darkness m =
      Flt.val 255 * ((∑ c ∈ Finset.range m.x.toNat, (vert_density m heap).elem 0 (c : Int)) /
        Flt.val (m.x : ℚ)) := by
  obtain ⟨ax, _, aa⟩ := horiz_density_spec m heap
  obtain ⟨_, _, ba⟩ := vert_density_spec m heap
  have hx0 : (m.x : ℚ) ≠ 0 := by exact_mod_cast (ne_of_gt hx)
  have hy0 : (m.y : ℚ) ≠ 0 := by exact_mod_cast (ne_of_gt hy)
  have hxy : (m.x : ℚ) * (m.y : ℚ) ≠ 0 := mul_ne_zero hx0 hy0
  have h255 : (255 : ℚ) ≠ 0 := by norm_num
  have hh : ∀ r : Nat, r ∈ Finset.range m.y.toNat → (horiz_density m heap).elem (r : Int) 0 =
      Flt.val ((255 : ℚ)⁻¹ * (m.x : ℚ)⁻¹) * ∑ c ∈ Finset.range m.x.toNat, m.elem (r : Int) (c : Int) := by
    intro r hr
    have hr2 := Finset.mem_range.1 hr
    rw [matrix.elem, ax, mul_one, add_zero, aa r (by omega) (by omega),
      div_val_eq_mul _ _ h255, div_val_eq_mul _ _ hx0, scale_scale]
    rfl
  have hv : ∀ c : Nat, c ∈ Finset.range m.x.toNat → (vert_density m heap).elem 0 (c : Int) =
      Flt.val ((255 : ℚ)⁻¹ * (m.y : ℚ)⁻¹) * ∑ r ∈ Finset.range m.y.toNat, m.elem (r : Int) (c : Int) := by
    intro c hc
    have hc2 := Finset.mem_range.1 hc
    rw [matrix.elem, zero_mul, zero_add, ba c (by omega) (by omega),
      div_val_eq_mul _ _ h255, div_val_eq_mul _ _ hy0, scale_scale]
    rfl
  have e1 : (255 : ℚ) * (m.y : ℚ)⁻¹ * ((255 : ℚ)⁻¹ * (m.x : ℚ)⁻¹) =
      ((m.x : ℚ) * (m.y : ℚ))⁻¹ := by
    field_simp
    ring
  have e2 : (255 : ℚ) * (m.x : ℚ)⁻¹ * ((255 : ℚ)⁻¹ * (m.y : ℚ)⁻¹) =
      ((m.x : ℚ) * (m.y : ℚ))⁻¹ := by
    field_simp
    ring
  rw [average_darkness_spec m (le_of_lt hx) (le_of_lt hy), div_val_eq_mul _ _ hxy]
  constructor
  · rw [Finset.sum_congr rfl hh, div_val_eq_mul _ _ hy0, scale_scale, ← scale_sum, scale_scale,
      e1]
  · rw [Finset.sum_congr rfl hv, div_val_eq_mul _ _ hx0, scale_scale, ← scale_sum, scale_scale,
      e2, Finset.sum_comm]

/-- C20 at `[[1, 2], [3, 4]]`, whose average is 5/2. -/
theorem average_darkness_projections_witness :
    0 < sample_2x2.x ∧ 0 < sample_2x2.y ∧
    average_darkness sample_2x2 = Flt.val (5 / 2) ∧
    average_darkness sample_2x2 =
      Flt.val 255 * ((∑ r ∈ Finset.range sample_2x2.y.toNat,
        (horiz_density sample_2x2 nan_heap).elem (r : Int) 0) / Flt.val (sample_2x2.y : ℚ)) ∧
    average_darkness sample_2x2 =
      Flt.val 255 * ((∑ c ∈ Finset.range sample_2x2.x.toNat,
        (vert_density sample_2x2 nan_heap).elem 0 (c : Int)) / Flt.val (sample_2x2.x : ℚ)) :=
  ⟨by decide, by decide, by decide!,
    (average_darkness_projections sample_2x2 nan_heap (by decide) (by decide)).1,
    (average_darkness_projections sample_2x2 nan_heap (by decide) (by decide)).2⟩

namespace Binary32

/-! ## Rounding to binary32 -/

theorem log2_fuel_spec (fuel : Nat) : ∀ n : Nat, 1 ≤ n → n ≤ fuel →
    2 ^ log2_fuel fuel n ≤ n ∧ n < 2 ^ (log2_fuel fuel n + 1) := by
  induction fuel with
  | zero =>
    intro n h1 h2
    omega
  | succ fuel ih =>
    intro n h1 h2
    by_cases h : n < 2
    · have hn : n = 1 := by omega
      subst hn
      simp [log2_fuel]
    · simp only [log2_fuel, if_neg h]
      obtain ⟨a, b⟩ := ih (n / 2) (by omega) (by omega)
      constructor
      · rw [pow_succ]
        omega
      · rw [pow_succ]
        omega

theorem nat_log2_spec (n : Nat) (h : 1 ≤ n) :
    2 ^ nat_log2 n ≤ n ∧ n < 2 ^ (nat_log2 n + 1) :=
  log2_fuel_spec n n h (le_refl n)

theorem ilog2_spec (q : ℚ) (hq : q ≠ 0) :
    (2 : ℚ) ^ ilog2 q ≤ |q| ∧ |q| < (2 : ℚ) ^ (ilog2 q + 1) := by
  have hnum : 1 ≤ q.num.natAbs := by
    have : q.num ≠ 0 := Rat.num_ne_zero.2 hq
    omega
  have hden : 1 ≤ q.den := q.den_pos
  obtain ⟨a1, a2⟩ := nat_log2_spec q.num.natAbs hnum
  obtain ⟨b1, b2⟩ := nat_log2_spec q.den hden
  have habs : |q| = (q.num.natAbs : ℚ) / (q.den : ℚ) := by
    rw [Rat.abs_def, Rat.divInt_eq_div, Int.cast_natCast, Int.cast_natCast]
  have hd : (0 : ℚ) < q.den := by exact_mod_cast hden
  have a1q : (2 : ℚ) ^ (nat_log2 q.num.natAbs : Int) ≤ (q.num.natAbs : ℚ) := by
    rw [zpow_natCast]
    exact_mod_cast a1
  have a2q : (q.num.natAbs : ℚ) < (2 : ℚ) ^ ((nat_log2 q.num.natAbs : Int) + 1) := by
    have : ((nat_log2 q.num.natAbs : Int) + 1) = ((nat_log2 q.num.natAbs + 1 : Nat) : Int) := by
      push_cast; ring
    rw [this, zpow_natCast]
    exact_mod_cast a2
  have b1q : (2 : ℚ) ^ (nat_log2 q.den : Int) ≤ (q.den : ℚ) := by
    rw [zpow_natCast]
    exact_mod_cast b1
  have b2q : (q.den : ℚ) < (2 : ℚ) ^ ((nat_log2 q.den : Int) + 1) := by
    have : ((nat_log2 q.den : Int) + 1) = ((nat_log2 q.den + 1 : Nat) : Int) := by
      push_cast; ring
    rw [this, zpow_natCast]
    exact_mod_cast b2
  have h2 : (0 : ℚ) < 2 := by norm_num
  -- lower: 2^(e0-1) ≤ |q|, upper: |q| < 2^(e0+1)
  have lo : (2 : ℚ) ^ ((nat_log2 q.num.natAbs : Int) - (nat_log2 q.den : Int) - 1) ≤ |q| := by
    rw [habs, le_div_iff₀ hd]
    have e : (2 : ℚ) ^ ((nat_log2 q.num.natAbs : Int) - (nat_log2 q.den : Int) - 1) =
        (2 : ℚ) ^ (nat_log2 q.num.natAbs : Int) / (2 : ℚ) ^ ((nat_log2 q.den : Int) + 1) := by
      rw [← zpow_sub₀ (by norm_num : (2 : ℚ) ≠ 0)]
      congr 1
      ring
    rw [e, div_mul_eq_mul_div, div_le_iff₀ (zpow_pos h2 _)]
    have hp : (0 : ℚ) ≤ (2 : ℚ) ^ (nat_log2 q.num.natAbs : Int) := le_of_lt (zpow_pos h2 _)
    calc (2 : ℚ) ^ (nat_log2 q.num.natAbs : Int) * (q.den : ℚ)
        ≤ (2 : ℚ) ^ (nat_log2 q.num.natAbs : Int) * (2 : ℚ) ^ ((nat_log2 q.den : Int) + 1) :=
          mul_le_mul_of_nonneg_left (le_of_lt b2q) hp
      _ ≤ (q.num.natAbs : ℚ) * (2 : ℚ) ^ ((nat_log2 q.den : Int) + 1) :=
          mul_le_mul_of_nonneg_right a1q (le_of_lt (zpow_pos h2 _))
  have hi : |q| < (2 : ℚ) ^ ((nat_log2 q.num.natAbs : Int) - (nat_log2 q.den : Int) + 1) := by
    rw [habs, div_lt_iff₀ hd]
    have e : (2 : ℚ) ^ ((nat_log2 q.num.natAbs : Int) - (nat_log2 q.den : Int) + 1) =
        (2 : ℚ) ^ ((nat_log2 q.num.natAbs : Int) + 1) / (2 : ℚ) ^ (nat_log2 q.den : Int) := by
      rw [← zpow_sub₀ (by norm_num : (2 : ℚ) ≠ 0)]
      congr 1
      ring
    rw [e, div_mul_eq_mul_div, lt_div_iff₀ (zpow_pos h2 _)]
    calc (q.num.natAbs : ℚ) * (2 : ℚ) ^ (nat_log2 q.den : Int)
        ≤ (q.num.natAbs : ℚ) * (q.den : ℚ) :=
          mul_le_mul_of_nonneg_left b1q (by positivity)
      _ < (2 : ℚ) ^ ((nat_log2 q.num.natAbs : Int) + 1) * (q.den : ℚ) :=
          mul_lt_mul_of_pos_right a2q hd
  unfold ilog2
  simp only
  split
  · next h => exact ⟨h, hi⟩
  · next h =>
    refine ⟨lo, ?_⟩
    have : (nat_log2 q.num.natAbs : Int) - (nat_log2 q.den : Int) - 1 + 1 =
        (nat_log2 q.num.natAbs : Int) - (nat_log2 q.den : Int) := by ring
    rw [this]
    exact lt_of_not_le h

theorem round_half_even_cases (t : ℚ) :
    round_half_even t = ⌊t⌋ ∨ (round_half_even t = ⌊t⌋ + 1 ∧ (1 : ℚ) / 2 ≤ t - ⌊t⌋) := by
  unfold round_half_even
  simp only
  split
  · left; rfl
  · next h1 =>
    split
    · right; exact ⟨rfl, le_of_not_lt h1⟩
    · split
      · left; rfl
      · right; exact ⟨rfl, le_of_not_lt h1⟩

theorem round_half_even_intCast (k : Int) : round_half_even (k : ℚ) = k := by
  rcases round_half_even_cases (k : ℚ) with h | ⟨_, h⟩
  · rw [h, Int.floor_intCast]
  · rw [Int.floor_intCast, sub_self] at h
    norm_num at h

theorem round_half_even_le (t : ℚ) (k : Int) (h : t ≤ k) : round_half_even t ≤ k := by
  have hf : ⌊t⌋ ≤ k := by
    have := Int.floor_le t
    exact_mod_cast (le_trans this h)
  rcases round_half_even_cases t with h1 | ⟨h1, h2⟩
  · rw [h1]; exact hf
  · rw [h1]
    by_contra hc
    have hk : ⌊t⌋ = k := by omega
    rw [hk] at h2
    linarith

theorem le_round_half_even (t : ℚ) (k : Int) (h : (k : ℚ) ≤ t) : k ≤ round_half_even t := by
  have hf : k ≤ ⌊t⌋ := Int.le_floor.2 h
  rcases round_half_even_cases t with h1 | ⟨h1, _⟩
  · rw [h1]; exact hf
  · rw [h1]; omega

theorem two_zpow_pos (k : Int) : (0 : ℚ) < (2 : ℚ) ^ k := zpow_pos (by norm_num) k

theorem two_zpow_add (a b : Int) : (2 : ℚ) ^ (a + b) = (2 : ℚ) ^ a * (2 : ℚ) ^ b :=
  zpow_add₀ (by norm_num) a b

/-- A power of two with a non-negative exponent is an integer. -/
theorem two_zpow_toNat (d : Int) (hd : 0 ≤ d) : (2 : ℚ) ^ d = (((2 : Int) ^ d.toNat : Int) : ℚ) := by
  have h : d = (d.toNat : Int) := (Int.toNat_of_nonneg hd).symm
  conv_lhs => rw [h]
  rw [zpow_natCast]
  push_cast
  rfl

theorem round32_of_ne_zero (q : ℚ) (hq : q ≠ 0) :
    round32 q =
      if (2 : ℚ) ^ 128 ≤ |(round_half_even (q / 2 ^ quantum_exp q) : ℚ) * 2 ^ quantum_exp q| then
        (if 0 < q then F32.pinf else F32.ninf)
      else F32.fin ((round_half_even (q / 2 ^ quantum_exp q) : ℚ) * 2 ^ quantum_exp q) := by
  simp only [round32, if_neg hq]

/-- The value of `round32` at a number that is an integer multiple of its own quantum and
below the overflow threshold. -/
theorem round32_of_multiple (q : ℚ) (n : Int) (hq : q ≠ 0)
    (hn : q / 2 ^ quantum_exp q = (n : ℚ)) (hlt : |q| < 2 ^ 128) : round32 q = F32.fin q := by
  have hv : (round_half_even (q / 2 ^ quantum_exp q) : ℚ) * 2 ^ quantum_exp q = q := by
    rw [hn, round_half_even_intCast, ← hn]
    exact div_mul_cancel₀ q (ne_of_gt (two_zpow_pos _))
  rw [round32_of_ne_zero q hq, hv, if_neg (not_le.2 hlt)]

/-- Every `m * 2^k` with `|m| < 2^24` and `-149 ≤ k ≤ 104` is a binary32 value. -/
theorem round32_scaled_int (m k : Int) (hm : |m| < 2 ^ 24) (hk0 : -149 ≤ k) (hk1 : k ≤ 104) :
    round32 ((m : ℚ) * 2 ^ k) = F32.fin ((m : ℚ) * 2 ^ k) := by
  by_cases hm0 : m = 0
  · subst hm0
    simp [round32]
  have hq : (m : ℚ) * 2 ^ k ≠ 0 :=
    mul_ne_zero (by exact_mod_cast hm0) (ne_of_gt (two_zpow_pos k))
  have habs : |(m : ℚ) * 2 ^ k| = |(m : ℚ)| * 2 ^ k := by
    rw [abs_mul, abs_of_pos (two_zpow_pos k)]
  have hmq : |(m : ℚ)| < 2 ^ (24 : Int) := by
    have : ((|m| : Int) : ℚ) < ((2 ^ 24 : Int) : ℚ) := by exact_mod_cast hm
    rw [Int.cast_abs] at this
    norm_num at this ⊢
    exact this
  have hlt : |(m : ℚ) * 2 ^ k| < 2 ^ (24 + k) := by
    rw [habs, two_zpow_add]
    exact mul_lt_mul_of_pos_right hmq (two_zpow_pos k)
  obtain ⟨lo, _⟩ := ilog2_spec _ hq
  have he : ilog2 ((m : ℚ) * 2 ^ k) < 24 + k :=
    (zpow_lt_zpow_iff_right₀ (by norm_num : (1 : ℚ) < 2)).1 (lt_of_le_of_lt lo hlt)
  have hp : quantum_exp ((m : ℚ) * 2 ^ k) ≤ k := by
    unfold quantum_exp
    omega
  have hd : (0 : Int) ≤ k - quantum_exp ((m : ℚ) * 2 ^ k) := by omega
  apply round32_of_multiple _ (m * 2 ^ (k - quantum_exp ((m : ℚ) * 2 ^ k)).toNat) hq
  · rw [mul_div_assoc, ← zpow_sub₀ (by norm_num : (2 : ℚ) ≠ 0), two_zpow_toNat _ hd]
    push_cast
    rfl
  · refine lt_of_lt_of_le hlt ?_
    have : (2 : ℚ) ^ (128 : Nat) = (2 : ℚ) ^ (128 : Int) := by norm_num
    rw [this]
    exact (zpow_le_zpow_iff_right₀ (by norm_num : (1 : ℚ) < 2)).2 (by omega)

/-- Integers up to `2^24` in magnitude are binary32 values. -/
theorem round32_intCast (n : Int) (hn : |n| ≤ 2 ^ 24) : round32 (n : ℚ) = F32.fin (n : ℚ) := by
  by_cases h : |n| < 2 ^ 24
  · have := round32_scaled_int n 0 h (by norm_num) (by norm_num)
    simpa using this
  · have hn2 : |n| = 2 ^ 24 := by omega
    have hcases : n = 2 ^ 24 ∨ n = -(2 ^ 24) := by
      rcases abs_cases n with ⟨h1, _⟩ | ⟨h1, _⟩ <;> omega
    rcases hcases with rfl | rfl
    · have := round32_scaled_int (2 ^ 23) 1 (by norm_num) (by norm_num) (by norm_num)
      norm_num at this ⊢
      exact this
    · have := round32_scaled_int (-(2 ^ 23)) 1 (by norm_num) (by norm_num) (by norm_num)
      norm_num at this ⊢
      exact this

/-- Rounding is monotone against a binary32 bound: a value between 0 and a binary32
value `r` rounds to a value between 0 and `r`. -/
theorem round32_le (q r : ℚ) (hq : 0 ≤ q) (hqr : q ≤ r) (hr : round32 r = F32.fin r) :
    ∃ v : ℚ, round32 q = F32.fin v ∧ 0 ≤ v ∧ v ≤ r := by
  by_cases hq0 : q = 0
  · subst hq0
    exact ⟨0, by simp [round32], le_refl 0, hqr⟩
  have hqpos : 0 < q := lt_of_le_of_ne hq (Ne.symm hq0)
  have hrpos : 0 < r := lt_of_lt_of_le hqpos hqr
  have hr0 : r ≠ 0 := ne_of_gt hrpos
  rw [round32_of_ne_zero r hr0] at hr
  by_cases hov : (2 : ℚ) ^ 128 ≤
      |(round_half_even (r / 2 ^ quantum_exp r) : ℚ) * 2 ^ quantum_exp r|
  · rw [if_pos hov, if_pos hrpos] at hr
    exact absurd hr (by simp)
  rw [if_neg hov] at hr
  have hvr : (round_half_even (r / 2 ^ quantum_exp r) : ℚ) * 2 ^ quantum_exp r = r :=
    F32.fin.inj hr
  rw [hvr] at hov
  obtain ⟨qlo, _⟩ := ilog2_spec q hq0
  obtain ⟨_, rhi⟩ := ilog2_spec r hr0
  rw [abs_of_pos hqpos] at qlo
  rw [abs_of_pos hrpos] at rhi hov
  have he : ilog2 q < ilog2 r + 1 :=
    (zpow_lt_zpow_iff_right₀ (by norm_num : (1 : ℚ) < 2)).1
      (lt_of_le_of_lt qlo (lt_of_le_of_lt hqr rhi))
  have hp : quantum_exp q ≤ quantum_exp r := by
    unfold quantum_exp
    omega
  have hd : (0 : Int) ≤ quantum_exp r - quantum_exp q := by omega
  have hK : r / 2 ^ quantum_exp q =
      ((round_half_even (r / 2 ^ quantum_exp r) * 2 ^ (quantum_exp r - quantum_exp q).toNat : Int) : ℚ) := by
    push_cast
    have h1 := two_zpow_toNat _ hd
    push_cast at h1
    rw [← h1, zpow_sub₀ (by norm_num : (2 : ℚ) ≠ 0), ← mul_div_assoc, hvr]
  have ht : q / 2 ^ quantum_exp q ≤ r / 2 ^ quantum_exp q :=
    div_le_div_of_nonneg_right hqr (le_of_lt (two_zpow_pos _))
  rw [hK] at ht
  have h1 := round_half_even_le _ _ ht
  have h0 : (0 : Int) ≤ round_half_even (q / 2 ^ quantum_exp q) :=
    le_round_half_even _ 0 (by
      have : 0 ≤ q / 2 ^ quantum_exp q := div_nonneg hq (le_of_lt (two_zpow_pos _))
      simpa using this)
  have hv0 : (0 : ℚ) ≤ (round_half_even (q / 2 ^ quantum_exp q) : ℚ) * 2 ^ quantum_exp q :=
    mul_nonneg (by exact_mod_cast h0) (le_of_lt (two_zpow_pos _))
  have hv1 : (round_half_even (q / 2 ^ quantum_exp q) : ℚ) * 2 ^ quantum_exp q ≤ r := by
    have h2 : (round_half_even (q / 2 ^ quantum_exp q) : ℚ) ≤ r / 2 ^ quantum_exp q := by
      rw [hK]
      exact_mod_cast h1
    calc (round_half_even (q / 2 ^ quantum_exp q) : ℚ) * 2 ^ quantum_exp q
        ≤ r / 2 ^ quantum_exp q * 2 ^ quantum_exp q :=
          mul_le_mul_of_nonneg_right h2 (le_of_lt (two_zpow_pos _))
      _ = r := div_mul_cancel₀ r (ne_of_gt (two_zpow_pos _))
  refine ⟨_, ?_, hv0, hv1⟩
  rw [round32_of_ne_zero q hq0, if_neg]
  rw [abs_of_nonneg hv0]
  exact not_le.2 (lt_of_le_of_lt hv1 (not_le.1 hov))

theorem round_half_even_mono (s t : ℚ) (h : s ≤ t) : round_half_even s ≤ round_half_even t := by
  by_cases hf : ⌊s⌋ < ⌊t⌋
  · have h1 : round_half_even s ≤ ⌊s⌋ + 1 :=
      round_half_even_le s (⌊s⌋ + 1) (by
        push_cast
        exact le_of_lt (Int.lt_floor_add_one s))
    have h2 : ⌊t⌋ ≤ round_half_even t := le_round_half_even t ⌊t⌋ (Int.floor_le t)
    omega
  · have hfe : ⌊s⌋ = ⌊t⌋ := le_antisymm (Int.floor_mono h) (not_lt.1 hf)
    unfold round_half_even
    simp only [hfe]
    split_ifs <;> first | omega | (exfalso; linarith)

theorem round_half_even_neg (t : ℚ) : round_half_even (-t) = -round_half_even t := by
  by_cases hint : (⌊t⌋ : ℚ) = t
  · rw [← hint, ← Int.cast_neg, round_half_even_intCast, round_half_even_intCast]
  · have h1 : (⌊t⌋ : ℚ) < t := lt_of_le_of_ne (Int.floor_le t) hint
    have h2 : t < (⌊t⌋ : ℚ) + 1 := Int.lt_floor_add_one t
    have hfl : ⌊-t⌋ = -⌊t⌋ - 1 := by
      rw [Int.floor_eq_iff]
      push_cast
      constructor <;> linarith
    unfold round_half_even
    simp only [hfl]
    push_cast
    split_ifs <;> first | omega | (exfalso; linarith)

theorem ilog2_neg (q : ℚ) : ilog2 (-q) = ilog2 q := by
  simp [ilog2]

theorem quantum_exp_neg (q : ℚ) : quantum_exp (-q) = quantum_exp q := by
  simp [quantum_exp, ilog2_neg]

/-- Rounding is symmetric: a number and its opposite round to opposite floats. -/
theorem round32_neg (q : ℚ) : round32 (-q) = F32.neg (round32 q) := by
  by_cases hq : q = 0
  · subst hq
    simp [round32, F32.neg]
  have hq2 : -q ≠ 0 := neg_ne_zero.2 hq
  rw [round32_of_ne_zero q hq, round32_of_ne_zero (-q) hq2, quantum_exp_neg, neg_div,
    round_half_even_neg]
  have e : ((-round_half_even (q / 2 ^ quantum_exp q) : Int) : ℚ) * 2 ^ quantum_exp q =
      -((round_half_even (q / 2 ^ quantum_exp q) : ℚ) * 2 ^ quantum_exp q) := by
    push_cast
    ring
  rw [e, abs_neg]
  rcases lt_or_gt_of_ne hq with h | h
  · have h1 : ¬ (0 < q) := not_lt.2 (le_of_lt h)
    have h2 : 0 < -q := by linarith
    split_ifs <;> simp [F32.neg]
  · have h1 : ¬ (0 < -q) := by linarith
    split_ifs <;> simp [F32.neg]

/-- A finite result of `round32` is the rounded multiple of the spacing, and lies below
the overflow threshold. -/
theorem round32_eq_fin (q v : ℚ) (hq : q ≠ 0) (h : round32 q = F32.fin v) :
    v = (round_half_even (q / 2 ^ quantum_exp q) : ℚ) * 2 ^ quantum_exp q ∧ |v| < 2 ^ 128 := by
  rw [round32_of_ne_zero q hq] at h
  by_cases hov : (2 : ℚ) ^ 128 ≤
      |(round_half_even (q / 2 ^ quantum_exp q) : ℚ) * 2 ^ quantum_exp q|
  · rw [if_pos hov] at h
    split_ifs at h
  · rw [if_neg hov] at h
    have hv := F32.fin.inj h
    rw [← hv]
    exact ⟨rfl, not_le.1 hov⟩

/-- The exponent of the spacing grows with the magnitude. -/
theorem quantum_exp_mono (q r : ℚ) (hq : 0 < q) (hqr : q ≤ r) :
    ilog2 q ≤ ilog2 r ∧ quantum_exp q ≤ quantum_exp r := by
  have hr : 0 < r := lt_of_lt_of_le hq hqr
  obtain ⟨qlo, _⟩ := ilog2_spec q (ne_of_gt hq)
  obtain ⟨_, rhi⟩ := ilog2_spec r (ne_of_gt hr)
  rw [abs_of_pos hq] at qlo
  rw [abs_of_pos hr] at rhi
  have he : ilog2 q < ilog2 r + 1 :=
    (zpow_lt_zpow_iff_right₀ (by norm_num : (1 : ℚ) < 2)).1
      (lt_of_le_of_lt qlo (lt_of_le_of_lt hqr rhi))
  constructor
  · omega
  · unfold quantum_exp
    omega

/-- Rounding to binary32 is monotone on the non-negative numbers. -/
theorem round32_mono_nonneg (q r v : ℚ) (hq : 0 ≤ q) (hqr : q ≤ r)
    (hr : round32 r = F32.fin v) : ∃ u : ℚ, round32 q = F32.fin u ∧ 0 ≤ u ∧ u ≤ v := by
  by_cases hr0 : r = 0
  · have hq0 : q = 0 := le_antisymm (hr0 ▸ hqr) hq
    subst hr0
    subst hq0
    exact ⟨v, hr, by
      have : round32 0 = F32.fin 0 := by simp [round32]
      rw [this] at hr
      rw [← F32.fin.inj hr], le_refl v⟩
  have hrpos : 0 < r := lt_of_le_of_ne (le_trans hq hqr) (Ne.symm hr0)
  obtain ⟨hv, hvlt⟩ := round32_eq_fin r v hr0 hr
  have hv0 : 0 ≤ v := by
    rw [hv]
    refine mul_nonneg ?_ (le_of_lt (two_zpow_pos _))
    have : (0 : Int) ≤ round_half_even (r / 2 ^ quantum_exp r) :=
      le_round_half_even _ 0 (by
        have : 0 ≤ r / 2 ^ quantum_exp r := div_nonneg (le_of_lt hrpos) (le_of_lt (two_zpow_pos _))
        simpa using this)
    exact_mod_cast this
  by_cases hq0 : q = 0
  · subst hq0
    exact ⟨0, by simp [round32], le_refl 0, hv0⟩
  have hqpos : 0 < q := lt_of_le_of_ne hq (Ne.symm hq0)
  obtain ⟨he, hp⟩ := quantum_exp_mono q r hqpos hqr
  have hu0 : (0 : ℚ) ≤ (round_half_even (q / 2 ^ quantum_exp q) : ℚ) * 2 ^ quantum_exp q := by
    refine mul_nonneg ?_ (le_of_lt (two_zpow_pos _))
    have : (0 : Int) ≤ round_half_even (q / 2 ^ quantum_exp q) :=
      le_round_half_even _ 0 (by
        have : 0 ≤ q / 2 ^ quantum_exp q := div_nonneg hq (le_of_lt (two_zpow_pos _))
        simpa using this)
    exact_mod_cast this
  have hu1 : (round_half_even (q / 2 ^ quantum_exp q) : ℚ) * 2 ^ quantum_exp q ≤ v := by
    rw [hv]
    by_cases hpe : quantum_exp q = quantum_exp r
    · rw [hpe]
      refine mul_le_mul_of_nonneg_right ?_ (le_of_lt (two_zpow_pos _))
      have := round_half_even_mono (q / 2 ^ quantum_exp r) (r / 2 ^ quantum_exp r)
        (div_le_div_of_nonneg_right hqr (le_of_lt (two_zpow_pos _)))
      exact_mod_cast this
    · have hplt : quantum_exp q < quantum_exp r := lt_of_le_of_ne hp hpe
      have her : quantum_exp r = ilog2 r - 23 := by
        unfold quantum_exp at hplt ⊢
        omega
      have heq : ilog2 q + 1 ≤ ilog2 r := by
        unfold quantum_exp at hplt
        omega
      obtain ⟨_, qhi⟩ := ilog2_spec q hq0
      obtain ⟨rlo, _⟩ := ilog2_spec r hr0
      rw [abs_of_pos hqpos] at qhi
      rw [abs_of_pos hrpos] at rlo
      have hpiv : q ≤ (2 : ℚ) ^ ilog2 r :=
        le_trans (le_of_lt qhi)
          ((zpow_le_zpow_iff_right₀ (by norm_num : (1 : ℚ) < 2)).2 heq)
      -- the pivot `2 ^ ilog2 r` is a multiple of both spacings
      have hd1 : (0 : Int) ≤ ilog2 r - quantum_exp q := by omega
      have hd2 : (0 : Int) ≤ ilog2 r - quantum_exp r := by omega
      have hK1 : (2 : ℚ) ^ ilog2 r / 2 ^ quantum_exp q =
          (((2 : Int) ^ (ilog2 r - quantum_exp q).toNat : Int) : ℚ) := by
        rw [← zpow_sub₀ (by norm_num : (2 : ℚ) ≠ 0), two_zpow_toNat _ hd1]
      have hK2 : (2 : ℚ) ^ ilog2 r / 2 ^ quantum_exp r =
          (((2 : Int) ^ (ilog2 r - quantum_exp r).toNat : Int) : ℚ) := by
        rw [← zpow_sub₀ (by norm_num : (2 : ℚ) ≠ 0), two_zpow_toNat _ hd2]
      have h1 : round_half_even (q / 2 ^ quantum_exp q) ≤
          (2 : Int) ^ (ilog2 r - quantum_exp q).toNat :=
        round_half_even_le _ _ (by
          rw [← hK1]
          exact div_le_div_of_nonneg_right hpiv (le_of_lt (two_zpow_pos _)))
      have h2 : (2 : Int) ^ (ilog2 r - quantum_exp r).toNat ≤
          round_half_even (r / 2 ^ quantum_exp r) :=
        le_round_half_even _ _ (by
          rw [← hK2]
          exact div_le_div_of_nonneg_right rlo (le_of_lt (two_zpow_pos _)))
      have h3 : (round_half_even (q / 2 ^ quantum_exp q) : ℚ) * 2 ^ quantum_exp q ≤
          (2 : ℚ) ^ ilog2 r := by
        have : (round_half_even (q / 2 ^ quantum_exp q) : ℚ) ≤
            (2 : ℚ) ^ ilog2 r / 2 ^ quantum_exp q := by
          rw [hK1]
          exact_mod_cast h1
        calc (round_half_even (q / 2 ^ quantum_exp q) : ℚ) * 2 ^ quantum_exp q
            ≤ (2 : ℚ) ^ ilog2 r / 2 ^ quantum_exp q * 2 ^ quantum_exp q :=
              mul_le_mul_of_nonneg_right this (le_of_lt (two_zpow_pos _))
          _ = (2 : ℚ) ^ ilog2 r := div_mul_cancel₀ _ (ne_of_gt (two_zpow_pos _))
      have h4 : (2 : ℚ) ^ ilog2 r ≤
          (round_half_even (r / 2 ^ quantum_exp r) : ℚ) * 2 ^ quantum_exp r := by
        have : (2 : ℚ) ^ ilog2 r / 2 ^ quantum_exp r ≤
            (round_half_even (r / 2 ^ quantum_exp r) : ℚ) := by
          rw [hK2]
          exact_mod_cast h2
        calc (2 : ℚ) ^ ilog2 r
            = (2 : ℚ) ^ ilog2 r / 2 ^ quantum_exp r * 2 ^ quantum_exp r :=
              (div_mul_cancel₀ _ (ne_of_gt (two_zpow_pos _))).symm
          _ ≤ (round_half_even (r / 2 ^ quantum_exp r) : ℚ) * 2 ^ quantum_exp r :=
              mul_le_mul_of_nonneg_right this (le_of_lt (two_zpow_pos _))
      exact le_trans h3 h4
  refine ⟨_, ?_, hu0, hu1⟩
  rw [round32_of_ne_zero q hq0, if_neg]
  rw [abs_of_nonneg hu0]
  rw [abs_of_nonneg hv0] at hvlt
  exact not_le.2 (lt_of_le_of_lt hu1 hvlt)

/-- A result of `round32` is a binary32 number: rounding it again changes nothing. -/
theorem round32_idem (q v : ℚ) (h : round32 q = F32.fin v) : round32 v = F32.fin v := by
  by_cases hq : q = 0
  · subst hq
    have : round32 0 = F32.fin 0 := by simp [round32]
    rw [this] at h
    rw [← F32.fin.inj h]
    exact this
  obtain ⟨hv, hvlt⟩ := round32_eq_fin q v hq h
  obtain ⟨lo, hi⟩ := ilog2_spec q hq
  have hp1 : ilog2 q - 23 ≤ quantum_exp q := by
    unfold quantum_exp
    omega
  have hp0 : -149 ≤ quantum_exp q := by
    unfold quantum_exp
    omega
  -- the scaled value lies within `2 ^ 24`
  have hscaled : |q / 2 ^ quantum_exp q| ≤ ((2 ^ 24 : Int) : ℚ) := by
    rw [abs_div, abs_of_pos (two_zpow_pos _), div_le_iff₀ (two_zpow_pos _)]
    have h1 : |q| ≤ (2 : ℚ) ^ (24 + quantum_exp q) :=
      le_trans (le_of_lt hi)
        ((zpow_le_zpow_iff_right₀ (by norm_num : (1 : ℚ) < 2)).2 (by omega))
    rw [two_zpow_add] at h1
    norm_num at h1 ⊢
    exact h1
  obtain ⟨hs1, hs2⟩ := abs_le.1 hscaled
  have hn1 : round_half_even (q / 2 ^ quantum_exp q) ≤ 2 ^ 24 := round_half_even_le _ _ hs2
  have hn2 : -(2 ^ 24) ≤ round_half_even (q / 2 ^ quantum_exp q) :=
    le_round_half_even _ _ (by
      push_cast at hs1 ⊢
      exact hs1)
  -- the exponent of the spacing is below the overflow range
  have habs : |v| = |(round_half_even (q / 2 ^ quantum_exp q) : ℚ)| * 2 ^ quantum_exp q := by
    rw [hv, abs_mul, abs_of_pos (two_zpow_pos _)]
  by_cases hn : |round_half_even (q / 2 ^ quantum_exp q)| < 2 ^ 24
  · by_cases hn0 : round_half_even (q / 2 ^ quantum_exp q) = 0
    · rw [hv, hn0]
      simp [round32]
    have hp2 : quantum_exp q ≤ 104 := by
      by_contra hc
      have h105 : (105 : Int) ≤ quantum_exp q := by omega
      have hone : (1 : ℚ) ≤ |(round_half_even (q / 2 ^ quantum_exp q) : ℚ)| := by
        have : (1 : Int) ≤ |round_half_even (q / 2 ^ quantum_exp q)| :=
          Int.one_le_abs hn0
        have h2 : ((1 : Int) : ℚ) ≤ ((|round_half_even (q / 2 ^ quantum_exp q)| : Int) : ℚ) := by
          exact_mod_cast this
        rw [Int.cast_abs] at h2
        simpa using h2
      -- then `|q| ≥ 2 ^ 128` and the rounded value overflows
      have hq128 : ilog2 q = quantum_exp q + 23 := by
        unfold quantum_exp at h105 ⊢
        omega
      have hbig : (2 : ℚ) ^ (23 : Int) ≤ |q / 2 ^ quantum_exp q| := by
        rw [abs_div, abs_of_pos (two_zpow_pos _), le_div_iff₀ (two_zpow_pos _), ← two_zpow_add]
        have e : (23 : Int) + quantum_exp q = ilog2 q := by omega
        rw [e]
        exact lo
      have hbig2 : (2 : ℚ) ^ (23 : Int) ≤ |(round_half_even (q / 2 ^ quantum_exp q) : ℚ)| := by
        rcases le_abs.1 hbig with hb | hb
        · have : (2 : Int) ^ 23 ≤ round_half_even (q / 2 ^ quantum_exp q) :=
            le_round_half_even _ _ (by
              push_cast
              norm_num at hb ⊢
              exact hb)
          have h2 : (((2 : Int) ^ 23 : Int) : ℚ) ≤ (round_half_even (q / 2 ^ quantum_exp q) : ℚ) := by
            exact_mod_cast this
          refine le_trans ?_ (le_abs_self _)
          norm_num at h2 ⊢
          exact h2
        · have : round_half_even (q / 2 ^ quantum_exp q) ≤ -((2 : Int) ^ 23) :=
            round_half_even_le _ _ (by
              push_cast
              norm_num at hb ⊢
              linarith)
          have h2 : (round_half_even (q / 2 ^ quantum_exp q) : ℚ) ≤ ((-((2 : Int) ^ 23) : Int) : ℚ) := by
            exact_mod_cast this
          refine le_trans ?_ (neg_le_abs _)
          norm_num at h2 ⊢
          linarith
      have : (2 : ℚ) ^ (128 : Int) ≤ |v| := by
        rw [habs]
        calc (2 : ℚ) ^ (128 : Int) = 2 ^ (23 : Int) * 2 ^ (105 : Int) := by norm_num
          _ ≤ |(round_half_even (q / 2 ^ quantum_exp q) : ℚ)| * 2 ^ quantum_exp q :=
            mul_le_mul hbig2
              ((zpow_le_zpow_iff_right₀ (by norm_num : (1 : ℚ) < 2)).2 h105)
              (le_of_lt (two_zpow_pos _)) (abs_nonneg _)
      norm_num at this hvlt
      linarith
    rw [hv]
    exact round32_scaled_int _ _ hn hp0 hp2
  · have hn3 : |round_half_even (q / 2 ^ quantum_exp q)| = 2 ^ 24 := by
      have := abs_le.2 ⟨hn2, hn1⟩
      omega
    have habs2 : |v| = (2 : ℚ) ^ (24 + quantum_exp q) := by
      rw [habs, two_zpow_add, ← Int.cast_abs, hn3]
      norm_num
    have hp2 : quantum_exp q + 1 ≤ 104 := by
      have h1 : (2 : ℚ) ^ (24 + quantum_exp q) < (2 : ℚ) ^ (128 : Int) := by
        rw [← habs2]
        norm_num at hvlt ⊢
        exact hvlt
      have := (zpow_lt_zpow_iff_right₀ (by norm_num : (1 : ℚ) < 2)).1 h1
      omega
    have hcases : round_half_even (q / 2 ^ quantum_exp q) = 2 ^ 24 ∨
        round_half_even (q / 2 ^ quantum_exp q) = -(2 ^ 24) := by
      rcases abs_cases (round_half_even (q / 2 ^ quantum_exp q)) with ⟨h1, _⟩ | ⟨h1, _⟩ <;> omega
    rcases hcases with hc | hc
    · have := round32_scaled_int (2 ^ 23) (quantum_exp q + 1) (by norm_num) (by omega) hp2
      have e : (((2 : Int) ^ 23 : Int) : ℚ) * 2 ^ (quantum_exp q + 1) = v := by
        rw [hv, hc, two_zpow_add]
        push_cast
        ring
      rw [e] at this
      exact this
    · have := round32_scaled_int (-(2 ^ 23)) (quantum_exp q + 1) (by norm_num) (by omega) hp2
      have e : (((-(2 : Int) ^ 23) : Int) : ℚ) * 2 ^ (quantum_exp q + 1) = v := by
        rw [hv, hc, two_zpow_add]
        push_cast
        ring
      rw [e] at this
      exact this

/-- Rounding stays between two binary32 numbers that enclose the exact result and
zero. -/
theorem round32_bounded (q lo hi : ℚ) (h1 : lo ≤ q) (h2 : q ≤ hi) (hlo : lo ≤ 0) (hhi : 0 ≤ hi)
    (flo : round32 lo = F32.fin lo) (fhi : round32 hi = F32.fin hi) :
    ∃ v : ℚ, round32 q = F32.fin v ∧ lo ≤ v ∧ v ≤ hi ∧ (0 ≤ q → 0 ≤ v) ∧ (q ≤ 0 → v ≤ 0) := by
  by_cases hq : 0 ≤ q
  · obtain ⟨v, hv, hv0, hv1⟩ := round32_le q hi hq h2 fhi
    refine ⟨v, hv, by linarith, hv1, fun _ => hv0, fun hq2 => ?_⟩
    have hq0 : q = 0 := le_antisymm hq2 hq
    subst hq0
    have : round32 0 = F32.fin 0 := by simp [round32]
    rw [this] at hv
    rw [← F32.fin.inj hv]
  · have hq2 : 0 ≤ -q := by linarith
    have flo2 : round32 (-lo) = F32.fin (-lo) := by rw [round32_neg, flo]; rfl
    obtain ⟨v, hv, hv0, hv1⟩ := round32_le (-q) (-lo) hq2 (by linarith) flo2
    have hv2 : round32 q = F32.fin (-v) := by
      have := round32_neg (-q)
      rw [neg_neg, hv] at this
      exact this
    exact ⟨-v, hv2, by linarith, by linarith, fun h => absurd h hq, fun _ => by linarith⟩

/-! ## Conversions between `int` and float -/

theorem round32_zero : round32 0 = F32.fin 0 := by
  simp [round32]

theorem of_int_zero : of_int 0 = F32.fin 0 := by
  simp [of_int, round32]

theorem of_int_one : of_int 1 = F32.fin 1 := by
  have := round32_intCast 1 (by norm_num)
  simpa [of_int] using this

/-- Every `int` up to `2 ^ 24` in magnitude converts to float without loss. -/
theorem of_int_exact (n : Int) (hn : |n| ≤ 2 ^ 24) : of_int n = F32.fin (n : ℚ) :=
  round32_intCast n hn

/-- The mantissa of a binary32 number: a non-zero result of `round32` is a multiple
`n * 2 ^ p` of its spacing with `|n| ≤ 2 ^ 24` and `p ≥ -149`. -/
theorem round32_mantissa (q v : ℚ) (hq : q ≠ 0) (h : round32 q = F32.fin v) :
    ∃ n : Int, v = (n : ℚ) * 2 ^ quantum_exp q ∧ |n| ≤ 2 ^ 24 ∧ -149 ≤ quantum_exp q := by
  obtain ⟨hv, _⟩ := round32_eq_fin q v hq h
  obtain ⟨_, hi⟩ := ilog2_spec q hq
  have hp0 : -149 ≤ quantum_exp q := by
    unfold quantum_exp
    omega
  have hp1 : ilog2 q - 23 ≤ quantum_exp q := by
    unfold quantum_exp
    omega
  have hscaled : |q / 2 ^ quantum_exp q| ≤ ((2 ^ 24 : Int) : ℚ) := by
    rw [abs_div, abs_of_pos (two_zpow_pos _), div_le_iff₀ (two_zpow_pos _)]
    have h1 : |q| ≤ (2 : ℚ) ^ (24 + quantum_exp q) :=
      le_trans (le_of_lt hi)
        ((zpow_le_zpow_iff_right₀ (by norm_num : (1 : ℚ) < 2)).2 (by omega))
    rw [two_zpow_add] at h1
    norm_num at h1 ⊢
    exact h1
  obtain ⟨hs1, hs2⟩ := abs_le.1 hscaled
  have hn1 : round_half_even (q / 2 ^ quantum_exp q) ≤ 2 ^ 24 := round_half_even_le _ _ hs2
  have hn2 : -(2 ^ 24) ≤ round_half_even (q / 2 ^ quantum_exp q) :=
    le_round_half_even _ _ (by
      push_cast at hs1 ⊢
      exact hs1)
  exact ⟨_, hv, abs_le.2 ⟨hn2, hn1⟩, hp0⟩

/-- The integer part and the fractional part of a non-negative binary32 number are
binary32 numbers. -/
theorem floor_is_float (q : ℚ) (hq : 0 ≤ q) (hf : round32 q = F32.fin q) :
    round32 ((⌊q⌋ : Int) : ℚ) = F32.fin ((⌊q⌋ : Int) : ℚ) ∧
    round32 (q - ((⌊q⌋ : Int) : ℚ)) = F32.fin (q - ((⌊q⌋ : Int) : ℚ)) := by
  by_cases hq0 : q = 0
  · subst hq0
    simp [round32_zero]
  have hqpos : 0 < q := lt_of_le_of_ne hq (Ne.symm hq0)
  by_cases hfl0 : ⌊q⌋ = 0
  · rw [hfl0]
    simp only [Int.cast_zero, sub_zero]
    exact ⟨round32_zero, hf⟩
  have hfl1 : 1 ≤ ⌊q⌋ := by
    have : 0 ≤ ⌊q⌋ := Int.floor_nonneg.2 hq
    omega
  obtain ⟨n, hn, hn24, hp0⟩ := round32_mantissa q q hq0 hf
  generalize quantum_exp q = p at hn hp0
  have hnpos : 0 < (n : ℚ) := by
    by_contra hc
    have : (n : ℚ) * 2 ^ p ≤ 0 :=
      mul_nonpos_of_nonpos_of_nonneg (not_lt.1 hc) (le_of_lt (two_zpow_pos _))
    linarith
  have hn24q : (n : ℚ) ≤ 2 ^ 24 := by
    have : n ≤ 2 ^ 24 := (abs_le.1 hn24).2
    exact_mod_cast this
  by_cases hp : 0 ≤ p
  · -- an integer
    have hint : q = ((n * 2 ^ (p).toNat : Int) : ℚ) := by
      rw [hn]
      conv_lhs => rw [two_zpow_toNat _ hp]
      push_cast
      rfl
    have hfl : ((⌊q⌋ : Int) : ℚ) = q := by
      conv_lhs => rw [hint]
      rw [Int.floor_intCast]
      exact hint.symm
    rw [hfl, sub_self]
    exact ⟨hf, round32_zero⟩
  · have hpneg : p < 0 := not_le.1 hp
    have hd : (0 : Int) ≤ -p := by omega
    -- `D = 2 ^ (-p)` and `q * D = n`
    have hD : (2 : ℚ) ^ (-p) = (((2 : Int) ^ (-p).toNat : Int) : ℚ) :=
      two_zpow_toNat _ hd
    have hDpos : (0 : ℚ) < (2 : ℚ) ^ (-p) := two_zpow_pos _
    have hD1 : (1 : ℚ) ≤ (2 : ℚ) ^ (-p) :=
      one_le_zpow₀ (by norm_num) hd
    have hmul : (2 : ℚ) ^ p * (2 : ℚ) ^ (-p) = 1 := by
      rw [← two_zpow_add]
      simp
    have hqD : q * (2 : ℚ) ^ (-p) = (n : ℚ) := by
      rw [hn, mul_assoc, hmul, mul_one]
    have hfle : ((⌊q⌋ : Int) : ℚ) ≤ q := Int.floor_le q
    have hflt : q < ((⌊q⌋ : Int) : ℚ) + 1 := Int.lt_floor_add_one q
    have hqn : q ≤ (n : ℚ) := by
      rw [← hqD]
      exact le_mul_of_one_le_right hq hD1
    have hfl24 : |⌊q⌋| ≤ 2 ^ 24 := by
      have h1 : ((⌊q⌋ : Int) : ℚ) ≤ ((2 ^ 24 : Int) : ℚ) := by
        push_cast
        linarith
      have h2 : ⌊q⌋ ≤ 2 ^ 24 := by exact_mod_cast h1
      exact abs_le.2 ⟨by omega, h2⟩
    refine ⟨round32_intCast _ hfl24, ?_⟩
    -- the remainder `r = n - ⌊q⌋ * D`
    have hfrac : q - ((⌊q⌋ : Int) : ℚ) =
        ((n - ⌊q⌋ * (2 : Int) ^ (-p).toNat : Int) : ℚ) * 2 ^ p := by
      push_cast
      have h1 : (((2 : Int) ^ (-p).toNat : Int) : ℚ) = (2 : ℚ) ^ (-p) :=
        hD.symm
      push_cast at h1
      rw [h1, sub_mul, ← hn, mul_assoc, mul_comm ((2 : ℚ) ^ (-p)), hmul, mul_one]
    have hr0 : (0 : ℚ) ≤ ((n - ⌊q⌋ * (2 : Int) ^ (-p).toNat : Int) : ℚ) := by
      have : 0 ≤ (q - ((⌊q⌋ : Int) : ℚ)) * (2 : ℚ) ^ (-p) :=
        mul_nonneg (by linarith) (le_of_lt hDpos)
      rw [hfrac, mul_assoc, hmul, mul_one] at this
      exact this
    have hr1 : ((n - ⌊q⌋ * (2 : Int) ^ (-p).toNat : Int) : ℚ) < 2 ^ 24 := by
      have h1 : (q - ((⌊q⌋ : Int) : ℚ)) * (2 : ℚ) ^ (-p) <
          1 * (2 : ℚ) ^ (-p) :=
        mul_lt_mul_of_pos_right (by linarith) hDpos
      rw [hfrac, mul_assoc, hmul, mul_one, one_mul] at h1
      -- `D ≤ ⌊q⌋ * D ≤ n ≤ 2 ^ 24`
      have h2 : (2 : ℚ) ^ (-p) ≤ (n : ℚ) := by
        rw [← hqD]
        have h3 : (1 : ℚ) ≤ q := by
          have : ((1 : Int) : ℚ) ≤ ((⌊q⌋ : Int) : ℚ) := by exact_mod_cast hfl1
          push_cast at this
          linarith
        exact le_mul_of_one_le_left (le_of_lt hDpos) h3
      linarith
    rw [hfrac]
    apply round32_scaled_int _ _ _ hp0 (by omega)
    have h0 : (0 : Int) ≤ n - ⌊q⌋ * (2 : Int) ^ (-p).toNat := by exact_mod_cast hr0
    have h1 : n - ⌊q⌋ * (2 : Int) ^ (-p).toNat < 2 ^ 24 := by exact_mod_cast hr1
    rw [abs_of_nonneg h0]
    exact h1

/-- The truncated value, in terms of floor and ceiling. -/
theorem tdiv_eq (q : ℚ) : Int.tdiv q.num q.den = if 0 ≤ q then ⌊q⌋ else ⌈q⌉ :=
  MatrixRes.to_int_eq q

/-- A finite float whose integer part fits an `int` converts to that integer part. -/
theorem to_int_in_range (q : ℚ) (h1 : -2147483649 < q) (h2 : q < 2147483648) :
    to_int (F32.fin q) = some (if 0 ≤ q then ⌊q⌋ else ⌈q⌉) := by
  have hr : int_range (Int.tdiv q.num q.den) = true := by
    rw [tdiv_eq]
    simp only [int_range, decide_eq_true_eq]
    split
    · next h =>
      have h3 : (0 : Int) ≤ ⌊q⌋ := Int.floor_nonneg.2 h
      have h4 : ⌊q⌋ < 2147483648 := Int.floor_lt.2 (by push_cast; exact h2)
      omega
    · next h =>
      have h3 : ⌈q⌉ ≤ 0 := Int.ceil_le.2 (by push_cast; linarith)
      have h4 : -2147483649 < ⌈q⌉ := Int.lt_ceil.2 (by push_cast; exact h1)
      omega
  simp only [to_int]
  rw [if_pos hr, tdiv_eq]

/-- The conversion to `int` of a float whose integer part does not fit is undefined. -/
theorem to_int_out_of_range (q : ℚ) (h : q ≤ -2147483649 ∨ 2147483648 ≤ q) :
    to_int (F32.fin q) = none := by
  have hr : int_range (Int.tdiv q.num q.den) = false := by
    rw [tdiv_eq]
    simp only [int_range, decide_eq_false_iff_not, not_and_or, not_le]
    rcases h with h | h
    · left
      rw [if_neg (by linarith)]
      have : ⌈q⌉ ≤ -2147483649 := Int.ceil_le.2 (by push_cast; exact h)
      omega
    · right
      rw [if_pos (by linarith)]
      have : (2147483648 : Int) ≤ ⌊q⌋ := Int.le_floor.2 (by push_cast; exact h)
      omega
  simp only [to_int, hr]
  rfl

/-- A float the conversion accepts is finite and converts to its truncation. -/
theorem to_int_some (a : F32) (i : Int) (h : to_int a = some i) :
    ∃ q : ℚ, a = F32.fin q ∧ i = (if 0 ≤ q then ⌊q⌋ else ⌈q⌉) ∧
      -2147483648 ≤ i ∧ i ≤ 2147483647 := by
  cases a with
  | fin q =>
    simp only [to_int] at h
    by_cases hr : int_range (Int.tdiv q.num q.den) = true
    · rw [if_pos hr] at h
      have hi := Option.some.inj h
      simp only [int_range, decide_eq_true_eq] at hr
      rw [hi] at hr
      rw [tdiv_eq] at hi
      exact ⟨q, rfl, hi.symm, hr.1, hr.2⟩
    · rw [if_neg hr] at h
      exact absurd h (by simp)
  | nan => simp [to_int] at h
  | pinf => simp [to_int] at h
  | ninf => simp [to_int] at h

/-! ## Splitting a coordinate -/

/-- The split of a non-negative float in `int` range. -/
theorem calc_pos_nonneg (q : ℚ) (hfloat : round32 q = F32.fin q) (h0 : 0 ≤ q)
    (h2 : q < 2147483648) :
    calc_pos (F32.fin q) =
      some { floored := ⌊q⌋, decimal := F32.fin (q - ((⌊q⌋ : Int) : ℚ)) } := by
  obtain ⟨ha, hb⟩ := floor_is_float q h0 hfloat
  have hc := to_int_in_range q (by linarith) h2
  rw [if_pos h0] at hc
  simp only [calc_pos, hc, of_int, ha, F32.sub, F32.neg, F32.add]
  rw [← sub_eq_add_neg, hb]

theorem set_keeps_x (m : matrix) (i : Int) (v : F32) : (m.set i v).x = m.x := rfl

theorem set_keeps_y (m : matrix) (i : Int) (v : F32) : (m.set i v).y = m.y := rfl

theorem set_keeps_len (m : matrix) (i : Int) (v : F32) : (m.set i v).len = m.len := rfl

theorem set_writes (m : matrix) (i : Int) (v : F32) (k : Int) :
    (m.set i v).array k = if k = i then v else m.array k := rfl

/-- One row of writes: iteration `j` writes `v j` at offset `base s.x + j`; the
dimensions stay and exactly the `n` offsets from `base s.x` on change. -/
theorem row_fill (n : Nat) (body : Int → matrix → matrix) (base : Int → Int)
    (v : Int → F32) (hbody : ∀ j s, body j s = s.set (base s.x + j) (v j)) (s : matrix) :
    (iterate_upto n body s).x = s.x ∧ (iterate_upto n body s).y = s.y ∧
    (iterate_upto n body s).len = s.len ∧
    ∀ k, (iterate_upto n body s).array k =
      if base s.x ≤ k ∧ k < base s.x + n then v (k - base s.x) else s.array k := by
  induction n with
  | zero =>
    refine ⟨rfl, rfl, rfl, fun k => ?_⟩
    have : ¬ (base s.x ≤ k ∧ k < base s.x + ((0 : Nat) : Int)) := by omega
    simp only [iterate_upto, if_neg this]
  | succ n ih =>
    obtain ⟨hx, hy, hl, ha⟩ := ih
    simp only [iterate_upto, hbody, set_keeps_x, set_keeps_y, set_keeps_len, set_writes, hx]
    refine ⟨trivial, hy, hl, fun k => ?_⟩
    rw [ha k]
    by_cases h1 : k = base s.x + n
    · have h2 : base s.x ≤ k ∧ k < base s.x + ((n + 1 : Nat) : Int) := by omega
      have h3 : k - base s.x = n := by omega
      rw [if_pos h1, if_pos h2, h3]
    · rw [if_neg h1]
      by_cases h2 : base s.x ≤ k ∧ k < base s.x + (n : Int)
      · have h3 : base s.x ≤ k ∧ k < base s.x + ((n + 1 : Nat) : Int) := by omega
        rw [if_pos h2, if_pos h3]
      · have h3 : ¬ (base s.x ≤ k ∧ k < base s.x + ((n + 1 : Nat) : Int)) := by omega
        rw [if_neg h2, if_neg h3]

/-- A grid of rows of writes never changes the dimension fields. -/
theorem grid_fill_dims (H n : Nat) (outer : Int → matrix → matrix) (base : Int → Int → Int)
    (v : Int → Int → F32) (s : matrix)
    (houter : ∀ i t, t.x = s.x → outer i t =
      iterate_upto n (fun j u => u.set (base u.x i + j) (v i j)) t) :
    (iterate_upto H outer s).x = s.x ∧ (iterate_upto H outer s).y = s.y ∧
    (iterate_upto H outer s).len = s.len := by
  induction H with
  | zero => exact ⟨rfl, rfl, rfl⟩
  | succ H ih =>
    obtain ⟨hx, hy, hl⟩ := ih
    obtain ⟨rx, ry, rl, _⟩ := row_fill n (fun j t => t.set (base t.x (H : Int) + j) (v H j))
      (fun w => base w H) (v H) (fun _ _ => rfl) (iterate_upto H outer s)
    simp only [iterate_upto]
    rw [houter _ _ hx]
    exact ⟨rx.trans hx, ry.trans hy, rl.trans hl⟩

/-- A grid of `H` rows of `n` writes, row `i` starting at offset `base s.x i`, the rows
laid out one after the other without overlap: cell `(i, j)` holds `v i j`. -/
theorem grid_fill (H n : Nat) (outer : Int → matrix → matrix) (base : Int → Int → Int)
    (v : Int → Int → F32) (s : matrix)
    (houter : ∀ i t, t.x = s.x → outer i t =
      iterate_upto n (fun j u => u.set (base u.x i + j) (v i j)) t)
    (hsep : ∀ i i2 : Int, 0 ≤ i → i < i2 → base s.x i + n ≤ base s.x i2) :
    ∀ i j : Int, 0 ≤ i → i < H → 0 ≤ j → j < n →
      (iterate_upto H outer s).array (base s.x i + j) = v i j := by
  induction H with
  | zero =>
    intro i j h0 h1 _ _
    omega
  | succ H ih =>
    obtain ⟨hx, _, _⟩ := grid_fill_dims H n outer base v s houter
    obtain ⟨_, _, _, ra⟩ := row_fill n (fun j t => t.set (base t.x (H : Int) + j) (v H j))
      (fun w => base w H) (v H) (fun _ _ => rfl) (iterate_upto H outer s)
    simp only [iterate_upto]
    rw [houter _ _ hx]
    rw [hx] at ra
    intro i j h0 h1 h2 h3
    rw [ra]
    by_cases hi : i = H
    · subst hi
      have h4 : base s.x (H : Int) ≤ base s.x (H : Int) + j ∧
          base s.x (H : Int) + j < base s.x (H : Int) + n := by omega
      have h5 : base s.x (H : Int) + j - base s.x (H : Int) = j := by omega
      rw [if_pos h4, h5]
    · have h6 : i < (H : Int) := by omega
      have h7 := hsep i H h0 h6
      have h4 : ¬ (base s.x (H : Int) ≤ base s.x i + j ∧
          base s.x i + j < base s.x (H : Int) + n) := by omega
      rw [if_neg h4]
      exact ih i j h0 h6 h2 h3

/-- A property that every iteration keeps holds after the loop. -/
theorem iterate_upto_keeps {σ : Type} (Q : σ → Prop) (n : Nat) (body : Int → σ → σ)
    (h : ∀ k t, Q t → Q (body k t)) (s : σ) (hs : Q s) : Q (iterate_upto n body s) := by
  induction n with
  | zero => exact hs
  | succ n ih => exact h _ _ ih

/-- A loop over an optional state whose `n` iterations are all defined is the loop over
the plain state. -/
theorem iterate_upto_defined {σ : Type} (n : Nat) (body : Int → Option σ → Option σ)
    (g : Int → σ → σ)
    (h : ∀ k : Nat, k < n → ∀ s, body (k : Int) (some s) = some (g (k : Int) s)) (s : σ) :
    iterate_upto n body (some s) = some (iterate_upto n g s) := by
  induction n with
  | zero => rfl
  | succ n ih =>
    simp only [iterate_upto]
    rw [ih (fun k hk => h k (by omega)), h n (by omega)]

/-- Two loops whose iterations agree compute the same. -/
theorem iterate_upto_congr {σ : Type} (n : Nat) (body g : Int → σ → σ)
    (h : ∀ k : Nat, k < n → ∀ s, body (k : Int) s = g (k : Int) s) (s : σ) :
    iterate_upto n body s = iterate_upto n g s := by
  induction n with
  | zero => rfl
  | succ n ih =>
    simp only [iterate_upto]
    rw [ih (fun k hk => h k (by omega)), h n (by omega)]

/-! ## The resampling loops -/

/-- The result of `resample` when every pixel is defined: a matrix of the converted
dimensions whose cell `(y, x)` is the clamped interpolated value of pixel `(x, y)`. -/
theorem resample_defined (matrix_p : matrix) (new_height new_width : F32) (heap : Int → F32)
    (H W : Int) (hH : to_int new_height = some H) (hW : to_int new_width = some W)
    (hdef : ∀ y x : Int, 0 ≤ y → y < H → 0 ≤ x → x < W →
      ∃ v, interpolate matrix_p new_width new_height x y = some v) :
    ∃ r : matrix, resample matrix_p new_height new_width heap = some r ∧
      r.x = W ∧ r.y = H ∧ r.len = H * W ∧
      ∀ y x : Int, 0 ≤ y → y < H → 0 ≤ x → x < W → ∀ v,
        interpolate matrix_p new_width new_height x y = some v → r.elem y x = clamp v := by
  -- the value written at `(y, x)`
  let val : Int → Int → F32 := fun y x =>
    clamp ((interpolate matrix_p new_width new_height x y).getD F32.nan)
  let inner : Int → Int → Option matrix → Option matrix := fun y x scaled_matrix =>
    match scaled_matrix, interpolate matrix_p new_width new_height x y with
    | some scaled_matrix, some value =>
      let value := clamp value
      some (scaled_matrix.set ((y * scaled_matrix.x) + x) value)
    | _, _ => none
  let g : Int → matrix → matrix := fun y t =>
    iterate_upto W.toNat (fun x u => u.set ((fun w y => y * w) u.x y + x) (val y x)) t
  have hinner : ∀ (y : Nat), y < H.toNat → ∀ t : matrix,
      for_loop W (inner y) (some t) = some (g y t) := by
    intro y hy t
    apply iterate_upto_defined
    intro x hx s
    obtain ⟨v, hv⟩ := hdef y x (by omega) (by omega) (by omega) (by omega)
    show (match some s, interpolate matrix_p new_width new_height x y with
      | some scaled_matrix, some value => some (scaled_matrix.set ((y * scaled_matrix.x) + x)
          (clamp value))
      | _, _ => none) = _
    simp only [val, hv, Option.getD_some]
  have hres : resample matrix_p new_height new_width heap =
      some (iterate_upto H.toNat g (create_matrix H W heap)) := by
    simp only [resample, hH, hW]
    exact iterate_upto_defined H.toNat _ g hinner _
  have houter : ∀ (i : Int) (t : matrix), t.x = (create_matrix H W heap).x →
      g i t = iterate_upto W.toNat
        (fun j u => u.set ((fun w y => y * w) u.x i + j) (val i j)) t :=
    fun _ _ _ => rfl
  obtain ⟨hx, hy, hl⟩ := grid_fill_dims H.toNat W.toNat g (fun w y => y * w) val
    (create_matrix H W heap) houter
  refine ⟨_, hres, hx, hy, hl, fun y x h0 h1 h2 h3 v hv => ?_⟩
  have hg := grid_fill H.toNat W.toNat g (fun w y => y * w) val
    (create_matrix H W heap) houter
    (fun i i2 h0 h1 => by
      have h2 := MatrixRes.rows_separate W 0 0 W.toNat (by omega) i i2 h0 h1
      simpa [create_matrix] using h2) y x h0 (by omega) h2 (by omega)
  have hg2 : (iterate_upto H.toNat g (create_matrix H W heap)).array (y * W + x) = val y x := hg
  have e : (create_matrix H W heap).x = W := rfl
  rw [matrix.elem, hx, e, hg2]
  simp only [val, hv, Option.getD_some]

/-- Whatever `resample` returns has the converted dimensions. -/
theorem resample_dims (matrix_p : matrix) (new_height new_width : F32) (heap : Int → F32)
    (r : matrix) (h : resample matrix_p new_height new_width heap = some r) :
    ∃ H W : Int, to_int new_height = some H ∧ to_int new_width = some W ∧
      r.x = W ∧ r.y = H ∧ r.len = H * W := by
  unfold resample at h
  cases hH : to_int new_height with
  | none => simp [hH] at h
  | some H =>
    cases hW : to_int new_width with
    | none => simp [hH, hW] at h
    | some W =>
      simp only [hH, hW] at h
      refine ⟨H, W, rfl, rfl, ?_⟩
      let Q : Option matrix → Prop := fun o => ∀ t, o = some t → t.x = W ∧ t.y = H ∧ t.len = H * W
      have hQ : Q (some r) := by
        rw [← h]
        apply iterate_upto_keeps Q
        · intro y o ho
          apply iterate_upto_keeps Q
          · intro x o2 ho2 t ht
            cases o2 with
            | none => simp at ht
            | some u =>
              cases hi : interpolate matrix_p new_width new_height x y with
              | none => simp [hi] at ht
              | some v =>
                simp only [hi] at ht
                have := Option.some.inj ht
                rw [← this]
                exact ho2 u rfl
          · exact ho
        · intro t ht
          have := Option.some.inj ht
          rw [← this]
          exact ⟨rfl, rfl, rfl⟩
      exact hQ r rfl

/-! ## Float arithmetic on special operands -/

/-- A product that is a number is a binary32 number. -/
theorem mul_is_float (a b : F32) (w : ℚ) (h : F32.mul a b = F32.fin w) :
    round32 w = F32.fin w := by
  cases a <;> cases b <;> simp only [F32.mul] at h <;> try (split_ifs at h)
  all_goals first
    | exact round32_idem _ _ h
    | exact absurd h (by simp)

theorem one_mul_float (k : F32) (hk : k.is_float = true) : F32.mul (F32.fin 1) k = k := by
  cases k with
  | fin q =>
    simp only [F32.is_float, decide_eq_true_eq] at hk
    simp only [F32.mul, one_mul, hk]
  | nan => rfl
  | pinf => simp [F32.mul]
  | ninf => simp [F32.mul]

theorem zero_mul_finite (k : F32) (hk : k.finite = true) : F32.mul (F32.fin 0) k = F32.fin 0 := by
  cases k with
  | fin q => simp only [F32.mul, zero_mul, round32_zero]
  | nan => simp [F32.finite] at hk
  | pinf => simp [F32.finite] at hk
  | ninf => simp [F32.finite] at hk

theorem zero_add_float (k : F32) (hk : k.is_float = true) : F32.add (F32.fin 0) k = k := by
  cases k with
  | fin q =>
    simp only [F32.is_float, decide_eq_true_eq] at hk
    simp only [F32.add, zero_add, hk]
  | nan => rfl
  | pinf => rfl
  | ninf => rfl

theorem add_zero_float (k : F32) (hk : k.is_float = true) : F32.add k (F32.fin 0) = k := by
  cases k with
  | fin q =>
    simp only [F32.is_float, decide_eq_true_eq] at hk
    simp only [F32.add, add_zero, hk]
  | nan => rfl
  | pinf => rfl
  | ninf => rfl

/-- With both weights 0 the blend is the first known point, provided the three others
are finite (`0 * inf` and `0 * NaN` are NaN). -/
theorem bilinear_at_zero (a b c d : F32) (ha : a.is_float = true) (hb : b.finite = true)
    (hc : c.finite = true) (hd : d.finite = true) :
    bilinear_approximation (known_points a b c d) (F32.fin 0) (F32.fin 0) = a := by
  have e1 : F32.sub (of_int 1) (F32.fin 0) = F32.fin 1 := by decide!
  have e2 : F32.mul (F32.fin 1) (F32.fin 1) = F32.fin 1 := by decide!
  have e3 : F32.mul (F32.fin 0) (F32.fin 1) = F32.fin 0 := by decide!
  have e4 : F32.mul (F32.fin 1) (F32.fin 0) = F32.fin 0 := by decide!
  have e5 : F32.mul (F32.fin 0) (F32.fin 0) = F32.fin 0 := by decide!
  simp only [bilinear_approximation, known_points, e1, e2, e3, e4, e5, one_mul_float a ha,
    zero_mul_finite b hb, zero_mul_finite c hc, zero_mul_finite d hd, zero_add_float a ha,
    add_zero_float a ha]

/-- The clamp keeps the numbers of `[0, 10000]` and sends every other float to 0. -/
theorem clamp_eq (value : F32) :
    clamp value = if value.within 0 10000 = true then value else F32.fin 0 := by
  have e1 : of_int 10000 = F32.fin 10000 := by
    have := of_int_exact 10000 (by norm_num)
    simpa using this
  cases value with
  | nan => simp [clamp, F32.isnan, F32.within]
  | pinf => simp [clamp, F32.isnan, F32.within, F32.gt, F32.lt, e1]
  | ninf => simp [clamp, F32.isnan, F32.within, F32.gt, F32.lt, of_int_zero]
  | fin q =>
    simp only [clamp, F32.isnan, F32.within, F32.gt, F32.lt, e1, of_int_zero, Bool.false_or,
      Bool.or_eq_true, decide_eq_true_eq]
    by_cases h1 : 10000 < q
    · rw [if_pos (Or.inl h1), if_neg (by
        intro h
        linarith [h.2])]
    · by_cases h2 : q < 0
      · rw [if_pos (Or.inr h2), if_neg (by
          intro h
          linarith [h.1])]
      · rw [if_neg (by
          intro h
          rcases h with h | h
          · exact h1 h
          · exact h2 h), if_pos ⟨not_lt.1 h2, not_lt.1 h1⟩]

/-! ## Source coordinates -/

/-- An `int` converted to float is a number of `[-2^31, 2^31]`; it stays below `2^31`
up to 2147483583. -/
theorem of_int_bounds (n : Int) (h0 : -2147483648 ≤ n) (h1 : n ≤ 2147483583) :
    ∃ s : ℚ, of_int n = F32.fin s ∧ -2147483648 ≤ s ∧ s ≤ 2147483520 ∧
      ((0 : Int) ≤ n → 0 ≤ s) ∧ (n ≤ 0 → s ≤ 0) := by
  by_cases hn : 0 ≤ n
  · have hr : round32 (2147483583 : ℚ) = F32.fin 2147483520 := by decide!
    obtain ⟨s, hs, hs0, hs1⟩ := round32_mono_nonneg (n : ℚ) 2147483583 2147483520
      (by exact_mod_cast hn) (by exact_mod_cast h1) hr
    refine ⟨s, hs, by linarith, hs1, fun _ => hs0, fun hn2 => ?_⟩
    have : n = 0 := le_antisymm hn2 hn
    subst this
    have h2 : of_int 0 = F32.fin s := hs
    rw [of_int_zero] at h2
    rw [← F32.fin.inj h2]
  · have hlo : round32 (-2147483648 : ℚ) = F32.fin (-2147483648) := by decide!
    obtain ⟨s, hs, hs0, hs1, _, hs3⟩ := round32_bounded (n : ℚ) (-2147483648) 0
      (by exact_mod_cast h0) (by
        have : n ≤ 0 := by omega
        exact_mod_cast this) (by norm_num) (le_refl 0) hlo round32_zero
    have hs4 : s ≤ 0 := hs1
    exact ⟨s, hs, hs0, by linarith, fun h => absurd h hn, fun _ => hs4⟩

/-- The source coordinate of a destination index inside the target is defined: the
fraction lies in `[0, 1]` and the coordinate between 0 and the source dimension. -/
theorem src_pos_defined (sx : Int) (w : ℚ) (W x : Int) (hw : round32 w = F32.fin w)
    (hW : to_int (F32.fin w) = some W) (hx0 : 0 ≤ x) (hx1 : x < W)
    (hs0 : -2147483648 ≤ sx) (hs1 : sx ≤ 2147483583) :
    ∃ p, calc_pos (F32.mul (F32.div (of_int x) (F32.fin w)) (of_int sx)) = some p := by
  obtain ⟨q, hq, hWq, _, _⟩ := to_int_some _ _ hW
  have hqw : w = q := F32.fin.inj hq
  subst hqw
  have hw0 : 0 ≤ w := by
    by_contra hc
    rw [if_neg hc] at hWq
    have : ⌈w⌉ ≤ 0 := Int.ceil_le.2 (by push_cast; linarith)
    omega
  rw [if_pos hw0] at hWq
  have hWw : (W : ℚ) ≤ w := by
    rw [hWq]
    exact Int.floor_le w
  have hxW : (x : ℚ) + 1 ≤ (W : ℚ) := by
    have : x + 1 ≤ W := by omega
    exact_mod_cast this
  have hx0q : (0 : ℚ) ≤ (x : ℚ) := by exact_mod_cast hx0
  have hwpos : 0 < w := by linarith
  obtain ⟨a, ha, ha0, ha1⟩ := round32_le (x : ℚ) w hx0q (by linarith) hw
  have h1f : round32 (1 : ℚ) = F32.fin 1 := by decide!
  obtain ⟨b, hb, hb0, hb1⟩ := round32_le (a / w) 1 (div_nonneg ha0 hw0)
    ((div_le_one hwpos).2 ha1) h1f
  obtain ⟨s, hs, hs0', hs1', _, _⟩ := of_int_bounds sx hs0 hs1
  have hlo : round32 (-2147483648 : ℚ) = F32.fin (-2147483648) := by decide!
  have hhi : round32 (2147483520 : ℚ) = F32.fin 2147483520 := by decide!
  have hbs0 : -2147483648 ≤ b * s := by
    by_cases hsn : 0 ≤ s
    · have := mul_nonneg hb0 hsn
      linarith
    · have h1 : s ≤ b * s := by nlinarith
      linarith
  have hbs1 : b * s ≤ 2147483520 := by
    by_cases hsn : 0 ≤ s
    · have h1 : b * s ≤ s := by nlinarith
      linarith
    · have h1 : b * s ≤ 0 := by nlinarith
      linarith
  obtain ⟨c, hc, hc0, hc1, _, _⟩ := round32_bounded (b * s) (-2147483648) 2147483520 hbs0 hbs1
    (by norm_num) (by norm_num) hlo hhi
  have hdiv : F32.div (of_int x) (F32.fin w) = F32.fin b := by
    have : of_int x = F32.fin a := ha
    rw [this]
    simp only [F32.div, if_neg (ne_of_gt hwpos), hb]
  have hmul : F32.mul (F32.fin b) (of_int sx) = F32.fin c := by
    rw [hs]
    simp only [F32.mul, hc]
  have hti := to_int_in_range c (by linarith) (by linarith)
  rw [hdiv, hmul]
  simp only [calc_pos, hti]
  exact ⟨_, rfl⟩

/-- Every pixel inside the target is defined when the float dimensions are binary32
numbers and the source dimensions are at most 2147483583. -/
theorem interpolate_defined (m : matrix) (h w : ℚ) (H W : Int)
    (hh : round32 h = F32.fin h) (hw : round32 w = F32.fin w)
    (hH : to_int (F32.fin h) = some H) (hW : to_int (F32.fin w) = some W)
    (hx : -2147483648 ≤ m.x ∧ m.x ≤ 2147483583) (hy : -2147483648 ≤ m.y ∧ m.y ≤ 2147483583)
    (y x : Int) (hy0 : 0 ≤ y) (hy1 : y < H) (hx0 : 0 ≤ x) (hx1 : x < W) :
    ∃ v, interpolate m (F32.fin w) (F32.fin h) x y = some v := by
  obtain ⟨px, hpx⟩ := src_pos_defined m.x w W x hw hW hx0 hx1 hx.1 hx.2
  obtain ⟨py, hpy⟩ := src_pos_defined m.y h H y hh hH hy0 hy1 hy.1 hy.2
  have e1 : src_x_pos m (F32.fin w) x = some px := hpx
  have e2 : src_y_pos m (F32.fin h) y = some py := hpy
  simp only [interpolate, e1, e2]
  exact ⟨_, rfl⟩

/-- The resampling loops return when the float dimensions are binary32 numbers in `int`
range and the source dimensions are at most 2147483583. -/
theorem resample_returns (m : matrix) (h w : ℚ) (heap : Int → F32) (H W : Int)
    (hh : round32 h = F32.fin h) (hw : round32 w = F32.fin w)
    (hH : to_int (F32.fin h) = some H) (hW : to_int (F32.fin w) = some W)
    (hx : -2147483648 ≤ m.x ∧ m.x ≤ 2147483583) (hy : -2147483648 ≤ m.y ∧ m.y ≤ 2147483583) :
    ∃ r : matrix, resample m (F32.fin h) (F32.fin w) heap = some r ∧
      r.x = W ∧ r.y = H ∧ r.len = H * W ∧
      ∀ y x : Int, 0 ≤ y → y < H → 0 ≤ x → x < W → ∀ v,
        interpolate m (F32.fin w) (F32.fin h) x y = some v → r.elem y x = clamp v :=
  resample_defined m (F32.fin h) (F32.fin w) heap H W hH hW
    (fun y x hy0 hy1 hx0 hx1 => interpolate_defined m h w H W hh hw hH hW hx hy y x hy0 hy1 hx0 hx1)

/-- In direct mode the float dimensions are the two products with the factor. -/
theorem scale_matrix_direct (m : matrix) (f : F32) (heap : Int → F32) (fuel : Nat) :
    scale_matrix m f false heap fuel =
      match resample m (F32.mul (of_int m.y) f) (F32.mul (of_int m.x) f) heap with
      | some scaled_matrix => outcome.returns scaled_matrix
      | none => outcome.undefined := rfl

/-- Direct mode returns, with the truncated float products as dimensions, when the
products are numbers in `int` range. -/
theorem scale_matrix_direct_returns (m : matrix) (f : F32) (heap : Int → F32) (fuel : Nat)
    (ph pw : ℚ) (hh : F32.mul (of_int m.y) f = F32.fin ph)
    (hw : F32.mul (of_int m.x) f = F32.fin pw)
    (hhr : -2147483649 < ph ∧ ph < 2147483648) (hwr : -2147483649 < pw ∧ pw < 2147483648)
    (hx : -2147483648 ≤ m.x ∧ m.x ≤ 2147483583) (hy : -2147483648 ≤ m.y ∧ m.y ≤ 2147483583) :
    ∃ r : matrix, scale_matrix m f false heap fuel = outcome.returns r ∧
      r.y = (if 0 ≤ ph then ⌊ph⌋ else ⌈ph⌉) ∧ r.x = (if 0 ≤ pw then ⌊pw⌋ else ⌈pw⌉) ∧
      r.len = r.y * r.x ∧
      ∀ y x : Int, 0 ≤ y → y < r.y → 0 ≤ x → x < r.x → ∀ v,
        interpolate m (F32.fin pw) (F32.fin ph) x y = some v → r.elem y x = clamp v := by
  obtain ⟨r, hr, rx, ry, rl, ra⟩ := resample_returns m ph pw heap _ _
    (mul_is_float _ _ _ hh) (mul_is_float _ _ _ hw)
    (to_int_in_range ph hhr.1 hhr.2) (to_int_in_range pw hwr.1 hwr.2) hx hy
  refine ⟨r, ?_, ry, rx, ?_, ?_⟩
  · rw [scale_matrix_direct, hh, hw, hr]
  · rw [rl, rx, ry]
  · rw [rx, ry]
    exact ra

/-- A loop over an optional state that is undefined stays undefined. -/
theorem iterate_upto_none {σ : Type} (n : Nat) (body : Int → Option σ → Option σ)
    (h : ∀ k, body k none = none) : iterate_upto n body none = none := by
  induction n with
  | zero => rfl
  | succ n ih =>
    simp only [iterate_upto]
    rw [ih, h]

/-- A loop over an optional state one of whose iterations is undefined is undefined. -/
theorem iterate_upto_undefined {σ : Type} (n : Nat) (body : Int → Option σ → Option σ)
    (k0 : Nat) (hk : k0 < n) (hstay : ∀ k, body k none = none)
    (hhit : ∀ s, body (k0 : Int) s = none) (s : Option σ) : iterate_upto n body s = none := by
  induction n with
  | zero => omega
  | succ n ih =>
    simp only [iterate_upto]
    by_cases h : k0 = n
    · rw [← h]
      exact hhit _
    · rw [ih (by omega), hstay]

/-- The resampling loops are undefined as soon as one pixel inside the target is. -/
theorem resample_undefined (matrix_p : matrix) (new_height new_width : F32) (heap : Int → F32)
    (H W : Int) (hH : to_int new_height = some H) (hW : to_int new_width = some W)
    (y x : Int) (hy0 : 0 ≤ y) (hy1 : y < H) (hx0 : 0 ≤ x) (hx1 : x < W)
    (hnone : interpolate matrix_p new_width new_height x y = none) :
    resample matrix_p new_height new_width heap = none := by
  have hstay : ∀ (y2 x2 : Int),
      (match (none : Option matrix), interpolate matrix_p new_width new_height x2 y2 with
        | some scaled_matrix, some value =>
          some (scaled_matrix.set ((y2 * scaled_matrix.x) + x2) (clamp value))
        | _, _ => none) = none := by
    intro y2 x2
    cases interpolate matrix_p new_width new_height x2 y2 <;> rfl
  have hy2 : ((y.toNat : Nat) : Int) = y := Int.toNat_of_nonneg hy0
  have hx2 : ((x.toNat : Nat) : Int) = x := Int.toNat_of_nonneg hx0
  simp only [resample, hH, hW]
  apply iterate_upto_undefined H.toNat _ y.toNat (by omega)
  · intro k
    exact iterate_upto_none W.toNat _ (fun k2 => hstay k k2)
  · intro s
    apply iterate_upto_undefined W.toNat _ x.toNat (by omega)
    · intro k2
      exact hstay ((y.toNat : Nat) : Int) k2
    · intro s2
      rw [hy2, hx2, hnone]
      cases s2 <;> rfl

/-! ## Splitting a coordinate -/

/-- A pixel whose column coordinate is undefined is undefined. -/
theorem interpolate_none_left (m : matrix) (new_width new_height : F32) (x y : Int)
    (h : src_x_pos m new_width x = none) : interpolate m new_width new_height x y = none := by
  simp only [interpolate, h]

/-- Direct mode is undefined when the resampling loops are. -/
theorem scale_matrix_direct_undefined (m : matrix) (f : F32) (heap : Int → F32) (fuel : Nat)
    (new_height new_width : F32) (hh : F32.mul (of_int m.y) f = new_height)
    (hw : F32.mul (of_int m.x) f = new_width)
    (hres : resample m new_height new_width heap = none) :
    scale_matrix m f false heap fuel = outcome.undefined := by
  rw [scale_matrix_direct, hh, hw, hres]

/-- The source column of destination column 1073741823 of a matrix of width 2147483647
scaled to the float width `2^30`: the coordinate is `2^31`, which is no `int`. -/
theorem wide_column_undefined (v : F32) :
    src_x_pos (constant_matrix 2 2147483647 v) (F32.fin 1073741824) 1073741823 = none := by
  show calc_pos (F32.mul (F32.div (of_int 1073741823) (F32.fin 1073741824))
    (of_int 2147483647)) = none
  decide!

/-- The call on a 2 by 2147483647 matrix at the factor 0.5 is undefined: the target is
1 by 1073741824, and for the destination column 1073741823 the source coordinate is
`2^31`, which is no `int`. -/
theorem scale_wide_undefined (v : F32) (heap : Int → F32) (fuel : Nat) :
    scale_matrix (constant_matrix 2 2147483647 v) (F32.fin (1 / 2)) false heap fuel =
      outcome.undefined :=
  scale_matrix_direct_undefined _ _ heap fuel (F32.fin 1) (F32.fin 1073741824)
    (by
      show F32.mul (of_int 2) (F32.fin (1 / 2)) = F32.fin 1
      decide!)
    (by
      show F32.mul (of_int 2147483647) (F32.fin (1 / 2)) = F32.fin 1073741824
      decide!)
    (resample_undefined _ _ _ heap 1 1073741824 (by decide!) (by decide!) 0 1073741823
      (by norm_num) (by norm_num) (by norm_num) (by norm_num)
      (interpolate_none_left _ _ _ _ _ (wide_column_undefined v)))

/-- C7, as stated, fails: for a matrix of width 5 and the factor `1.4f` the returned
width is 7, the float product `5.0f * 1.4f` being 7, whereas the product of 5 and the
factor rounded toward zero is 6; for the factor `1e10` the products are no `int` and
the call is undefined; and so is the call on a 2 by 2147483647 matrix at the factor
0.5, where a source coordinate is no `int`. -/
theorem direct_dims_not_exact_product :
    f_1_4 = F32.fin (11744051 / 8388608) ∧
    (scale_matrix (constant_matrix 1 5 (F32.fin 0)) f_1_4 false zero_heap 0).value.map
      (fun r => (r.y, r.x)) = some (1, 7) ∧
    (if (0 : ℚ) ≤ 5 * (11744051 / 8388608) then ⌊(5 * (11744051 / 8388608) : ℚ)⌋
      else ⌈(5 * (11744051 / 8388608) : ℚ)⌉) = 6 ∧
    (scale_matrix (constant_matrix 1 1 (F32.fin 0)) (F32.fin 10000000000) false zero_heap
      0).is_undefined = true ∧
    (scale_matrix (constant_matrix 2 2147483647 (F32.fin 0)) (F32.fin (1 / 2)) false zero_heap
      0).is_undefined = true :=
  ⟨by decide!, by decide!, by decide!, by decide!, by
    rw [scale_wide_undefined]
    rfl⟩

/-- C7, amended: for every matrix `m` of width and height at most 2147483583 and every
factor `f` for which the float products `(float)m.y * f` and `(float)m.x * f`, each
rounded to binary32, are numbers whose integer parts fit an `int`, direct mode
(`adjust = false`) returns a matrix whose height and width are these two float products
rounded toward zero, over a block of exactly height times width floats. -/
theorem scale_matrix_float_dims (m : matrix) (f : F32) (heap : Int → F32) (fuel : Nat)
    (ph pw : ℚ) (hh : F32.mul (of_int m.y) f = F32.fin ph)
    (hw : F32.mul (of_int m.x) f = F32.fin pw)
    (hhr : -2147483649 < ph ∧ ph < 2147483648) (hwr : -2147483649 < pw ∧ pw < 2147483648)
    (hx : -2147483648 ≤ m.x ∧ m.x ≤ 2147483583) (hy : -2147483648 ≤ m.y ∧ m.y ≤ 2147483583) :
    ∃ r : matrix, scale_matrix m f false heap fuel = outcome.returns r ∧
      r.y = (if 0 ≤ ph then ⌊ph⌋ else ⌈ph⌉) ∧ r.x = (if 0 ≤ pw then ⌊pw⌋ else ⌈pw⌉) ∧
      r.len = r.y * r.x := by
  obtain ⟨r, hr, ry, rx, rl, _⟩ := scale_matrix_direct_returns m f heap fuel ph pw hh hw hhr hwr
    hx hy
  exact ⟨r, hr, ry, rx, rl⟩

/-- C7, amended, at a 1 by 5 matrix and the factor `1.4f`: the float products are `1.4f`
and 7. -/
theorem scale_matrix_float_dims_witness :
    ∃ r : matrix,
      scale_matrix (constant_matrix 1 5 (F32.fin 0)) f_1_4 false zero_heap 0 =
        outcome.returns r ∧
      r.y = (if (0 : ℚ) ≤ 11744051 / 8388608 then ⌊(11744051 / 8388608 : ℚ)⌋
        else ⌈(11744051 / 8388608 : ℚ)⌉) ∧
      r.x = (if (0 : ℚ) ≤ 7 then ⌊(7 : ℚ)⌋ else ⌈(7 : ℚ)⌉) ∧
      r.len = r.y * r.x :=
  scale_matrix_float_dims (constant_matrix 1 5 (F32.fin 0)) f_1_4 zero_heap 0
    (11744051 / 8388608) 7 (by decide!) (by decide!) ⟨by norm_num, by norm_num⟩
    ⟨by norm_num, by norm_num⟩ ⟨by decide, by decide⟩ ⟨by decide, by decide⟩

/-! ## Identity scale -/

/-- A source coordinate that the float computation gives exactly splits into the index
and the fraction 0. -/
theorem calc_pos_exact (c : F32) (k : Int) (hc : c = F32.fin (k : ℚ))
    (hf : round32 (k : ℚ) = F32.fin (k : ℚ)) (h0 : 0 ≤ k) (h1 : k < 2147483648) :
    calc_pos c = some { floored := k, decimal := F32.fin 0 } := by
  have h := calc_pos_nonneg (k : ℚ) hf (by exact_mod_cast h0) (by exact_mod_cast h1)
  rw [Int.floor_intCast, sub_self] at h
  rw [hc]
  exact h

/-- C1, as stated, fails, in four ways.  The identity scale of `[[20000, 0], [0, 0]]`
holds 0 at `(0, 0)` (the clamp).  The identity scale of the 1 by 13 ramp
`[0, 100, ..., 1200]` holds `700.00006` instead of 700 at column 7, the float
computation `7 / 13 * 13` giving `7.0000005`.  The identity scale of `[[5]]` followed
in memory by `+inf` holds 0 (`0 * inf` is NaN).  The identity scale of a matrix of
width 16777217 has width 16777216, the float nearest to 16777217. -/
theorem identity_scale_differs :
    (square_20000.elem 0 0 = F32.fin 20000 ∧
      (scale_matrix square_20000 (F32.fin 1) false nan_heap 0).value.map
        (fun r => r.elem 0 0) = some (F32.fin 0)) ∧
    (ramp_1x13.elem 0 7 = F32.fin 700 ∧
      F32.mul (F32.div (of_int 7) (of_int 13)) (of_int 13) = F32.fin (7 + 1 / 2097152) ∧
      (scale_matrix ramp_1x13 (F32.fin 1) false nan_heap 0).value.map
        (fun r => (r.x, r.y, r.elem 0 7)) = some (13, 1, F32.fin (700 + 1 / 16384))) ∧
    (single_5_inf.elem 0 0 = F32.fin 5 ∧
      (scale_matrix single_5_inf (F32.fin 1) false nan_heap 0).value.map
        (fun r => r.elem 0 0) = some (F32.fin 0)) ∧
    (∃ r : matrix,
      scale_matrix (constant_matrix 1 16777217 (F32.fin 0)) (F32.fin 1) false zero_heap 0 =
        outcome.returns r ∧ r.x = 16777216) := by
  refine ⟨by decide!, by decide!, by decide!, ?_⟩
  obtain ⟨r, hr, _, rx, _, _⟩ := scale_matrix_direct_returns
    (constant_matrix 1 16777217 (F32.fin 0)) (F32.fin 1) zero_heap 0 1 16777216
    (by decide!) (by decide!) ⟨by norm_num, by norm_num⟩ ⟨by norm_num, by norm_num⟩
    ⟨by decide, by decide⟩ ⟨by decide, by decide⟩
  refine ⟨r, hr, ?_⟩
  rw [rx]
  decide!

/-- C1, amended: for every matrix `m` of positive width and height, both at most
16777216, `scale_matrix(m, 1.0, adjust = false)` returns a matrix of the same width and
height.  At a position `(row, col)` where the float computations
`(float)col / width * width` and `(float)row / height * height` give `col` and `row`
exactly and the three other floats the interpolation reads (with weight 0) are
finite, the element of the result is the element of `m` when that is a number of
`[0, 10000]`, and 0 when it is not. -/
theorem scale_matrix_identity_float (m : matrix) (heap : Int → F32) (fuel : Nat)
    (hx : 0 < m.x ∧ m.x ≤ 16777216) (hy : 0 < m.y ∧ m.y ≤ 16777216) :
    ∃ r : matrix, scale_matrix m (F32.fin 1) false heap fuel = outcome.returns r ∧
      r.x = m.x ∧ r.y = m.y ∧
      ∀ row col : Int, 0 ≤ row → row < m.y → 0 ≤ col → col < m.x →
        F32.mul (F32.div (of_int col) (of_int m.x)) (of_int m.x) = F32.fin (col : ℚ) →
        F32.mul (F32.div (of_int row) (of_int m.y)) (of_int m.y) = F32.fin (row : ℚ) →
        (m.elem row col).is_float = true →
        (m.elem row (col + 1)).finite = true →
        (m.elem (row + 1) col).finite = true →
        (m.elem (row + 1) (col + 1)).finite = true →
        ((m.elem row col).within 0 10000 = true → r.elem row col = m.elem row col) ∧
        ((m.elem row col).within 0 10000 = false → r.elem row col = F32.fin 0) := by
  have hfx : of_int m.x = F32.fin (m.x : ℚ) :=
    of_int_exact m.x (abs_le.2 ⟨by omega, by omega⟩)
  have hfy : of_int m.y = F32.fin (m.y : ℚ) :=
    of_int_exact m.y (abs_le.2 ⟨by omega, by omega⟩)
  have hmx : F32.mul (of_int m.x) (F32.fin 1) = F32.fin (m.x : ℚ) := by
    rw [hfx]
    simp only [F32.mul, mul_one]
    exact hfx
  have hmy : F32.mul (of_int m.y) (F32.fin 1) = F32.fin (m.y : ℚ) := by
    rw [hfy]
    simp only [F32.mul, mul_one]
    exact hfy
  have hxq : (0 : ℚ) < (m.x : ℚ) ∧ (m.x : ℚ) ≤ 16777216 :=
    ⟨by exact_mod_cast hx.1, by exact_mod_cast hx.2⟩
  have hyq : (0 : ℚ) < (m.y : ℚ) ∧ (m.y : ℚ) ≤ 16777216 :=
    ⟨by exact_mod_cast hy.1, by exact_mod_cast hy.2⟩
  obtain ⟨r, hr, ry, rx, _, ra⟩ := scale_matrix_direct_returns m (F32.fin 1) heap fuel
    (m.y : ℚ) (m.x : ℚ) hmy hmx ⟨by linarith, by linarith⟩ ⟨by linarith, by linarith⟩
    ⟨by omega, by omega⟩ ⟨by omega, by omega⟩
  rw [if_pos (le_of_lt hxq.1), Int.floor_intCast] at rx
  rw [if_pos (le_of_lt hyq.1), Int.floor_intCast] at ry
  rw [rx, ry] at ra
  refine ⟨r, hr, rx, ry, fun row col h0 h1 h2 h3 hxe hye ha hb hc hd => ?_⟩
  rw [hfx] at hxe
  rw [hfy] at hye
  have px : src_x_pos m (F32.fin (m.x : ℚ)) col = some { floored := col, decimal := F32.fin 0 } := by
    have := calc_pos_exact _ col hxe (mul_is_float _ _ _ hxe) h2 (by omega)
    rw [← hfx] at this
    simp only [src_x_pos]
    rw [hfx] at this ⊢
    exact this
  have py : src_y_pos m (F32.fin (m.y : ℚ)) row = some { floored := row, decimal := F32.fin 0 } := by
    have := calc_pos_exact _ row hye (mul_is_float _ _ _ hye) h0 (by omega)
    simp only [src_y_pos]
    rw [hfy]
    exact this
  have e0 : m.get ((row + 0) * m.x + col + 0) = m.elem row col := by
    simp only [matrix.get, matrix.elem, add_zero]
  have e1 : m.get ((row + 0) * m.x + col + 1) = m.elem row (col + 1) := by
    simp only [matrix.get, matrix.elem, add_zero, add_assoc]
  have e2 : m.get ((row + 1) * m.x + col + 0) = m.elem (row + 1) col := by
    simp only [matrix.get, matrix.elem, add_zero]
  have e3 : m.get ((row + 1) * m.x + col + 1) = m.elem (row + 1) (col + 1) := by
    simp only [matrix.get, matrix.elem, add_assoc]
  have hint : interpolate m (F32.fin (m.x : ℚ)) (F32.fin (m.y : ℚ)) col row =
      some (m.elem row col) := by
    simp only [interpolate, px, py, gather, e0, e1, e2, e3]
    rw [bilinear_at_zero _ _ _ _ ha hb hc hd]
  have he := ra row col h0 h1 h2 h3 _ hint
  rw [he, clamp_eq]
  constructor
  · intro hin
    rw [if_pos hin]
  · intro hout
    rw [if_neg (by rw [hout]; simp)]

/-- C1, amended, at `[[1, 2], [3, 4]]` followed by zeros, position `(1, 1)`. -/
theorem scale_matrix_identity_float_witness :
    ∃ r : matrix, scale_matrix square_1234 (F32.fin 1) false nan_heap 0 = outcome.returns r ∧
      r.x = square_1234.x ∧ r.y = square_1234.y ∧ r.elem 1 1 = square_1234.elem 1 1 := by
  obtain ⟨r, hr, rx, ry, ha⟩ := scale_matrix_identity_float square_1234 nan_heap 0
    ⟨by decide, by decide⟩ ⟨by decide, by decide⟩
  exact ⟨r, hr, rx, ry,
    (ha 1 1 (by decide) (by decide) (by decide) (by decide) (by decide!) (by decide!)
      (by decide!) (by decide!) (by decide!) (by decide!)).1 (by decide!)⟩

/-! ## The adjustment search -/

/-- One iteration of the search loop that does not exit. -/
theorem adjust_loop_continues (height width step : F32) (fuel : Nat) (scale_factor : F32)
    (escape_counter : Int) (valid_height : Bool) (hc : escape_counter ≠ 2147483647)
    (hh : test_float (F32.mul (F32.add scale_factor step) height) = some valid_height)
    (hw : test_float (F32.mul (F32.add scale_factor step) width) = some false) :
    adjust_loop height width step (fuel + 1) scale_factor escape_counter =
      adjust_loop height width step fuel (F32.add scale_factor step) (escape_counter + 1) := by
  rw [adjust_loop]
  simp only [if_neg hc, hh, hw, Bool.and_false, Bool.false_and, Bool.false_eq_true, if_false]

/-- A property of the factor that an addition of the step keeps holds of the predecessor
of every factor the loop returns. -/
theorem adjust_loop_keeps (P : F32 → Prop) (height width step : F32)
    (hstep : ∀ f, P f → P (F32.add f step)) (fuel : Nat) :
    ∀ (scale_factor : F32) (escape_counter : Int), P scale_factor →
      ∀ (sf2 : F32) (c2 : Int),
        adjust_loop height width step fuel scale_factor escape_counter =
          outcome.returns (sf2, c2) →
        ∃ sf1, P sf1 ∧ sf2 = F32.add sf1 step := by
  induction fuel with
  | zero =>
    intro sf c _ sf2 c2 h
    simp [adjust_loop] at h
  | succ fuel ih =>
    intro sf c hP sf2 c2 h
    rw [adjust_loop] at h
    by_cases hc : c = 2147483647
    · simp [hc] at h
    · simp only [if_neg hc] at h
      cases hh : test_float (F32.mul (F32.add sf step) height) with
      | none => simp [hh] at h
      | some vh =>
        cases hw : test_float (F32.mul (F32.add sf step) width) with
        | none => simp [hh, hw] at h
        | some vw =>
          simp only [hh, hw] at h
          split_ifs at h
          all_goals first
            | exact ih _ _ (hstep sf hP) sf2 c2 h
            | exact ⟨sf, hP, (congrArg Prod.fst (outcome.returns.inj h)).symm⟩

/-- The step `1e-7f` is lost when it is added to or subtracted from the factor 2.5, and
the product `2.5 * 3 = 7.5` does not test integral. -/
theorem factor_two_and_half_stuck :
    F32.sub (F32.fin (5 / 2)) (round32 (1 / 10000000)) = F32.fin (5 / 2) ∧
    F32.add (F32.fin (5 / 2)) (round32 (1 / 10000000)) = F32.fin (5 / 2) ∧
    test_float (F32.mul (F32.fin (5 / 2)) (of_int 3)) = some false := by
  decide!

/-- For height 3, width 3 and the factor 2.5 the search loop never exits: it is still
running after any number of iterations that leaves `escape_counter` an `int`, and the
next increment of the counter overflows. -/
theorem adjust_loop_stuck (fuel : Nat) : ∀ c : Int, 0 ≤ c → c ≤ 2147483647 →
    adjust_loop (of_int 3) (of_int 3) (round32 (1 / 10000000)) fuel (F32.fin (5 / 2)) c =
      if c + (fuel : Int) ≤ 2147483647 then outcome.running else outcome.undefined := by
  obtain ⟨_, hadd, htest⟩ := factor_two_and_half_stuck
  induction fuel with
  | zero =>
    intro c _ h1
    rw [if_pos (by omega)]
    rfl
  | succ fuel ih =>
    intro c h0 h1
    by_cases hc : c = 2147483647
    · rw [if_neg (by omega), adjust_loop]
      simp only [hc, if_true]
    · have ht : test_float (F32.mul (F32.add (F32.fin (5 / 2)) (round32 (1 / 10000000)))
          (of_int 3)) = some false := by
        rw [hadd]
        exact htest
      rw [adjust_loop_continues _ _ _ fuel _ c false hc ht ht, hadd, ih (c + 1) (by omega)
        (by omega)]
      by_cases h2 : c + 1 + (fuel : Int) ≤ 2147483647
      · rw [if_pos h2, if_pos (by push_cast; omega)]
      · rw [if_neg h2, if_neg (by push_cast; omega)]

/-- C5 on the code: for a 3 by 3 matrix and the factor 2.5 in adjusted mode the step
`1e-7f` is below half the spacing of the floats around 2.5, so the factor never moves
and the width product stays 7.5, which does not test integral.  The loop is still
running after 1000001 iterations and after any larger number of iterations, until the
increment of `escape_counter` overflows at 2147483647; `scale_matrix` never returns. -/
theorem adjust_search_never_stops :
    F32.sub (F32.fin (5 / 2)) (round32 (1 / 10000000)) = F32.fin (5 / 2) ∧
    F32.add (F32.fin (5 / 2)) (round32 (1 / 10000000)) = F32.fin (5 / 2) ∧
    F32.mul (F32.fin (5 / 2)) (of_int 3) = F32.fin (15 / 2) ∧
    test_float (F32.fin (15 / 2)) = some false ∧
    (∀ fuel : Nat, adjust_scale_factor (of_int 3) (of_int 3) (F32.fin (5 / 2))
        (round32 (1 / 10000000)) fuel =
      if (fuel : Int) ≤ 2147483647 then outcome.running else outcome.undefined) ∧
    adjust_scale_factor (of_int 3) (of_int 3) (F32.fin (5 / 2)) (round32 (1 / 10000000))
      1000001 = outcome.running ∧
    (∀ (v : F32) (heap : Int → F32) (fuel : Nat),
      scale_matrix (constant_matrix 3 3 v) (F32.fin (5 / 2)) true heap fuel =
        if (fuel : Int) ≤ 2147483647 then outcome.running else outcome.undefined) := by
  have hsub : F32.sub (F32.fin (5 / 2)) (round32 (1 / 10000000)) = F32.fin (5 / 2) :=
    factor_two_and_half_stuck.1
  have hall : ∀ fuel : Nat, adjust_scale_factor (of_int 3) (of_int 3) (F32.fin (5 / 2))
      (round32 (1 / 10000000)) fuel =
      if (fuel : Int) ≤ 2147483647 then outcome.running else outcome.undefined := by
    intro fuel
    have h := adjust_loop_stuck fuel 0 (le_refl 0) (by norm_num)
    rw [zero_add] at h
    simp only [adjust_scale_factor, hsub, h]
    by_cases hf : (fuel : Int) ≤ 2147483647
    · simp only [if_pos hf]
    · simp only [if_neg hf]
  have hgt : F32.gt (F32.fin (5 / 2)) (of_int 1) = true := by decide!
  refine ⟨hsub, factor_two_and_half_stuck.2.1, by decide!, by decide!, hall, ?_, ?_⟩
  · rw [hall]
    exact if_pos (by norm_num)
  · intro v heap fuel
    have h := hall fuel
    have e : scale_matrix (constant_matrix 3 3 v) (F32.fin (5 / 2)) true heap fuel =
        match adjust_scale_factor (of_int 3) (of_int 3) (F32.fin (5 / 2))
          (round32 (1 / 10000000)) fuel with
        | outcome.returns (new_height, new_width, _) =>
          match resample (constant_matrix 3 3 v) new_height new_width heap with
          | some scaled_matrix => outcome.returns scaled_matrix
          | none => outcome.undefined
        | outcome.undefined => outcome.undefined
        | outcome.running => outcome.running := by
      simp only [scale_matrix, hgt, if_true]
      rfl
    rw [e, h]
    by_cases hf : (fuel : Int) ≤ 2147483647
    · simp only [if_pos hf]
    · simp only [if_neg hf]

/-- A non-positive number rounds to a non-positive float or overflows to `-inf`. -/
theorem round32_nonpos (q : ℚ) (hq : q ≤ 0) :
    round32 q = F32.ninf ∨ ∃ u : ℚ, round32 q = F32.fin u ∧ u ≤ 0 := by
  by_cases hq0 : q = 0
  · subst hq0
    exact Or.inr ⟨0, round32_zero, le_refl 0⟩
  rw [round32_of_ne_zero q hq0]
  split
  · left
    rw [if_neg (not_lt.2 hq)]
  · right
    refine ⟨_, rfl, ?_⟩
    refine mul_nonpos_of_nonpos_of_nonneg ?_ (le_of_lt (two_zpow_pos _))
    have : round_half_even (q / 2 ^ quantum_exp q) ≤ 0 :=
      round_half_even_le _ 0 (by
        have : q / 2 ^ quantum_exp q ≤ 0 := div_nonpos_of_nonpos_of_nonneg hq
          (le_of_lt (two_zpow_pos _))
        simpa using this)
    exact_mod_cast this

/-- From the factor 0.25 the search with the step `-1e-7f` first tests `0.24999998`, and
every factor it tests is `-inf` or a number of at most `0.24999998`. -/
theorem quarter_step (f : F32)
    (hf : f = F32.fin (8388611 / 33554432) ∨ f = F32.ninf ∨
      ∃ v : ℚ, f = F32.fin v ∧ v ≤ 16777215 / 67108864) :
    F32.add f (round32 (-(1 / 10000000))) = F32.ninf ∨
      ∃ v : ℚ, F32.add f (round32 (-(1 / 10000000))) = F32.fin v ∧ v ≤ 16777215 / 67108864 := by
  have hs : round32 (-(1 / 10000000)) = F32.fin (-(14073749 / 140737488355328)) := by decide!
  rcases hf with hf | hf | ⟨v, hf, hv⟩
  · right
    rw [hf]
    exact ⟨16777215 / 67108864, by decide!, le_refl _⟩
  · left
    rw [hf, hs]
    rfl
  · rw [hf, hs]
    have e : F32.add (F32.fin v) (F32.fin (-(14073749 / 140737488355328))) =
        round32 (v + -(14073749 / 140737488355328)) := rfl
    rw [e]
    by_cases hq : 0 ≤ v + -(14073749 / 140737488355328)
    · have hc : round32 (16777215 / 67108864 : ℚ) = F32.fin (16777215 / 67108864) := by decide!
      obtain ⟨u, hu, _, hu1⟩ := round32_le _ (16777215 / 67108864) hq (by linarith) hc
      exact Or.inr ⟨u, hu, hu1⟩
    · rcases round32_nonpos _ (le_of_lt (not_le.1 hq)) with h | ⟨u, hu, hu0⟩
      · exact Or.inl h
      · exact Or.inr ⟨u, hu, by linarith⟩

/-- A factor of at most `0.24999998` gives a width product below 1 for the width 4, and
a target width of at most 0. -/
theorem quarter_width (f : F32)
    (hf : f = F32.ninf ∨ ∃ v : ℚ, f = F32.fin v ∧ v ≤ 16777215 / 67108864) (i : Int)
    (hi : to_int (F32.mul (of_int 4) f) = some i) : i ≤ 0 := by
  have h4 : of_int 4 = F32.fin 4 := by decide!
  rw [h4] at hi
  rcases hf with hf | ⟨v, hf, hv⟩
  · rw [hf] at hi
    simp [F32.mul, to_int] at hi
  · rw [hf] at hi
    have e : F32.mul (F32.fin 4) (F32.fin v) = round32 (4 * v) := rfl
    rw [e] at hi
    obtain ⟨q, hq, hiq, _, _⟩ := to_int_some _ _ hi
    by_cases hpos : 0 ≤ 4 * v
    · have hc : round32 (16777215 / 16777216 : ℚ) = F32.fin (16777215 / 16777216) := by decide!
      obtain ⟨u, hu, hu0, hu1⟩ := round32_le (4 * v) (16777215 / 16777216) hpos (by linarith) hc
      rw [hu] at hq
      have : u = q := F32.fin.inj hq
      subst this
      rw [if_pos hu0] at hiq
      have : ⌊u⌋ < 1 := Int.floor_lt.2 (by push_cast; linarith)
      omega
    · rcases round32_nonpos _ (le_of_lt (not_le.1 hpos)) with h | ⟨u, hu, hu0⟩
      · rw [h] at hq
        exact absurd hq (by simp)
      · rw [hu] at hq
        have : u = q := F32.fin.inj hq
        subst this
        by_cases hu2 : 0 ≤ u
        · rw [if_pos hu2] at hiq
          have : ⌊u⌋ ≤ 0 := by
            have : ⌊u⌋ < 1 := Int.floor_lt.2 (by push_cast; linarith)
            omega
          omega
        · rw [if_neg hu2] at hiq
          have : ⌈u⌉ ≤ 0 := Int.ceil_le.2 (by push_cast; exact hu0)
          omega

/-- Adjusted mode below 1: the search runs with the step `-1e-7f`, then the resampling
loops on the dimensions the search leaves. -/
theorem scale_matrix_adjusted_down (m : matrix) (f : F32) (heap : Int → F32) (fuel : Nat)
    (hgt : F32.gt f (of_int 1) = false) (hlt : F32.lt f (of_int 1) = true) :
    scale_matrix m f true heap fuel =
      match adjust_loop (of_int m.y) (of_int m.x) (round32 (-(1 / 10000000))) fuel
          (F32.sub f (round32 (-(1 / 10000000)))) 0 with
      | outcome.returns (scale_factor, _) =>
        match resample m (F32.mul (of_int m.y) scale_factor)
            (F32.mul (of_int m.x) scale_factor) heap with
        | some scaled_matrix => outcome.returns scaled_matrix
        | none => outcome.undefined
      | outcome.undefined => outcome.undefined
      | outcome.running => outcome.running := by
  unfold scale_matrix adjust_scale_factor
  simp only [hgt, hlt, if_true, Bool.false_eq_true, if_false]
  cases adjust_loop (of_int m.y) (of_int m.x) (round32 (-(1 / 10000000))) fuel
      (F32.sub f (round32 (-(1 / 10000000)))) 0 with
  | returns p => rfl
  | undefined => rfl
  | running => rfl

/-- Adjusted mode on a matrix of width 4 at the factor 0.25 never returns a matrix of
positive width. -/
theorem adjusted_quarter_width (m : matrix) (hx : m.x = 4) (heap : Int → F32) (fuel : Nat)
    (r : matrix) (h : scale_matrix m (F32.fin (1 / 4)) true heap fuel = outcome.returns r) :
    r.x ≤ 0 := by
  have hgt : F32.gt (F32.fin (1 / 4)) (of_int 1) = false := by decide!
  have hlt : F32.lt (F32.fin (1 / 4)) (of_int 1) = true := by decide!
  have hsub : F32.sub (F32.fin (1 / 4)) (round32 (-(1 / 10000000))) =
      F32.fin (8388611 / 33554432) := by decide!
  rw [scale_matrix_adjusted_down m _ heap fuel hgt hlt, hsub, hx] at h
  cases hl : adjust_loop (of_int m.y) (of_int 4) (round32 (-(1 / 10000000))) fuel
      (F32.fin (8388611 / 33554432)) 0 with
  | undefined =>
    rw [hl] at h
    exact absurd h (by simp)
  | running =>
    rw [hl] at h
    exact absurd h (by simp)
  | returns p =>
    obtain ⟨sf2, c2⟩ := p
    rw [hl] at h
    obtain ⟨sf1, hP, hsf⟩ := adjust_loop_keeps
      (fun f => f = F32.fin (8388611 / 33554432) ∨ f = F32.ninf ∨
        ∃ v : ℚ, f = F32.fin v ∧ v ≤ 16777215 / 67108864)
      (of_int m.y) (of_int 4) (round32 (-(1 / 10000000)))
      (fun f hf => Or.inr (quarter_step f hf)) fuel _ 0 (Or.inl rfl) sf2 c2 hl
    have hI := quarter_step sf1 hP
    rw [← hsf] at hI
    cases hr : resample m (F32.mul (of_int m.y) sf2) (F32.mul (of_int 4) sf2) heap with
    | none =>
      have h2 : (match resample m (F32.mul (of_int m.y) sf2) (F32.mul (of_int 4) sf2) heap with
        | some scaled_matrix => outcome.returns scaled_matrix
        | none => outcome.undefined) = outcome.returns r := h
      rw [hr] at h2
      exact absurd h2 (by simp)
    | some r2 =>
      have h2 : (match resample m (F32.mul (of_int m.y) sf2) (F32.mul (of_int 4) sf2) heap with
        | some scaled_matrix => outcome.returns scaled_matrix
        | none => outcome.undefined) = outcome.returns r := h
      rw [hr] at h2
      have hr2 : r2 = r := outcome.returns.inj h2
      subst hr2
      obtain ⟨H, W, _, hW, rx, _, _⟩ := resample_dims _ _ _ _ _ hr
      rw [rx]
      exact quarter_width sf2 hI W hW

/-- C18 on the code: for a 4 by 4 matrix and the factor 0.25 both products are the
integer 1, and direct mode returns a 1 by 1 matrix.  In adjusted mode the first factor
tested is `(0.25f + 1e-7f) - 1e-7f = 0.24999998`, not 0.25; its product with 4 does not
test integral, so the search goes on (it is still running after 10 iterations), and
no exit of the search gives a matrix of positive width. -/
theorem adjust_moves_exact_factor :
    F32.mul (of_int 4) (F32.fin (1 / 4)) = F32.fin 1 ∧
    F32.add (F32.sub (F32.fin (1 / 4)) (round32 (-(1 / 10000000))))
      (round32 (-(1 / 10000000))) = F32.fin (16777215 / 67108864) ∧
    test_float (F32.mul (F32.fin (16777215 / 67108864)) (of_int 4)) = some false ∧
    (adjust_scale_factor (of_int 4) (of_int 4) (F32.fin (1 / 4)) (round32 (-(1 / 10000000)))
      10).is_running = true ∧
    (∀ (v : F32) (heap : Int → F32) (fuel : Nat), ∃ r : matrix,
      scale_matrix (constant_matrix 4 4 v) (F32.fin (1 / 4)) false heap fuel =
        outcome.returns r ∧ r.x = 1 ∧ r.y = 1) ∧
    (∀ (v : F32) (heap : Int → F32) (fuel : Nat) (r : matrix),
      scale_matrix (constant_matrix 4 4 v) (F32.fin (1 / 4)) true heap fuel =
        outcome.returns r → r.x ≤ 0) := by
  refine ⟨by decide!, by decide!, by decide!, by decide!, fun v heap fuel => ?_,
    fun v heap fuel r h => adjusted_quarter_width _ rfl heap fuel r h⟩
  obtain ⟨r, hr, ry, rx, _, _⟩ := scale_matrix_direct_returns (constant_matrix 4 4 v)
    (F32.fin (1 / 4)) heap fuel 1 1 (by
      show F32.mul (of_int 4) (F32.fin (1 / 4)) = F32.fin 1
      decide!) (by
      show F32.mul (of_int 4) (F32.fin (1 / 4)) = F32.fin 1
      decide!) ⟨by norm_num, by norm_num⟩ ⟨by norm_num, by norm_num⟩
    ⟨by show (-2147483648 : Int) ≤ 4; norm_num, by show (4 : Int) ≤ 2147483583; norm_num⟩
    ⟨by show (-2147483648 : Int) ≤ 4; norm_num, by show (4 : Int) ≤ 2147483583; norm_num⟩
  refine ⟨r, hr, ?_, ?_⟩
  · rw [rx]
    decide!
  · rw [ry]
    decide!

/-! ## Density projections -/

theorem float_sum_succ (f : Nat → F32) (n : Nat) :
    float_sum f (n + 1) = F32.add (float_sum f n) (f n) := rfl

/-- The accumulation loop `sum += f(i)` from 0 computes the running float sum. -/
theorem sum_loop_float (n : Nat) (f : Int → F32) :
    iterate_upto n (fun i sum => F32.add sum (f i)) (of_int 0) =
      float_sum (fun i => f (i : Int)) n := by
  induction n with
  | zero => exact of_int_zero
  | succ n ih =>
    rw [float_sum_succ, ← ih]
    rfl

theorem within_float {v : F32} {lo hi : ℚ} (h : v.within lo hi = true) :
    ∃ q, v = F32.fin q ∧ lo ≤ q ∧ q ≤ hi := by
  cases v with
  | fin q =>
    simp only [F32.within, decide_eq_true_eq] at h
    exact ⟨q, rfl, h.1, h.2⟩
  | nan => simp [F32.within] at h
  | pinf => simp [F32.within] at h
  | ninf => simp [F32.within] at h

/-- The result of `horiz_density`: a matrix of width 1 and of the height of the source
whose float at offset `row` is the running float sum of the source row, over the
width, over 255. -/
theorem horiz_density_float (m : matrix) (heap : Int → F32) :
    (horiz_density m heap).x = 1 ∧ (horiz_density m heap).y = m.y ∧
    ∀ row : Int, 0 ≤ row → row < m.y →
      (horiz_density m heap).array row =
        F32.div (F32.div (float_sum (fun c => m.array (row * m.x + (c : Int))) m.x.toNat)
          (of_int m.x)) (F32.fin 255) := by
  obtain ⟨hx, hy, _, ha⟩ := row_fill m.y.toNat
    (fun y densities =>
      let sum : F32 := of_int 0
      let sum := for_loop m.x (fun x sum => F32.add sum (m.get ((y * m.x) + x))) sum
      let sum := F32.div sum (of_int m.x)
      let sum := F32.div sum (F32.fin 255)
      densities.set y sum)
    (fun _ => 0)
    (fun y => F32.div (F32.div (float_sum (fun c => m.array (y * m.x + (c : Int))) m.x.toNat)
      (of_int m.x)) (F32.fin 255))
    (fun j s => by
      simp only [zero_add, for_loop, matrix.get]
      rw [sum_loop_float m.x.toNat (fun x => m.array (j * m.x + x))])
    (create_matrix m.y 1 heap)
  refine ⟨hx, hy, fun row h0 h1 => ?_⟩
  have h := ha row
  rw [if_pos (by omega), sub_zero] at h
  exact h

/-- The result of `vert_density`: a matrix of height 1 and of the width of the source
whose float at offset `col` is the running float sum of the source column, over the
height, over 255. -/
theorem vert_density_float (m : matrix) (heap : Int → F32) :
    (vert_density m heap).x = m.x ∧ (vert_density m heap).y = 1 ∧
    ∀ col : Int, 0 ≤ col → col < m.x →
      (vert_density m heap).array col =
        F32.div (F32.div (float_sum (fun r => m.array ((r : Int) * m.x + col)) m.y.toNat)
          (of_int m.y)) (F32.fin 255) := by
  obtain ⟨hx, hy, _, ha⟩ := row_fill m.x.toNat
    (fun x densities =>
      let sum : F32 := of_int 0
      let sum := for_loop m.y (fun y sum => F32.add sum (m.get ((y * m.x) + x))) sum
      let sum := F32.div sum (of_int m.y)
      let sum := F32.div sum (F32.fin 255)
      densities.set x sum)
    (fun _ => 0)
    (fun x => F32.div (F32.div (float_sum (fun r => m.array ((r : Int) * m.x + x)) m.y.toNat)
      (of_int m.y)) (F32.fin 255))
    (fun j s => by
      simp only [zero_add, for_loop, matrix.get]
      rw [sum_loop_float m.y.toNat (fun y => m.array (y * m.x + j))])
    (create_matrix 1 m.x heap)
  refine ⟨hx, hy, fun col h0 h1 => ?_⟩
  have h := ha col
  rw [if_pos (by omega), sub_zero] at h
  exact h

/-- The running float sum of at most 65796 floats of `[0, 255]` does not exceed 255 times
their number: up to 65794 terms the bound `255 * n` is itself a float, and the two next
bounds round to 16777724 and 16777980. -/
theorem float_sum_bound (f : Nat → F32) (n : Nat) (hn : n ≤ 65796)
    (h : ∀ i, i < n → (f i).within 0 255 = true) :
    ∃ s : ℚ, float_sum f n = F32.fin s ∧ 0 ≤ s ∧ s ≤ 255 * (n : ℚ) ∧
      (n = 65795 → s ≤ 16777724) := by
  induction n with
  | zero =>
    exact ⟨0, rfl, le_refl 0, by norm_num, fun h => by omega⟩
  | succ n ih =>
    obtain ⟨s, hs, hs0, hs1, hs2⟩ := ih (by omega) (fun i hi => h i (by omega))
    obtain ⟨a, ha, ha0, ha1⟩ := within_float (h n (by omega))
    have e : float_sum f (n + 1) = round32 (s + a) := by
      rw [float_sum_succ, hs, ha]
      rfl
    rw [e]
    have hsa0 : 0 ≤ s + a := by linarith
    have hcast : ((n + 1 : Nat) : ℚ) = (n : ℚ) + 1 := by push_cast; ring
    by_cases h1 : n + 1 ≤ 65793
    · have hB : round32 (((255 * (n + 1 : Nat) : Int)) : ℚ) =
          F32.fin (((255 * (n + 1 : Nat) : Int)) : ℚ) :=
        round32_intCast _ (by
          rw [abs_of_nonneg (by positivity)]
          have : (255 : Int) * ((n + 1 : Nat) : Int) ≤ 255 * 65793 := by
            have : ((n + 1 : Nat) : Int) ≤ 65793 := by exact_mod_cast h1
            omega
          omega)
      obtain ⟨u, hu, hu0, hu1⟩ := round32_le (s + a) _ hsa0 (by
        push_cast
        linarith) hB
      refine ⟨u, hu, hu0, ?_, fun h => by omega⟩
      push_cast at hu1 ⊢
      linarith
    · by_cases h2 : n + 1 = 65794
      · have hB : round32 (16777470 : ℚ) = F32.fin 16777470 := by decide!
        have hn2 : (n : ℚ) = 65793 := by
          have : n = 65793 := by omega
          rw [this]
          norm_num
        obtain ⟨u, hu, hu0, hu1⟩ := round32_le (s + a) 16777470 hsa0 (by
          rw [hn2] at hs1
          linarith) hB
        refine ⟨u, hu, hu0, ?_, fun h => by omega⟩
        rw [hcast, hn2]
        linarith
      · by_cases h3 : n + 1 = 65795
        · have hB : round32 (16777725 : ℚ) = F32.fin 16777724 := by decide!
          have hn2 : (n : ℚ) = 65794 := by
            have : n = 65794 := by omega
            rw [this]
            norm_num
          obtain ⟨u, hu, hu0, hu1⟩ := round32_mono_nonneg (s + a) 16777725 16777724 hsa0 (by
            rw [hn2] at hs1
            linarith) hB
          refine ⟨u, hu, hu0, ?_, fun _ => hu1⟩
          rw [hcast, hn2]
          linarith
        · have hn3 : n = 65795 := by omega
          have hB : round32 (16777979 : ℚ) = F32.fin 16777980 := by decide!
          have hn2 : (n : ℚ) = 65795 := by
            rw [hn3]
            norm_num
          obtain ⟨u, hu, hu0, hu1⟩ := round32_mono_nonneg (s + a) 16777979 16777980 hsa0 (by
            have := hs2 hn3
            linarith) hB
          refine ⟨u, hu, hu0, ?_, fun h => by omega⟩
          rw [hcast, hn2]
          linarith

/-- The mean over 255 of a float sum of at most `255 * n`, for `0 < n ≤ 65796`, is a
float of `[0, 1]`. -/
theorem mean_over_255 (s : ℚ) (n : Int) (hn0 : 0 < n) (hn1 : n ≤ 65796) (hs0 : 0 ≤ s)
    (hs1 : s ≤ 255 * (n : ℚ)) :
    (F32.div (F32.div (F32.fin s) (of_int n)) (F32.fin 255)).within 0 1 = true := by
  have hfn : of_int n = F32.fin (n : ℚ) := of_int_exact n (abs_le.2 ⟨by omega, by omega⟩)
  have hnq : (0 : ℚ) < (n : ℚ) := by exact_mod_cast hn0
  have h255 : round32 (255 : ℚ) = F32.fin 255 := by decide!
  have h1 : round32 (1 : ℚ) = F32.fin 1 := by decide!
  obtain ⟨u, hu, hu0, hu1⟩ := round32_le (s / n) 255 (div_nonneg hs0 (le_of_lt hnq))
    ((div_le_iff₀ hnq).2 hs1) h255
  obtain ⟨t, ht, ht0, ht1⟩ := round32_le (u / 255) 1 (div_nonneg hu0 (by norm_num))
    ((div_le_one (by norm_num)).2 hu1) h1
  have e1 : F32.div (F32.fin s) (F32.fin (n : ℚ)) = F32.fin u := by
    simp only [F32.div, if_neg (ne_of_gt hnq), hu]
  have e2 : F32.div (F32.fin u) (F32.fin 255) = F32.fin t := by
    have : (255 : ℚ) ≠ 0 := by norm_num
    simp only [F32.div, if_neg this, ht]
  rw [hfn, e1, e2]
  simp only [F32.within, decide_eq_true_eq]
  exact ⟨ht0, ht1⟩

/-- The running float sum of `n ≤ 65794` floats 255 is `255 * n`, without rounding
error. -/
theorem float_sum_255 (n : Nat) (hn : n ≤ 65794) :
    float_sum (fun _ => F32.fin 255) n = F32.fin (255 * (n : ℚ)) := by
  induction n with
  | zero =>
    show F32.fin 0 = _
    norm_num
  | succ n ih =>
    rw [float_sum_succ, ih (by omega)]
    have e : F32.add (F32.fin (255 * (n : ℚ))) (F32.fin 255) = round32 (255 * (n : ℚ) + 255) := rfl
    rw [e]
    have hcast : (255 : ℚ) * (n : ℚ) + 255 = (((255 * (n + 1 : Nat) : Int)) : ℚ) := by
      push_cast
      ring
    have hcast2 : (255 : ℚ) * ((n + 1 : Nat) : ℚ) = (((255 * (n + 1 : Nat) : Int)) : ℚ) := by
      push_cast
      ring
    rw [hcast, hcast2]
    by_cases h1 : n + 1 ≤ 65793
    · exact round32_intCast _ (by
        rw [abs_of_nonneg (by positivity)]
        have : ((n + 1 : Nat) : Int) ≤ 65793 := by exact_mod_cast h1
        omega)
    · have hn2 : n + 1 = 65794 := by omega
      rw [hn2]
      decide!

/-- The running float sum of 65797 floats 255 is 16778236, one more than
`255 * 65797`. -/
theorem float_sum_255_overshoots :
    float_sum (fun _ => F32.fin 255) 65797 = F32.fin 16778236 := by
  have h0 := float_sum_255 65794 (le_refl _)
  have h1 : float_sum (fun _ => F32.fin 255) 65795 = F32.fin 16777724 := by
    rw [float_sum_succ (fun _ => F32.fin 255) 65794, h0]
    decide!
  have h2 : float_sum (fun _ => F32.fin 255) 65796 = F32.fin 16777980 := by
    rw [float_sum_succ (fun _ => F32.fin 255) 65795, h1]
    decide!
  rw [float_sum_succ (fun _ => F32.fin 255) 65796, h2]
  decide!

/-- C16, as stated, fails.  On a matrix of width 0 and height 1 the entry of
`horiz_density` is `0 / 0`, NaN.  On a row of 65797 floats 255 the running float sum
is 16778236, above `255 * 65797`, and the entry of `horiz_density` is `1.0000001`; the
same holds of `vert_density` on a column of 65797 floats 255. -/
theorem density_above_one :
    (horiz_density (constant_matrix 1 0 (F32.fin 0)) zero_heap).elem 0 0 = F32.nan ∧
    (horiz_density (constant_matrix 1 65797 (F32.fin 255)) zero_heap).elem 0 0 =
      F32.fin (1 + 1 / 8388608) ∧
    (vert_density (constant_matrix 65797 1 (F32.fin 255)) zero_heap).elem 0 0 =
      F32.fin (1 + 1 / 8388608) ∧
    ((horiz_density (constant_matrix 1 65797 (F32.fin 255)) zero_heap).elem 0 0).within 0 1 =
      false := by
  have hdiv : F32.div (F32.div (F32.fin 16778236) (of_int 65797)) (F32.fin 255) =
      F32.fin (1 + 1 / 8388608) := by decide!
  have hh : (horiz_density (constant_matrix 1 65797 (F32.fin 255)) zero_heap).elem 0 0 =
      F32.fin (1 + 1 / 8388608) := by
    obtain ⟨hx, _, ha⟩ := horiz_density_float (constant_matrix 1 65797 (F32.fin 255)) zero_heap
    have h := ha 0 (le_refl 0) (by decide)
    rw [matrix.elem, hx, mul_one, add_zero, h]
    have e : float_sum (fun c : Nat => (constant_matrix 1 65797 (F32.fin 255)).array
        (0 * (constant_matrix 1 65797 (F32.fin 255)).x + (c : Int)))
        (constant_matrix 1 65797 (F32.fin 255)).x.toNat =
        float_sum (fun _ => F32.fin 255) 65797 := rfl
    rw [e, float_sum_255_overshoots]
    exact hdiv
  have hv : (vert_density (constant_matrix 65797 1 (F32.fin 255)) zero_heap).elem 0 0 =
      F32.fin (1 + 1 / 8388608) := by
    obtain ⟨_, _, ha⟩ := vert_density_float (constant_matrix 65797 1 (F32.fin 255)) zero_heap
    have h := ha 0 (le_refl 0) (by decide)
    rw [matrix.elem, zero_mul, zero_add, h]
    have e : float_sum (fun r : Nat => (constant_matrix 65797 1 (F32.fin 255)).array
        ((r : Int) * (constant_matrix 65797 1 (F32.fin 255)).x + 0))
        (constant_matrix 65797 1 (F32.fin 255)).y.toNat =
        float_sum (fun _ => F32.fin 255) 65797 := rfl
    rw [e, float_sum_255_overshoots]
    exact hdiv
  refine ⟨by decide!, hh, hv, ?_⟩
  rw [hh]
  decide!

/-- C16, amended: for every matrix `m` all of whose elements lie in `[0, 255]`,
`horiz_density(m)` is a height by 1 matrix and `vert_density(m)` a 1 by width matrix;
each entry is the running float sum of its row (column), over the number of summed
elements, over 255, every operation rounded to binary32; the entries of
`horiz_density(m)` lie in `[0, 1]` when the width is positive and at most 65796, those of
`vert_density(m)` when the height is positive and at most 65796. -/
theorem density_entries_float (m : matrix) (heap : Int → F32)
    (helems : ∀ row col : Int, 0 ≤ row → row < m.y → 0 ≤ col → col < m.x →
      (m.elem row col).within 0 255 = true) :
    (horiz_density m heap).y = m.y ∧ (horiz_density m heap).x = 1 ∧
    (vert_density m heap).y = 1 ∧ (vert_density m heap).x = m.x ∧
    (∀ row : Int, 0 ≤ row → row < m.y →
      (horiz_density m heap).elem row 0 =
        F32.div (F32.div (float_sum (fun c => m.elem row (c : Int)) m.x.toNat) (of_int m.x))
          (F32.fin 255) ∧
      (0 < m.x → m.x ≤ 65796 → ((horiz_density m heap).elem row 0).within 0 1 = true)) ∧
    (∀ col : Int, 0 ≤ col → col < m.x →
      (vert_density m heap).elem 0 col =
        F32.div (F32.div (float_sum (fun r => m.elem (r : Int) col) m.y.toNat) (of_int m.y))
          (F32.fin 255) ∧
      (0 < m.y → m.y ≤ 65796 → ((vert_density m heap).elem 0 col).within 0 1 = true)) := by
  obtain ⟨ax, ay, aa⟩ := horiz_density_float m heap
  obtain ⟨bx, by2, ba⟩ := vert_density_float m heap
  refine ⟨ay, ax, by2, bx, fun row h0 h1 => ?_, fun col h0 h1 => ?_⟩
  · have he : (horiz_density m heap).elem row 0 =
        F32.div (F32.div (float_sum (fun c => m.elem row (c : Int)) m.x.toNat) (of_int m.x))
          (F32.fin 255) := by
      rw [matrix.elem, ax, mul_one, add_zero, aa row h0 h1]
      rfl
    refine ⟨he, fun hx0 hx1 => ?_⟩
    obtain ⟨s, hs, hs0, hs1, _⟩ := float_sum_bound (fun c => m.elem row (c : Int)) m.x.toNat
      (by omega) (fun i hi => helems row i h0 h1 (by omega) (by omega))
    have hc : ((m.x.toNat : Nat) : ℚ) = (m.x : ℚ) := by
      rw [← Int.cast_natCast, Int.toNat_of_nonneg (le_of_lt hx0)]
    rw [hc] at hs1
    rw [he, hs]
    exact mean_over_255 s m.x hx0 hx1 hs0 hs1
  · have he : (vert_density m heap).elem 0 col =
        F32.div (F32.div (float_sum (fun r => m.elem (r : Int) col) m.y.toNat) (of_int m.y))
          (F32.fin 255) := by
      rw [matrix.elem, zero_mul, zero_add, ba col h0 h1]
      rfl
    refine ⟨he, fun hy0 hy1 => ?_⟩
    obtain ⟨s, hs, hs0, hs1, _⟩ := float_sum_bound (fun r => m.elem (r : Int) col) m.y.toNat
      (by omega) (fun i hi => helems i col (by omega) (by omega) h0 h1)
    have hc : ((m.y.toNat : Nat) : ℚ) = (m.y : ℚ) := by
      rw [← Int.cast_natCast, Int.toNat_of_nonneg (le_of_lt hy0)]
    rw [hc] at hs1
    rw [he, hs]
    exact mean_over_255 s m.y hy0 hy1 hs0 hs1

/-- C16, amended, at `[[1, 2], [3, 4]]`: the entry of row 1 and the entry of column 1 lie
in `[0, 1]`. -/
theorem density_entries_float_witness :
    (horiz_density square_1234 nan_heap).y = 2 ∧ (horiz_density square_1234 nan_heap).x = 1 ∧
    (vert_density square_1234 nan_heap).y = 1 ∧ (vert_density square_1234 nan_heap).x = 2 ∧
    ((horiz_density square_1234 nan_heap).elem 1 0).within 0 1 = true ∧
    ((vert_density square_1234 nan_heap).elem 0 1).within 0 1 = true := by
  obtain ⟨h1, h2, h3, h4, hh, hv⟩ := density_entries_float square_1234 nan_heap
    (fun row col h0 h1 h2 h3 => by
      have hr : row = 0 ∨ row = 1 := by
        have : row < 2 := h1
        omega
      have hc : col = 0 ∨ col = 1 := by
        have : col < 2 := h3
        omega
      rcases hr with rfl | rfl <;> rcases hc with rfl | rfl <;> decide!)
  exact ⟨h1, h2, h3, h4, (hh 1 (by decide) (by decide)).2 (by decide) (by decide),
    (hv 1 (by decide) (by decide)).2 (by decide) (by decide)⟩

/-! ## The two layers on the same inputs -/

/-- Every matrix `scale_matrix` returns comes out of the resampling loops, run on some
float dimensions. -/
theorem scale_matrix_returns (m : matrix) (f : F32) (adjust : Bool) (heap : Int → F32)
    (fuel : Nat) (r : matrix) (h : scale_matrix m f adjust heap fuel = outcome.returns r) :
    ∃ new_height new_width : F32, resample m new_height new_width heap = some r := by
  unfold scale_matrix at h
  simp only at h
  split at h
  · next nh nw _ _ =>
    cases hr : resample m nh nw heap with
    | none =>
      rw [hr] at h
      exact absurd h (by simp)
    | some r2 =>
      rw [hr] at h
      have hr3 : r2 = r := outcome.returns.inj h
      rw [hr3] at hr
      exact ⟨nh, nw, hr⟩
  · exact absurd h (by simp)
  · exact absurd h (by simp)

/-- The clamp on binary32 floats: every element of a matrix `scale_matrix` returns is a
number of `[0, 10000]`, whatever the mode and the factor. -/
theorem scale_matrix_clamped_float (m : matrix) (f : F32) (adjust : Bool) (heap : Int → F32)
    (fuel : Nat) (r : matrix) (h : scale_matrix m f adjust heap fuel = outcome.returns r)
    (y x : Int) (hy0 : 0 ≤ y) (hy1 : y < r.y) (hx0 : 0 ≤ x) (hx1 : x < r.x) :
    (r.elem y x).within 0 10000 = true := by
  obtain ⟨nh, nw, hres⟩ := scale_matrix_returns m f adjust heap fuel r h
  obtain ⟨H, W, hH, hW, rx, ry, _⟩ := resample_dims m nh nw heap r hres
  have hdef : ∀ y x : Int, 0 ≤ y → y < H → 0 ≤ x → x < W →
      ∃ v, interpolate m nw nh x y = some v := by
    intro y2 x2 h0 h1 h2 h3
    cases hi : interpolate m nw nh x2 y2 with
    | some v => exact ⟨v, rfl⟩
    | none =>
      have := resample_undefined m nh nw heap H W hH hW y2 x2 h0 h1 h2 h3 hi
      rw [this] at hres
      exact absurd hres (by simp)
  obtain ⟨r2, hr2, _, _, _, ha⟩ := resample_defined m nh nw heap H W hH hW hdef
  rw [hres] at hr2
  have hr3 : r = r2 := Option.some.inj hr2
  subst hr3
  rw [ry] at hy1
  rw [rx] at hx1
  obtain ⟨v, hv⟩ := hdef y x hy0 hy1 hx0 hx1
  rw [ha y x hy0 hy1 hx0 hx1 v hv, clamp_eq]
  by_cases hw : v.within 0 10000 = true
  · rw [if_pos hw]
    exact hw
  · rw [if_neg hw]
    decide!

/-- The failing inputs found on the exact layer behave in the same way on binary32
floats: scaling `[[0, 255], [255, 0]]` by 2 gives the corners 0, 255, 127.5 and 0; in
the identity scale of a 1 by 1 matrix the only pixel has the source position `(0, 0)`
with both fractions 0, so that it reads the flat offsets 0, 1, 1 and 2; the identity
scale of `[[10000, 0], [0, 0]]` keeps 10000; and adjusted mode on a 1 by 1 matrix at
the factor `2^-25` stops at its second iteration, on a negative factor, with a 0 by 0
result. -/
theorem float_layer_agrees :
    (scale_matrix checker_2x2 (F32.fin 2) false nan_heap 0).value.map
        (fun r => (r.x, r.y, r.elem 0 0, r.elem 0 3, r.elem 3 0, r.elem 3 3)) =
      some (4, 4, F32.fin 0, F32.fin 255, F32.fin (255 / 2), F32.fin 0) ∧
    src_x_pos single_5_inf (F32.mul (of_int 1) (F32.fin 1)) 0 =
      some { floored := 0, decimal := F32.fin 0 } ∧
    src_y_pos single_5_inf (F32.mul (of_int 1) (F32.fin 1)) 0 =
      some { floored := 0, decimal := F32.fin 0 } ∧
    (scale_matrix square_10000 (F32.fin 1) false nan_heap 0).value.map
        (fun r => r.elem 0 0) = some (F32.fin 10000) ∧
    (adjust_scale_factor (of_int 1) (of_int 1) (F32.fin (1 / 33554432))
        (round32 (-(1 / 10000000))) 2).value.map
        (fun r => (F32.lt r.2.2 (F32.fin 0), to_int r.1, to_int r.2.1)) =
      some (true, some 0, some 0) ∧
    (adjust_scale_factor (of_int 1) (of_int 1) (F32.fin (1 / 33554432))
        (round32 (-(1 / 10000000))) 1).is_running = true ∧
    (scale_matrix single_5_inf (F32.fin (1 / 33554432)) true nan_heap 2).value.map
        (fun r => (r.x, r.y)) = some (0, 0) := by
  decide!

end Binary32

end MatrixRes
